import Mathlib

/-!
Concurrent shamans: sequential and team adventures

A shallow embedding of `src/adventure.h` (knapsack by dynamic programming,
randomised quicksort, maximum selection; each in a sequential and a
thread-pool variant) together with theorems about it.

Conventions of the embedding:
* `size_t` values are natural numbers below `2 ^ 64`; the sums and differences
  of the knapsack (`sizeAdd`, `sizeSub`), `grains.size() - 1` and the
  barrier's `counter--` are taken modulo `2 ^ 64`.
* next to `packEggs` the file holds `packEggsNat`, the same loops with the
  weights added as natural numbers (no wrap-around); the two agree while the
  weights of the eggs sum to less than `2 ^ 64`.
* `getDivisionPoint` draws in the type `int`: its arguments are narrowed to 32
  bits and its result is converted back to `size_t`.
* the heap-allocated table `size_t **DP` is a function `Nat → Nat → Nat`; its
  contents before the first write are an arbitrary parameter (`new size_t[..]`
  leaves them indeterminate).
* a `std::vector` is a list; an access outside its bounds and a division by
  zero are undefined behaviour and are modelled by the result `none`.
* random draws and the order in which the pool runs its tasks are parameters
  of the functions that depend on them.
-/

/-! ## Value types (`types.h`) -/

/-- Modelled from the spec: `types.h` is not among the sources. An item is an
immutable pair of a size and a weight, both non-negative integers. -/
structure Egg where
  size : Nat
  weight : Nat
deriving DecidableEq, Repr, Inhabited

/-- Accessor `Egg::getSize`. -/
def Egg.getSize (e : Egg) : Nat := e.size

/-- Accessor `Egg::getWeight`. -/
def Egg.getWeight (e : Egg) : Nat := e.weight

/-- Modelled from the spec: `types.h` is not among the sources. The target
container holds a fixed capacity and a growable collection of accepted items. -/
structure BottomlessBag where
  capacity : Nat
  eggs : List Egg
deriving DecidableEq, Repr

/-- Accessor `BottomlessBag::getCapacity`. -/
def BottomlessBag.getCapacity (bag : BottomlessBag) : Nat := bag.capacity

/-- Modelled from the spec: the accept operation `BottomlessBag::addEgg`
appends the item to the collection of accepted items. -/
def BottomlessBag.addEgg (bag : BottomlessBag) (egg : Egg) : BottomlessBag :=
  { bag with eggs := bag.eggs ++ [egg] }

/-- Sum of the sizes of a list of eggs. -/
def sizeSum (es : List Egg) : Nat := (es.map Egg.getSize).sum

/-- Sum of the weights of a list of eggs. -/
def weightSum (es : List Egg) : Nat := (es.map Egg.getWeight).sum

/-! ## The dynamic-programming table -/

/-- The table `size_t **DP`, indexed by row and column. -/
abbrev Table := Nat → Nat → Nat

/-- The assignment `DP[p][a] = v`. -/
def Table.write (DP : Table) (p a v : Nat) : Table :=
  fun i j => if i = p ∧ j = a then v else DP i j

/-- Element `eggs[i]` of the egg vector (every index used by `packEggs` is in
`[0, eggs.size())`). -/
def eggAt (eggs : List Egg) (i : Nat) : Egg := eggs.getD i default

/-- The helper `max_ab` of both adventures. -/
def max_ab (a b : Nat) : Nat := if a ≥ b then a else b

/-- The loop `for (i = 0; i <= cap; ++i) DP[0][i] = 0;`. -/
def initRow (DP : Table) (cap : Nat) : Table :=
  (List.range (cap + 1)).foldl (fun D i => D.write 0 i 0) DP

/-- The sum `x + y` of two values of type `size_t`. -/
def sizeAdd (x y : Nat) : Nat := (x + y) % 2 ^ 64

/-- The difference `x - y` of two values of type `size_t` (both below
`2 ^ 64`). -/
def sizeSub (x y : Nat) : Nat := (x + 2 ^ 64 - y) % 2 ^ 64

/-- One cell of row `p`: the body of the inner loop of `packEggs` (and of
`segmentKnapsack`) for an egg of size `s` and weight `w`, with the sum in
`DP[p][a] = max_ab(w + DP[p - 1][a - s], DP[p - 1][a])` taken modulo
`2 ^ 64`. -/
def cellStep (s w p : Nat) (DP : Table) (a : Nat) : Table :=
  if s > a then
    DP.write p a (DP (p - 1) a)
  else
    DP.write p a (max_ab (sizeAdd w (DP (p - 1) (a - s))) (DP (p - 1) a))

namespace LonesomeAdventure

/-- The body of the outer loop of `packEggs` for row `p`: read egg `p - 1`,
then `for (a = 0; a <= cap; ++a)`. -/
def fillRow (eggs : List Egg) (cap : Nat) (DP : Table) (p : Nat) : Table :=
  let s := (eggAt eggs (p - 1)).getSize
  let w := (eggAt eggs (p - 1)).getWeight
  (List.range (cap + 1)).foldl (cellStep s w p) DP

/-- The outer loop `for (p = 1; p <= sz; ++p)` of `packEggs`. -/
def fillTable (eggs : List Egg) (cap : Nat) (DP : Table) : Table :=
  (List.range' 1 eggs.length).foldl (fillRow eggs cap) DP

end LonesomeAdventure

/-- The traceback loop `for (i = sz; i > 0 && res > 0; i--)`, shared verbatim
by both adventures; the first argument after `cap` is the loop variable `i`.
The differences `res - weight` and `w - size` are taken modulo `2 ^ 64`, and
the read `DP[i - 1][w]` of a row of `cap + 1` cells is undefined for
`w > cap`. -/
def traceback (eggs : List Egg) (DP : Table) (cap : Nat) :
    Nat → Nat → Nat → BottomlessBag → Option BottomlessBag
  | 0, _, _, bag => some bag
  | i + 1, res, w, bag =>
    if res > 0 then
      if w ≤ cap then
        if res ≠ DP i w then
          traceback eggs DP cap i (sizeSub res (eggAt eggs i).getWeight)
            (sizeSub w (eggAt eggs i).getSize) (bag.addEgg (eggAt eggs i))
        else
          traceback eggs DP cap i res w bag
      else none
    else some bag

namespace LonesomeAdventure

/-- `LonesomeAdventure::packEggs`: the returned value and the bag after the
call, or `none` when the traceback reads outside a row of the table.
`garbage` is the content of the freshly allocated table. -/
def packEggs (garbage : Table) (eggs : List Egg) (bag : BottomlessBag) :
    Option (Nat × BottomlessBag) :=
  let cap := bag.getCapacity
  let sz := eggs.length
  let DP := fillTable eggs cap (initRow garbage cap)
  let res := DP sz cap
  match traceback eggs DP cap sz res cap bag with
  | none => none
  | some bag => some (DP sz cap, bag)

end LonesomeAdventure

/-! ## Reference recurrence -/

/-- The knapsack recurrence over the natural numbers: best weight using the
first `p` eggs with capacity `a`. -/
def dpVal (eggs : List Egg) : Nat → Nat → Nat
  | 0, _ => 0
  | p + 1, a =>
    if (eggAt eggs p).getSize > a then dpVal eggs p a
    else max_ab ((eggAt eggs p).getWeight + dpVal eggs p (a - (eggAt eggs p).getSize))
      (dpVal eggs p a)

/-- The knapsack recurrence in the arithmetic of `size_t`: the content of the
cell `DP[p][a]` after the loops, whether or not an addition wraps. -/
def dpVal64 (eggs : List Egg) : Nat → Nat → Nat
  | 0, _ => 0
  | p + 1, a =>
    if (eggAt eggs p).getSize > a then dpVal64 eggs p a
    else max_ab (sizeAdd (eggAt eggs p).getWeight (dpVal64 eggs p (a - (eggAt eggs p).getSize)))
      (dpVal64 eggs p a)

/-- The value `cellStep` writes into a cell of a row, as a function of the
previous row `prev`. -/
def cellVal (s w : Nat) (prev : Nat → Nat) (a : Nat) : Nat :=
  if s > a then prev a else max_ab (sizeAdd w (prev (a - s))) (prev a)

/-! ## The team knapsack -/

/-- The constant `cacheline`. -/
def cacheline : Nat := 8

/-- Modelled from the spec: `third_party/threadpool/threadpool.h` is not among
the sources. The pool is constructed with a fixed worker count. -/
structure ThreadPool where
  threads : Nat
deriving DecidableEq, Repr

/-- The fields of `TeamAdventure` set by its constructor. -/
structure TeamAdventure where
  numberOfShamans : Nat
  councilOfShamans : ThreadPool
deriving DecidableEq, Repr

namespace TeamAdventure

/-- The constructor `TeamAdventure(numberOfShamansArg)`: its member
initialisers store the argument and construct the pool with it, and its body
is empty. The constructor of the pool is not among the sources and is the
parameter `newPool`; its result `none` stands for a construction that fails. -/
def new (newPool : Nat → Option ThreadPool) (numberOfShamansArg : Nat) :
    Option TeamAdventure :=
  match newPool numberOfShamansArg with
  | none => none
  | some pool => some { numberOfShamans := numberOfShamansArg, councilOfShamans := pool }

/-- The column loop `for (i = l; i <= cap && i < r; ++i)` of `segmentKnapsack`
for one row `p`. The first argument bounds the number of iterations; the
caller passes `cap + 1 - l`, which the condition `i <= cap` never lets the
loop exceed. -/
def segmentLoop (s w p cap r : Nat) : Nat → Nat → Table → Table
  | 0, _, DP => DP
  | fuel + 1, i, DP =>
    if i ≤ cap ∧ i < r then segmentLoop s w p cap r fuel (i + 1) (cellStep s w p DP i)
    else DP

/-- Iteration `p` of the loop of `segmentKnapsack(eggs, DP, l, r, cap, adv)`
after the barrier: read egg `p - 1`, then run the column loop. -/
def segmentRow (eggs : List Egg) (cap l r : Nat) (DP : Table) (p : Nat) : Table :=
  let size := (eggAt eggs (p - 1)).getSize
  let weight := (eggAt eggs (p - 1)).getWeight
  segmentLoop size weight p cap r (cap + 1 - l) l DP

/-- The value `jump` of `packEggs`. -/
def jump (numberOfShamans cap : Nat) : Nat :=
  let jump := (cap + 1) / numberOfShamans + 1
  if jump ≤ cacheline then cacheline else jump

/-- The value `workers` of `packEggs`. -/
def workers (cap jump : Nat) : Nat :=
  (cap + 1) / jump + (if (cap + 1) % jump = 0 then 0 else 1)

/-- The submission loop `for (i = 0; i <= cap; i += jump)` of `packEggs`: the
pairs `(l, r) = (i, i + jump + 1)` handed to `segmentKnapsack`, in submission
order. The first argument bounds the number of iterations (`cap + 1` suffices
as `jump` is positive). -/
def submitLoop (cap jump : Nat) : Nat → Nat → List (Nat × Nat)
  | 0, _ => []
  | fuel + 1, i =>
    if i ≤ cap then (i, i + jump + 1) :: submitLoop cap jump fuel (i + jump) else []

/-- The tasks submitted by `packEggs`. -/
def tasks (cap jump : Nat) : List (Nat × Nat) := submitLoop cap jump (cap + 1) 0

/-- Row `p` of the team computation. The barrier makes every task finish row
`p - 1` before any task starts row `p`; within the row the tasks run in the
order `order`. -/
def fillRow (eggs : List Egg) (cap : Nat) (order : List (Nat × Nat)) (DP : Table)
    (p : Nat) : Table :=
  order.foldl (fun D t => segmentRow eggs cap t.1 t.2 D p) DP

/-- All rows of the team computation; `sched p ts` is the order in which the
tasks `ts` perform their iteration `p`. -/
def fillTable (eggs : List Egg) (cap : Nat)
    (sched : Nat → List (Nat × Nat) → List (Nat × Nat)) (ts : List (Nat × Nat))
    (DP : Table) : Table :=
  (List.range' 1 eggs.length).foldl (fun D p => fillRow eggs cap (sched p ts) D p) DP

/-- `TeamAdventure::packEggs`. The result is `none` when the division by
`numberOfShamans` is a division by zero or the traceback reads outside a row
of the table. -/
def packEggs (adv : TeamAdventure) (sched : Nat → List (Nat × Nat) → List (Nat × Nat))
    (garbage : Table) (eggs : List Egg) (bag : BottomlessBag) :
    Option (Nat × BottomlessBag) :=
  let cap := bag.getCapacity
  let sz := eggs.length
  let DP := initRow garbage cap
  if adv.numberOfShamans = 0 then none
  else
    let jump := jump adv.numberOfShamans cap
    let DP := fillTable eggs cap sched (tasks cap jump) DP
    let res := DP sz cap
    match traceback eggs DP cap sz res cap bag with
    | none => none
    | some bag => some (DP sz cap, bag)

/-- The columns visited by the column loop of `segmentKnapsack`. -/
def loopCols (cap r : Nat) : Nat → Nat → List Nat
  | 0, _ => []
  | fuel + 1, i => if i ≤ cap ∧ i < r then i :: loopCols cap r fuel (i + 1) else []

/-- The columns of the task `(l, r)`. -/
def segmentCols (cap : Nat) (t : Nat × Nat) : List Nat := loopCols cap t.2 (cap + 1 - t.1) t.1

end TeamAdventure

/-- The eggs a call added to the bag, given the bag before and after it. -/
def addedEggs (before after : BottomlessBag) : List Egg :=
  after.eggs.drop before.eggs.length


/-! ## The knapsack over the natural numbers

The definitions of this section are the loops of `packEggs` once more, with
the weights added and subtracted as natural numbers of any size (no
wrap-around). They state the knapsack value as the specification means it,
"arithmetic taken over unbounded naturals", and are compared with the
definitions above, which compute modulo `2 ^ 64` as the code does. -/

/-- The body of `cellStep` with the sum `w + DP[p - 1][a - s]` taken over the
natural numbers. -/
def cellStepNat (s w p : Nat) (DP : Table) (a : Nat) : Table :=
  if s > a then
    DP.write p a (DP (p - 1) a)
  else
    DP.write p a (max_ab (w + DP (p - 1) (a - s)) (DP (p - 1) a))

/-- The value `cellStepNat` writes into a cell of a row, as a function of the
previous row `prev`. -/
def cellValNat (s w : Nat) (prev : Nat → Nat) (a : Nat) : Nat :=
  if s > a then prev a else max_ab (w + prev (a - s)) (prev a)

/-- The traceback loop of `traceback` over the natural numbers: the first
argument is the loop variable `i`; the differences `res - weight` and
`w - size` are differences of natural numbers. -/
def tracebackNat (eggs : List Egg) (DP : Table) :
    Nat → Nat → Nat → BottomlessBag → BottomlessBag
  | 0, _, _, bag => bag
  | i + 1, res, w, bag =>
    if res > 0 then
      if res ≠ DP i w then
        tracebackNat eggs DP i (res - (eggAt eggs i).getWeight)
          (w - (eggAt eggs i).getSize) (bag.addEgg (eggAt eggs i))
      else
        tracebackNat eggs DP i res w bag
    else bag

namespace LonesomeAdventure

/-- The loop of `LonesomeAdventure.fillRow` over the natural numbers. -/
def fillRowNat (eggs : List Egg) (cap : Nat) (DP : Table) (p : Nat) : Table :=
  let s := (eggAt eggs (p - 1)).getSize
  let w := (eggAt eggs (p - 1)).getWeight
  (List.range (cap + 1)).foldl (cellStepNat s w p) DP

/-- The loop of `LonesomeAdventure.fillTable` over the natural numbers. -/
def fillTableNat (eggs : List Egg) (cap : Nat) (DP : Table) : Table :=
  (List.range' 1 eggs.length).foldl (fillRowNat eggs cap) DP

/-- The computation of `LonesomeAdventure.packEggs` over the natural numbers:
the value and the bag after the call. -/
def packEggsNat (garbage : Table) (eggs : List Egg) (bag : BottomlessBag) :
    Nat × BottomlessBag :=
  let cap := bag.getCapacity
  let sz := eggs.length
  let DP := fillTableNat eggs cap (initRow garbage cap)
  let res := DP sz cap
  let bag := tracebackNat eggs DP sz res cap bag
  (DP sz cap, bag)

end LonesomeAdventure

namespace TeamAdventure

/-- The loop of `TeamAdventure.segmentLoop` over the natural numbers. -/
def segmentLoopNat (s w p cap r : Nat) : Nat → Nat → Table → Table
  | 0, _, DP => DP
  | fuel + 1, i, DP =>
    if i ≤ cap ∧ i < r then segmentLoopNat s w p cap r fuel (i + 1) (cellStepNat s w p DP i)
    else DP

/-- The iteration of `TeamAdventure.segmentRow` over the natural numbers. -/
def segmentRowNat (eggs : List Egg) (cap l r : Nat) (DP : Table) (p : Nat) : Table :=
  let size := (eggAt eggs (p - 1)).getSize
  let weight := (eggAt eggs (p - 1)).getWeight
  segmentLoopNat size weight p cap r (cap + 1 - l) l DP

/-- The row of `TeamAdventure.fillRow` over the natural numbers. -/
def fillRowNat (eggs : List Egg) (cap : Nat) (order : List (Nat × Nat)) (DP : Table)
    (p : Nat) : Table :=
  order.foldl (fun D t => segmentRowNat eggs cap t.1 t.2 D p) DP

/-- The rows of `TeamAdventure.fillTable` over the natural numbers. -/
def fillTableNat (eggs : List Egg) (cap : Nat)
    (sched : Nat → List (Nat × Nat) → List (Nat × Nat)) (ts : List (Nat × Nat))
    (DP : Table) : Table :=
  (List.range' 1 eggs.length).foldl (fun D p => fillRowNat eggs cap (sched p ts) D p) DP

/-- The computation of `TeamAdventure.packEggs` over the natural numbers. The
result is `none` when the division by `numberOfShamans` is a division by
zero. -/
def packEggsNat (adv : TeamAdventure) (sched : Nat → List (Nat × Nat) → List (Nat × Nat))
    (garbage : Table) (eggs : List Egg) (bag : BottomlessBag) :
    Option (Nat × BottomlessBag) :=
  let cap := bag.getCapacity
  let sz := eggs.length
  let DP := initRow garbage cap
  if adv.numberOfShamans = 0 then none
  else
    let jump := jump adv.numberOfShamans cap
    let DP := fillTableNat eggs cap sched (tasks cap jump) DP
    let res := DP sz cap
    let bag := tracebackNat eggs DP sz res cap bag
    some (DP sz cap, bag)

end TeamAdventure
/-! ## Selecting the best crystal

Modelled from the spec: `types.h` is not among the sources. A crystal is a
value of any type `Crystal` with a strict total order (`LinearOrder`) whose
default-constructed value `Crystal()` is the minimum of the order (`⊥` of
`OrderBot`). -/

/-- The update `shiniest = (shiniest < c) ? c : shiniest`. -/
def shinier {Crystal : Type} [LinearOrder Crystal] (shiniest c : Crystal) : Crystal :=
  if shiniest < c then c else shiniest

namespace LonesomeAdventure

/-- `LonesomeAdventure::selectBestCrystal`: a scan of the vector from the
default-constructed crystal. -/
def selectBestCrystal {Crystal : Type} [LinearOrder Crystal] [OrderBot Crystal]
    (crystals : List Crystal) : Crystal :=
  crystals.foldl shinier ⊥

end LonesomeAdventure

namespace TeamAdventure

/-- The loop `for (i = l; i < crystals.size() && i < r; ++i)` of `maxCrystal`.
The first argument bounds the number of iterations; the caller passes
`crystals.size() - l`. -/
def maxCrystalLoop {Crystal : Type} [LinearOrder Crystal] (crystals : List Crystal) (r : Nat) :
    Nat → Nat → Crystal → Crystal
  | 0, _, shiniest => shiniest
  | fuel + 1, i, shiniest =>
    if h : i < crystals.length ∧ i < r then
      maxCrystalLoop crystals r fuel (i + 1) (shinier shiniest (crystals.get ⟨i, h.1⟩))
    else shiniest

/-- `TeamAdventure::maxCrystal(crystals, l, r)`. -/
def maxCrystal {Crystal : Type} [LinearOrder Crystal] [OrderBot Crystal]
    (crystals : List Crystal) (l r : Nat) : Crystal :=
  maxCrystalLoop crystals r (crystals.length - l) l ⊥

/-- The submission loop `for (i = 0; i < crystals.size(); i += jump + 1)` of
`selectBestCrystal`: the chunks `(l, r) = (i, i + jump + 1)` in submission
order. The first argument bounds the number of iterations (`size` suffices). -/
def chunkLoop (size jump : Nat) : Nat → Nat → List (Nat × Nat)
  | 0, _ => []
  | fuel + 1, i =>
    if i < size then (i, i + jump + 1) :: chunkLoop size jump fuel (i + jump + 1) else []

/-- The value `jump` of `selectBestCrystal`. -/
def crystalJump (numberOfShamans size : Nat) : Nat :=
  let jump := size / numberOfShamans
  if jump < cacheline then cacheline else jump

/-- The chunks submitted by `selectBestCrystal`. -/
def chunks (numberOfShamans size : Nat) : List (Nat × Nat) :=
  chunkLoop size (crystalJump numberOfShamans size) size 0

/-- `TeamAdventure::selectBestCrystal`: every chunk is handed to `maxCrystal`
and the results are reduced in submission order. The result is `none` when the
division by `numberOfShamans` is a division by zero. -/
def selectBestCrystal {Crystal : Type} [LinearOrder Crystal] [OrderBot Crystal]
    (adv : TeamAdventure) (crystals : List Crystal) : Option Crystal :=
  if adv.numberOfShamans = 0 then none
  else
    let futureResults :=
      (chunks adv.numberOfShamans crystals.length).map
        (fun t => maxCrystal crystals t.1 t.2)
    some (futureResults.foldl shinier ⊥)

end TeamAdventure

/-! ## Arranging the sand

Modelled from the spec: `types.h` is not among the sources. A grain of sand is
a value of any type `GrainOfSand` with a strict total order (`LinearOrder`).
The vector of grains is a list; an access outside its bounds gives `none`. -/

/-- The conversion of a `size_t` to `int` (32 bits, two's complement), which
the constructor `std::uniform_int_distribution<>(l, r)` applies to its
arguments. -/
def toInt (x : Nat) : Int :=
  if x % 2 ^ 32 < 2 ^ 31 then ((x % 2 ^ 32 : Nat) : Int)
  else ((x % 2 ^ 32 : Nat) : Int) - 2 ^ 32

/-- The conversion of an `int` to `size_t`, applied to the value
`getDivisionPoint` returns. -/
def toSizeT (z : Int) : Nat := (z % 2 ^ 64).toNat

/-- `getDivisionPoint(l, r)`: for `l < r` a random `int` between `(int) l` and
`(int) r`, converted to `size_t`. The raw random draw is `rnd`; every `int` of
the interval is the result for some draw. The distribution requires
`(int) l ≤ (int) r`; otherwise the behaviour is undefined (`none`). -/
def getDivisionPoint (rnd l r : Nat) : Option Nat :=
  if l < r then
    let a := toInt l
    let b := toInt r
    if a ≤ b then some (toSizeT (a + (rnd : Int) % (b - a + 1))) else none
  else some l

/-- `std::swap(grains[i], grains[j])`. -/
def swap {GrainOfSand : Type} (grains : List GrainOfSand) (i j : Nat) :
    Option (List GrainOfSand) :=
  match grains[i]?, grains[j]? with
  | some x, some y => some ((grains.set i y).set j x)
  | _, _ => none

/-- The partition loop `for (i = l; i < r; ++i)` of `quickSort` with pivot
value `div`; the state is the vector and `act`. The first argument bounds the
number of iterations; the caller passes `r - l`. -/
def partitionLoop {GrainOfSand : Type} [LinearOrder GrainOfSand] (div : GrainOfSand)
    (r : Nat) : Nat → Nat → List GrainOfSand → Nat → Option (List GrainOfSand × Nat)
  | 0, _, grains, act => some (grains, act)
  | fuel + 1, i, grains, act =>
    if i < r then
      match grains[i]? with
      | none => none
      | some x =>
        if x < div then
          match swap grains i act with
          | none => none
          | some grains' => partitionLoop div r fuel (i + 1) grains' (act + 1)
        else partitionLoop div r fuel (i + 1) grains act
    else some (grains, act)

/-- The partition step shared by `quickSort` and `parQuickSort`: swap the
element at the division point to position `r`, run the partition loop, swap
the pivot to position `act`. Returns the vector and `act`. -/
def partition {GrainOfSand : Type} [LinearOrder GrainOfSand] (rnd : Nat)
    (grains : List GrainOfSand) (l r : Nat) : Option (List GrainOfSand × Nat) :=
  match getDivisionPoint rnd l r with
  | none => none
  | some d =>
    match swap grains r d with
    | none => none
    | some grains =>
      match grains[r]? with
      | none => none
      | some div =>
        match partitionLoop div r (r - l) l grains l with
        | none => none
        | some (grains, act) =>
          match swap grains act r with
          | none => none
          | some grains => some (grains, act)

theorem partitionLoop_act {GrainOfSand : Type} [LinearOrder GrainOfSand] (div : GrainOfSand)
    (r : Nat) : ∀ (fuel i : Nat) (grains : List GrainOfSand) (act : Nat)
    (out : List GrainOfSand × Nat),
    partitionLoop div r fuel i grains act = some out → act ≤ out.2 ∧ out.2 ≤ act + fuel := by
  intro fuel
  induction fuel with
  | zero =>
    intro i grains act out h
    simp only [partitionLoop, Option.some.injEq] at h
    subst h
    exact ⟨le_refl _, le_refl _⟩
  | succ fuel ih =>
    intro i grains act out h
    rw [partitionLoop] at h
    split at h
    · split at h
      · exact absurd h (by simp)
      · split at h
        · split at h
          · exact absurd h (by simp)
          · have := ih _ _ _ _ h
            omega
        · have := ih _ _ _ _ h
          omega
    · simp only [Option.some.injEq] at h
      subst h
      exact ⟨le_refl _, by omega⟩

theorem partition_act {GrainOfSand : Type} [LinearOrder GrainOfSand] (rnd : Nat)
    (grains : List GrainOfSand) (l r : Nat) (out : List GrainOfSand × Nat)
    (h : partition rnd grains l r = some out) (hlr : l < r) : l ≤ out.2 ∧ out.2 ≤ r := by
  unfold partition at h
  split at h
  · exact absurd h (by simp)
  · split at h
    · exact absurd h (by simp)
    · split at h
      · exact absurd h (by simp)
      · split at h
        · exact absurd h (by simp)
        · rename_i g2 act hloop
          split at h
          · exact absurd h (by simp)
          · simp only [Option.some.injEq] at h
            subst h
            have := partitionLoop_act _ _ _ _ _ _ _ hloop
            simp only at this ⊢
            omega

/-- `quickSort(grains, l, r)`. The random draws are `rnd k, rnd (k + 1), ...`;
the result is the vector and the index of the next unused draw. -/
def quickSort {GrainOfSand : Type} [LinearOrder GrainOfSand] (rnd : Nat → Nat)
    (grains : List GrainOfSand) (l r k : Nat) : Option (List GrainOfSand × Nat) :=
  if hlr : l < r then
    match hp : partition (rnd k) grains l r with
    | none => none
    | some (grains, act) =>
      have _hact : l ≤ act ∧ act ≤ r := partition_act (rnd k) _ l r _ hp hlr
      match (if act ≠ l then quickSort rnd grains l (act - 1) (k + 1)
             else some (grains, k + 1)) with
      | none => none
      | some (grains, k) =>
        if act ≠ r then quickSort rnd grains (act + 1) r k else some (grains, k)
  else some (grains, k)
termination_by r - l
decreasing_by
  all_goals simp_wf
  all_goals omega

/-- The value of `grains.size() - 1` in `size_t` arithmetic. -/
def lastIndex (size : Nat) : Nat := (size + 2 ^ 64 - 1) % 2 ^ 64

namespace LonesomeAdventure

/-- `LonesomeAdventure::arrangeSand`. -/
def arrangeSand {GrainOfSand : Type} [LinearOrder GrainOfSand] (rnd : Nat → Nat)
    (grains : List GrainOfSand) : Option (List GrainOfSand) :=
  (quickSort rnd grains 0 (lastIndex grains.length) 0).map Prod.fst

end LonesomeAdventure

namespace TeamAdventure

/-- One task `parQuickSort(grains, l, r, councilOfShamans, cnt, m, cv)` run to
completion: the partition step, then for each side either `cnt++` and the
submission of a new task or a sequential `quickSort`, then the final
`if (--cnt == 0) --cnt;`. The result is the vector, the counter, the index of
the next unused random draw and the ranges of the submitted tasks. -/
def parQuickSort {GrainOfSand : Type} [LinearOrder GrainOfSand] (rnd : Nat → Nat)
    (grains : List GrainOfSand) (l r : Nat) (cnt : Int) (k : Nat) :
    Option (List GrainOfSand × Int × Nat × List (Nat × Nat)) :=
  match (if l < r then
      match partition (rnd k) grains l r with
      | none => none
      | some (grains, act) =>
        match (if act - l > cacheline then some (grains, cnt + 1, k + 1, [(l, act - 1)])
               else if act ≠ l then
                 (quickSort rnd grains l (act - 1) (k + 1)).map
                   (fun out => (out.1, cnt, out.2, []))
               else some (grains, cnt, k + 1, [])) with
        | none => none
        | some (grains, cnt, k, enqueued) =>
          if r - act > cacheline then some (grains, cnt + 1, k, enqueued ++ [(act + 1, r)])
          else if act ≠ r then
            (quickSort rnd grains (act + 1) r k).map
              (fun out => (out.1, cnt, out.2, enqueued))
          else some (grains, cnt, k, enqueued)
    else some (grains, cnt, k, [])) with
  | none => none
  | some (grains, cnt, k, enqueued) =>
    if cnt - 1 = 0 then some (grains, cnt - 1 - 1, k, enqueued)
    else some (grains, cnt - 1, k, enqueued)

end TeamAdventure

/-- The state of a parallel sort: the shared vector, the ranges of the tasks
submitted to the pool and not yet run, the counter `cnt`, the index of the
next unused random draw and the number of tasks run so far. -/
structure PoolState (GrainOfSand : Type) where
  grains : List GrainOfSand
  queue : List (Nat × Nat)
  cnt : Int
  draws : Nat
  steps : Nat

/-- The size of the range of a task. -/
def rangeSize (t : Nat × Nat) : Nat := t.2 - t.1 + 1

/-- The total size of the ranges of a list of tasks. -/
def queueSize (queue : List (Nat × Nat)) : Nat := (queue.map rangeSize).sum

theorem queueSize_append (q₁ q₂ : List (Nat × Nat)) :
    queueSize (q₁ ++ q₂) = queueSize q₁ + queueSize q₂ := by
  simp [queueSize]

theorem queueSize_eraseIdx : ∀ (queue : List (Nat × Nat)) (idx : Nat) (t : Nat × Nat),
    queue[idx]? = some t → queueSize (queue.eraseIdx idx) + rangeSize t = queueSize queue
  | [], _, _, h => by simp at h
  | x :: q, 0, t, h => by
    simp only [List.getElem?_cons_zero, Option.some.injEq] at h
    subst h
    simp [queueSize]
    omega
  | x :: q, idx + 1, t, h => by
    simp only [List.getElem?_cons_succ] at h
    have := queueSize_eraseIdx q idx t h
    simp only [List.eraseIdx_cons_succ]
    simp only [queueSize, List.map_cons, List.sum_cons] at this ⊢
    omega

/-- The tasks a task submits have ranges of a smaller total size than its
own. -/
theorem TeamAdventure.parQuickSort_enqueued {GrainOfSand : Type} [LinearOrder GrainOfSand]
    (rnd : Nat → Nat) (grains : List GrainOfSand) (l r : Nat) (cnt : Int) (k : Nat)
    (out : List GrainOfSand × Int × Nat × List (Nat × Nat))
    (h : TeamAdventure.parQuickSort rnd grains l r cnt k = some out) :
    queueSize out.2.2.2 < rangeSize (l, r) := by
  unfold TeamAdventure.parQuickSort at h
  split at h
  · exact absurd h (by simp)
  · rename_i g c k' enq heq
    have hout : out.2.2.2 = enq := by
      split at h <;> simp only [Option.some.injEq] at h <;> rw [← h]
    rw [hout]
    by_cases hlr : l < r
    · rw [if_pos hlr] at heq
      split at heq
      · exact absurd heq (by simp)
      · rename_i g1 act hpart
        have hact := partition_act _ _ _ _ _ hpart hlr
        simp only at hact
        split at heq
        · exact absurd heq (by simp)
        · rename_i g2 c2 k2 enq2 hleft
          have hL : queueSize enq2 ≤ act - l := by
            split at hleft
            · simp only [Option.some.injEq, Prod.mk.injEq] at hleft
              rw [← hleft.2.2.2]
              simp only [queueSize, rangeSize, List.map_cons, List.map_nil, List.sum_cons,
                List.sum_nil]
              omega
            · split at hleft
              · cases hq : quickSort rnd g1 l (act - 1) (k + 1) with
                | none => rw [hq] at hleft; simp at hleft
                | some v =>
                  rw [hq] at hleft
                  simp only [Option.map_some', Option.some.injEq, Prod.mk.injEq] at hleft
                  rw [← hleft.2.2.2]
                  simp [queueSize]
              · simp only [Option.some.injEq, Prod.mk.injEq] at hleft
                rw [← hleft.2.2.2]
                simp [queueSize]
          split at heq
          · simp only [Option.some.injEq, Prod.mk.injEq] at heq
            rw [← heq.2.2.2, queueSize_append]
            simp only [queueSize, rangeSize, List.map_cons, List.map_nil, List.sum_cons,
              List.sum_nil] at hL ⊢
            omega
          · split at heq
            · cases hq : quickSort rnd g2 (act + 1) r k2 with
              | none => rw [hq] at heq; simp at heq
              | some v =>
                rw [hq] at heq
                simp only [Option.map_some', Option.some.injEq, Prod.mk.injEq] at heq
                rw [← heq.2.2.2]
                simp only [rangeSize]
                omega
            · simp only [Option.some.injEq, Prod.mk.injEq] at heq
              rw [← heq.2.2.2]
              simp only [rangeSize]
              omega
    · rw [if_neg hlr] at heq
      simp only [Option.some.injEq, Prod.mk.injEq] at heq
      rw [← heq.2.2.2]
      simp [queueSize, rangeSize]

/-- Modelled from the spec: the worker pool runs every submitted task; here
each task is run to completion before the next one starts, and `pick` chooses
which of the pending tasks is the next one. The run ends when no task is
pending. -/
def runPool {GrainOfSand : Type} [LinearOrder GrainOfSand] (rnd pick : Nat → Nat)
    (st : PoolState GrainOfSand) : Option (PoolState GrainOfSand) :=
  if st.queue = [] then some st
  else
    match ht : st.queue[pick st.steps % st.queue.length]? with
    | none => none
    | some t =>
      match hout : TeamAdventure.parQuickSort rnd st.grains t.1 t.2 st.cnt st.draws with
      | none => none
      | some out =>
        have _hdec : queueSize out.2.2.2 < rangeSize (t.1, t.2) :=
          TeamAdventure.parQuickSort_enqueued rnd _ _ _ _ _ _ hout
        have _herase := queueSize_eraseIdx st.queue _ t ht
        runPool rnd pick
          { grains := out.1
            queue := st.queue.eraseIdx (pick st.steps % st.queue.length) ++ out.2.2.2
            cnt := out.2.1
            draws := out.2.2.1
            steps := st.steps + 1 }
termination_by queueSize st.queue
decreasing_by
  simp_wf
  rw [queueSize_append]
  simp only [rangeSize] at *
  omega

namespace TeamAdventure

/-- `TeamAdventure::arrangeSand`: the counter starts at 1, the task for the
whole range is submitted, and the caller waits for `cnt == -1`. The result is
the vector and the counter once no task is pending. -/
def arrangeSand {GrainOfSand : Type} [LinearOrder GrainOfSand] (rnd pick : Nat → Nat)
    (grains : List GrainOfSand) : Option (List GrainOfSand × Int) :=
  (runPool rnd pick
    { grains := grains, queue := [(0, lastIndex grains.length)], cnt := 1, draws := 0,
      steps := 0 }).map (fun st => (st.grains, st.cnt))

end TeamAdventure

/-! ## Segments of the vector during a parallel sort

The vector is viewed as a sequence of segments. A segment is either pending
(the range of a task submitted and not yet run) or finished (sorted, never
touched again). -/

/-- The concatenation of the segments. -/
def flatSegs {GrainOfSand : Type} (segs : List (Bool × List GrainOfSand)) :
    List GrainOfSand :=
  (segs.map Prod.snd).flatten

/-- The ranges of the pending segments, the first segment starting at `off`. -/
def pendingRanges {GrainOfSand : Type} :
    Nat → List (Bool × List GrainOfSand) → List (Nat × Nat)
  | _, [] => []
  | off, s :: rest =>
    (if s.1 then [(off, off + s.2.length - 1)] else []) ++ pendingRanges (off + s.2.length) rest

/-- Segments are well formed when every grain of a segment is at most every
grain of a later segment, finished segments are sorted and pending segments
are not empty. -/
def SegsOK {GrainOfSand : Type} [LinearOrder GrainOfSand]
    (segs : List (Bool × List GrainOfSand)) : Prop :=
  segs.Pairwise (fun s t => ∀ x ∈ s.2, ∀ y ∈ t.2, x ≤ y) ∧
  (∀ s ∈ segs, s.1 = false → s.2.Sorted (· ≤ ·)) ∧
  (∀ s ∈ segs, s.1 = true → s.2 ≠ [])

/-- The final `if (--cnt == 0) --cnt;` of a task. -/
def finishCnt (cnt : Int) : Int := if cnt - 1 = 0 then cnt - 1 - 1 else cnt - 1


/-- The grains at the positions `l..r` of the vector. -/
def grainsAt {GrainOfSand : Type} (grains : List GrainOfSand) (l r : Nat) : List GrainOfSand :=
  (grains.drop l).take (r + 1 - l)

/-- The vector `out` has the size of `grains`, holds the grain of `grains` at
every position outside `l..r`, and holds at the positions `l..r` a permutation
of the grains `grains` holds there. -/
def FrameOn {GrainOfSand : Type} (grains out : List GrainOfSand) (l r : Nat) : Prop :=
  out.length = grains.length ∧
  (∀ i, (i < l ∨ r < i) → out[i]? = grains[i]?) ∧
  (grainsAt out l r).Perm (grainsAt grains l r)

/-! ## The barrier of the team knapsack and the counter of the parallel sort -/

/-- The value of `--x` in `size_t` arithmetic. -/
def sizeDec (x : Nat) : Nat := (x + 2 ^ 64 - 1) % 2 ^ 64

/-- The barrier fields `counter`, `workers` and `gen` of `TeamAdventure`. -/
structure Barrier where
  counter : Nat
  workers : Nat
  gen : Nat
deriving DecidableEq, Repr

namespace Barrier

/-- The initialisation `counter = workers; gen = 0;` of `packEggs`. -/
def init (workers : Nat) : Barrier :=
  { counter := workers, workers := workers, gen := 0 }

/-- The update of the barrier by one arrival in `segmentKnapsack`:
`adv.counter--; if (adv.counter == 0) { adv.gen++; adv.counter = adv.workers; }`. -/
def arrive (b : Barrier) : Barrier :=
  let counter := sizeDec b.counter
  if counter = 0 then { b with gen := b.gen + 1, counter := b.workers }
  else { b with counter := counter }

/-- The barrier after `n` arrivals. -/
def arrivals : Nat → Barrier → Barrier
  | 0, b => b
  | n + 1, b => (arrivals n b).arrive

end Barrier

/-- The counter `cnt` of a parallel sort together with the number of live
tasks (submitted and not yet finished). -/
structure FanOut where
  cnt : Int
  live : Nat
deriving DecidableEq, Repr

/-- What a live task of the parallel sort does to the counter: it submits a
child (`cnt++` before `enqueue`) or it finishes (`if (--cnt == 0) --cnt;`). -/
inductive FanEvent where
  | spawn
  | finish
deriving DecidableEq, Repr

namespace FanOut

/-- The start of `TeamAdventure::arrangeSand`: `cnt = 1` and the task for the
whole range submitted. -/
def init : FanOut := { cnt := 1, live := 1 }

/-- One step of a live task; there is no step when no task is live. -/
def step (s : FanOut) : FanEvent → Option FanOut
  | FanEvent.spawn =>
    if s.live = 0 then none else some { cnt := s.cnt + 1, live := s.live + 1 }
  | FanEvent.finish =>
    if s.live = 0 then none else some { cnt := finishCnt s.cnt, live := s.live - 1 }

/-- A sequence of steps. -/
def run : List FanEvent → FanOut → Option FanOut
  | [], s => some s
  | e :: es, s =>
    match s.step e with
    | none => none
    | some s' => run es s'

end FanOut

/-- The invariant of the counter of the parallel sort: it is the number of
live tasks while there is one, and `-1` when there is none. -/
def FanOut.Inv (s : FanOut) : Prop :=
  (0 < s.live ∧ s.cnt = (s.live : Int)) ∨ (s.live = 0 ∧ s.cnt = -1)

/-- The number of columns of the table the task `(l, r)` writes in a row. -/
def segmentWidth (cap : Nat) (t : Nat × Nat) : Nat := (TeamAdventure.segmentCols cap t).length
/-! ## Lemmas on the table over the natural numbers -/

theorem max_ab_eq_max (a b : Nat) : max_ab a b = max a b := by
  unfold max_ab
  split <;> omega

theorem cellStepNat_eq (s w p : Nat) (DP : Table) (a : Nat) :
    cellStepNat s w p DP a = DP.write p a (cellValNat s w (DP (p - 1)) a) := by
  unfold cellStepNat cellValNat
  split <;> rfl

theorem Table.write_apply (DP : Table) (p a v i j : Nat) :
    DP.write p a v i j = if i = p ∧ j = a then v else DP i j := rfl

/-- Folding the cell update of row `p` over any list of columns sets exactly
the cells of row `p` in these columns, each from row `p - 1` of the table
before the pass. -/
theorem foldl_cellStepNat_apply (s w p : Nat) (hp : 0 < p) (cols : List Nat) :
    ∀ (DP : Table) (i j : Nat),
      (cols.foldl (cellStepNat s w p) DP) i j =
        if i = p ∧ j ∈ cols then cellValNat s w (DP (p - 1)) j else DP i j := by
  induction cols with
  | nil => intro DP i j; simp
  | cons a rest ih =>
    intro DP i j
    rw [List.foldl_cons, ih]
    have hrow : (cellStepNat s w p DP a) (p - 1) = DP (p - 1) := by
      funext c
      rw [cellStepNat_eq, Table.write_apply]
      have : ¬ (p - 1 = p ∧ c = a) := by omega
      simp [this]
    rw [hrow, cellStepNat_eq, Table.write_apply]
    by_cases h1 : i = p ∧ j ∈ rest
    · have : i = p ∧ j ∈ a :: rest := ⟨h1.1, List.mem_cons_of_mem _ h1.2⟩
      simp [h1, this]
    · by_cases h2 : i = p ∧ j = a
      · have : i = p ∧ j ∈ a :: rest := ⟨h2.1, by simp [h2.2]⟩
        rw [if_neg h1, if_pos h2, if_pos this, h2.2]
      · have : ¬ (i = p ∧ j ∈ a :: rest) := by
          rintro ⟨hi, hj⟩
          rcases List.mem_cons.mp hj with h | h
          · exact h2 ⟨hi, h⟩
          · exact h1 ⟨hi, h⟩
        rw [if_neg h1, if_neg h2, if_neg this]

theorem initRow_apply (DP : Table) (cap i j : Nat) :
    initRow DP cap i j = if i = 0 ∧ j ≤ cap then 0 else DP i j := by
  have key : ∀ n, ((List.range n).foldl (fun D i => Table.write D 0 i 0) DP) i j
      = if i = 0 ∧ j < n then 0 else DP i j := by
    intro n
    induction n with
    | zero => simp
    | succ n ih =>
      rw [List.range_succ, List.foldl_append, List.foldl_cons, List.foldl_nil,
        Table.write_apply, ih]
      by_cases h1 : i = 0 ∧ j = n
      · have : i = 0 ∧ j < n + 1 := ⟨h1.1, by omega⟩
        simp [h1]
      · by_cases h2 : i = 0 ∧ j < n
        · have : i = 0 ∧ j < n + 1 := ⟨h2.1, by omega⟩
          simp [h1, h2, this]
        · have : ¬ (i = 0 ∧ j < n + 1) := by
            rintro ⟨hi, hj⟩
            by_cases hjn : j = n
            · exact h1 ⟨hi, hjn⟩
            · exact h2 ⟨hi, by omega⟩
          simp [h1, h2, this]
  unfold initRow
  rw [key]
  simp only [Nat.lt_succ_iff]

/-- A pass over row `p` that sets the cells of columns `0..cap` from row
`p - 1`, iterated over the rows `1..k`, fills rows `0..k` with the knapsack
recurrence. -/
theorem rows_foldNat (eggs : List Egg) (cap : Nat) (step : Table → Nat → Table)
    (hstep : ∀ (DP : Table) (p : Nat), 1 ≤ p → ∀ i j, step DP p i j =
      if i = p ∧ j ≤ cap then
        cellValNat (eggAt eggs (p - 1)).getSize (eggAt eggs (p - 1)).getWeight (DP (p - 1)) j
      else DP i j)
    (DP0 : Table) (h0 : ∀ j, j ≤ cap → DP0 0 j = 0) (k : Nat) :
    ∀ i j, i ≤ k → j ≤ cap → ((List.range' 1 k).foldl step DP0) i j = dpVal eggs i j := by
  induction k with
  | zero =>
    intro i j hi hj
    have : i = 0 := by omega
    subst this
    simpa [dpVal] using h0 j hj
  | succ k ih =>
    intro i j hi hj
    rw [List.range'_1_concat, List.foldl_append, List.foldl_cons, List.foldl_nil,
      hstep _ _ (by omega)]
    by_cases hik : i = 1 + k
    · subst hik
      rw [if_pos ⟨rfl, hj⟩]
      have e : 1 + k - 1 = k := by omega
      rw [e, show 1 + k = k + 1 by omega]
      unfold cellValNat
      rw [dpVal]
      by_cases hs : (eggAt eggs k).getSize > j
      · rw [if_pos hs, if_pos hs]
        exact ih k j (le_refl _) hj
      · rw [if_neg hs, if_neg hs, ih k j (le_refl _) hj,
          ih k (j - (eggAt eggs k).getSize) (le_refl _) (by omega)]
    · have : ¬ (i = 1 + k ∧ j ≤ cap) := fun h => hik h.1
      rw [if_neg this]
      exact ih i j (by omega) hj

theorem lonesome_fillRowNat_apply (eggs : List Egg) (cap : Nat) (DP : Table)
    (p : Nat) (hp : 1 ≤ p) (i j : Nat) :
    LonesomeAdventure.fillRowNat eggs cap DP p i j =
      if i = p ∧ j ≤ cap then
        cellValNat (eggAt eggs (p - 1)).getSize (eggAt eggs (p - 1)).getWeight (DP (p - 1)) j
      else DP i j := by
  unfold LonesomeAdventure.fillRowNat
  rw [foldl_cellStepNat_apply _ _ _ hp]
  simp only [List.mem_range, Nat.lt_succ_iff]

/-- The sequential loops fill the table with the knapsack recurrence. -/
theorem lonesome_fillTableNat_apply (garbage : Table) (eggs : List Egg) (cap : Nat)
    (i j : Nat) (hi : i ≤ eggs.length) (hj : j ≤ cap) :
    LonesomeAdventure.fillTableNat eggs cap (initRow garbage cap) i j = dpVal eggs i j := by
  unfold LonesomeAdventure.fillTableNat
  refine rows_foldNat eggs cap _ (fun DP p hp i j => ?_) _ (fun j hj => ?_) _ i j hi hj
  · exact lonesome_fillRowNat_apply eggs cap DP p hp i j
  · rw [initRow_apply, if_pos ⟨rfl, hj⟩]

/-! ## Optimality of the recurrence -/

theorem sizeSum_append (xs ys : List Egg) : sizeSum (xs ++ ys) = sizeSum xs + sizeSum ys := by
  simp [sizeSum]

theorem weightSum_append (xs ys : List Egg) :
    weightSum (xs ++ ys) = weightSum xs + weightSum ys := by
  simp [weightSum]

theorem dpVal_mono_row (eggs : List Egg) (p a : Nat) : dpVal eggs p a ≤ dpVal eggs (p + 1) a := by
  rw [dpVal]
  split
  · exact le_refl _
  · rw [max_ab_eq_max]; exact le_max_right _ _

/-- No feasible selection among the first `p` eggs weighs more than the
recurrence value. -/
theorem dpVal_upper (eggs : List Egg) : ∀ (p a : Nat) (sub : List Egg),
    sub.Sublist (eggs.take p) → sizeSum sub ≤ a → weightSum sub ≤ dpVal eggs p a := by
  intro p
  induction p with
  | zero =>
    intro a sub hsub _
    simp at hsub
    simp [hsub, weightSum]
  | succ p ih =>
    intro a sub hsub hsz
    by_cases hp : p < eggs.length
    · rw [List.take_succ, List.getElem?_eq_getElem hp] at hsub
      simp only [Option.toList_some] at hsub
      obtain ⟨l₁, l₂, rfl, h1, h2⟩ := List.sublist_append_iff.mp hsub
      have he : eggAt eggs p = eggs[p] := by
        simp [eggAt, List.getD_eq_getElem?_getD, List.getElem?_eq_getElem hp]
      rw [sizeSum_append] at hsz
      rw [weightSum_append]
      rcases List.sublist_cons_iff.mp h2 with h | ⟨r, hr, hr2⟩
      · have : l₂ = [] := by simpa using h
        subst this
        have := ih a l₁ h1 (by omega)
        have := dpVal_mono_row eggs p a
        simp [weightSum] at *
        omega
      · have : r = [] := by simpa using hr2
        subst this
        subst hr
        have hs : sizeSum [eggs[p]] = eggs[p].getSize := by simp [sizeSum]
        have hw : weightSum [eggs[p]] = eggs[p].getWeight := by simp [weightSum]
        rw [hs] at hsz
        rw [hw, dpVal, he]
        have hle : ¬ (eggs[p].getSize > a) := by omega
        rw [if_neg hle, max_ab_eq_max]
        have := ih (a - eggs[p].getSize) l₁ h1 (by omega)
        have := le_max_left (eggs[p].getWeight + dpVal eggs p (a - eggs[p].getSize))
          (dpVal eggs p a)
        omega
    · rw [List.take_of_length_le (by omega)] at hsub
      have h' : sub.Sublist (eggs.take p) := by
        rw [List.take_of_length_le (by omega)]; exact hsub
      exact le_trans (ih a sub h' hsz) (dpVal_mono_row eggs p a)

/-! ## The traceback loop -/

theorem eggAt_eq_getElem (eggs : List Egg) (i : Nat) (h : i < eggs.length) :
    eggAt eggs i = eggs[i] := by
  simp [eggAt, List.getD_eq_getElem?_getD, List.getElem?_eq_getElem h]

/-- Eggs picked at strictly decreasing indices form a sublist of the reversed
prefix of the egg list. -/
theorem map_eggAt_sublist_reverse (eggs : List Egg) : ∀ (n : Nat) (idx : List Nat),
    n ≤ eggs.length → idx.Pairwise (· > ·) → (∀ k ∈ idx, k < n) →
    (idx.map (eggAt eggs)).Sublist (eggs.take n).reverse := by
  intro n
  induction n with
  | zero =>
    intro idx _ _ hlt
    cases idx with
    | nil => simp
    | cons a t => exact absurd (hlt a (List.mem_cons_self _ _)) (by omega)
  | succ n ih =>
    intro idx hn hpw hlt
    have hrev : (eggs.take (n + 1)).reverse = eggAt eggs n :: (eggs.take n).reverse := by
      rw [List.take_succ, List.getElem?_eq_getElem (by omega : n < eggs.length),
        eggAt_eq_getElem eggs n (by omega)]
      simp
    rw [hrev]
    cases idx with
    | nil => simp
    | cons a t =>
      have hpw' := List.pairwise_cons.mp hpw
      by_cases han : a = n
      · subst han
        rw [List.map_cons]
        refine List.Sublist.cons₂ _ (ih t (by omega) hpw'.2 ?_)
        intro k hk
        exact hpw'.1 k hk
      · refine List.Sublist.cons _ (ih (a :: t) (by omega) hpw ?_)
        intro k hk
        rcases List.mem_cons.mp hk with h | h
        · have := hlt a (List.mem_cons_self _ _)
          omega
        · have := hpw'.1 k h
          have := hlt a (List.mem_cons_self _ _)
          omega

/-- The traceback loop, started at row `i` and column `w` with the value of
that cell, adds eggs of strictly decreasing indices below `i` whose weights
sum to that value and whose sizes sum to at most `w`. -/
theorem tracebackNat_spec (eggs : List Egg) (DP : Table) (cap : Nat)
    (hDP : ∀ i j, i ≤ eggs.length → j ≤ cap → DP i j = dpVal eggs i j) :
    ∀ (i w : Nat) (bag : BottomlessBag), i ≤ eggs.length → w ≤ cap →
      ∃ idx : List Nat,
        tracebackNat eggs DP i (dpVal eggs i w) w bag
          = { bag with eggs := bag.eggs ++ idx.map (eggAt eggs) } ∧
        idx.Pairwise (· > ·) ∧ (∀ k ∈ idx, k < i) ∧
        weightSum (idx.map (eggAt eggs)) = dpVal eggs i w ∧
        sizeSum (idx.map (eggAt eggs)) ≤ w := by
  intro i
  induction i with
  | zero =>
    intro w bag _ _
    exact ⟨[], by simp [tracebackNat], List.Pairwise.nil, by simp, by simp [weightSum, dpVal],
      by simp [sizeSum]⟩
  | succ i ih =>
    intro w bag hi hw
    rw [tracebackNat]
    by_cases hres : dpVal eggs (i + 1) w > 0
    · rw [if_pos hres, hDP i w (by omega) hw]
      by_cases hne : dpVal eggs (i + 1) w ≠ dpVal eggs i w
      · rw [if_pos hne]
        -- the egg was taken
        have hcell : (eggAt eggs i).getSize ≤ w ∧
            dpVal eggs (i + 1) w =
              (eggAt eggs i).getWeight + dpVal eggs i (w - (eggAt eggs i).getSize) := by
          have hd := hne
          rw [dpVal] at hd ⊢
          by_cases hs : (eggAt eggs i).getSize > w
          · rw [if_pos hs] at hd; exact absurd rfl hd
          · rw [if_neg hs] at hd ⊢
            rw [max_ab_eq_max] at hd ⊢
            refine ⟨by omega, ?_⟩
            rcases max_cases ((eggAt eggs i).getWeight +
              dpVal eggs i (w - (eggAt eggs i).getSize)) (dpVal eggs i w) with h | h
            · exact h.1
            · exact absurd h.1 hd
        have hsub : dpVal eggs (i + 1) w - (eggAt eggs i).getWeight
            = dpVal eggs i (w - (eggAt eggs i).getSize) := by omega
        rw [hsub]
        obtain ⟨idx, h1, h2, h3, h4, h5⟩ :=
          ih (w - (eggAt eggs i).getSize) (bag.addEgg (eggAt eggs i)) (by omega) (by omega)
        refine ⟨i :: idx, ?_, ?_, ?_, ?_, ?_⟩
        · rw [h1]; simp [BottomlessBag.addEgg]
        · exact List.pairwise_cons.mpr ⟨fun k hk => h3 k hk, h2⟩
        · intro k hk
          rcases List.mem_cons.mp hk with h | h
          · omega
          · have := h3 k h; omega
        · rw [List.map_cons, show eggAt eggs i :: idx.map (eggAt eggs)
            = [eggAt eggs i] ++ idx.map (eggAt eggs) from rfl, weightSum_append, h4, hcell.2]
          simp [weightSum]
        · rw [List.map_cons, show eggAt eggs i :: idx.map (eggAt eggs)
            = [eggAt eggs i] ++ idx.map (eggAt eggs) from rfl, sizeSum_append]
          have : sizeSum [eggAt eggs i] = (eggAt eggs i).getSize := by simp [sizeSum]
          omega
      · rw [if_neg hne]
        have heq : dpVal eggs (i + 1) w = dpVal eggs i w := by
          by_contra h; exact hne h
        rw [heq]
        obtain ⟨idx, h1, h2, h3, h4, h5⟩ := ih w bag (by omega) hw
        exact ⟨idx, h1, h2, fun k hk => by have := h3 k hk; omega, h4, h5⟩
    · rw [if_neg hres]
      have : dpVal eggs (i + 1) w = 0 := by omega
      exact ⟨[], by simp, List.Pairwise.nil, by simp, by simp [weightSum, this],
        by simp [sizeSum]⟩

namespace TeamAdventure

theorem segmentLoopNat_eq (s w p cap r : Nat) : ∀ (fuel i : Nat) (DP : Table),
    segmentLoopNat s w p cap r fuel i DP = (loopCols cap r fuel i).foldl (cellStepNat s w p) DP := by
  intro fuel
  induction fuel with
  | zero => intro i DP; rfl
  | succ fuel ih =>
    intro i DP
    rw [segmentLoopNat, loopCols]
    by_cases h : i ≤ cap ∧ i < r
    · rw [if_pos h, if_pos h, List.foldl_cons, ih]
    · rw [if_neg h, if_neg h, List.foldl_nil]

theorem mem_loopCols (cap r : Nat) : ∀ (fuel i j : Nat),
    j ∈ loopCols cap r fuel i ↔ i ≤ j ∧ j ≤ cap ∧ j < r ∧ j < i + fuel := by
  intro fuel
  induction fuel with
  | zero => intro i j; simp [loopCols]; omega
  | succ fuel ih =>
    intro i j
    rw [loopCols]
    by_cases h : i ≤ cap ∧ i < r
    · rw [if_pos h, List.mem_cons, ih]
      constructor
      · rintro (h1 | h1) <;> omega
      · intro h1
        by_cases hij : j = i
        · exact Or.inl hij
        · exact Or.inr (by omega)
    · rw [if_neg h]
      simp only [List.not_mem_nil, false_iff]
      omega

theorem mem_segmentCols (cap : Nat) (t : Nat × Nat) (j : Nat) :
    j ∈ segmentCols cap t ↔ t.1 ≤ j ∧ j ≤ cap ∧ j < t.2 := by
  unfold segmentCols
  rw [mem_loopCols]
  omega

theorem jump_ge (numberOfShamans cap : Nat) : cacheline ≤ jump numberOfShamans cap := by
  unfold jump
  simp only
  split <;> omega

/-- The submitted tasks cover every column of the table. -/
theorem submitLoop_cover (cap jump : Nat) (hj : 1 ≤ jump) : ∀ (fuel i j : Nat),
    cap + 1 ≤ i + fuel → i ≤ j → j ≤ cap →
    ∃ t ∈ submitLoop cap jump fuel i, t.1 ≤ j ∧ j < t.2 := by
  intro fuel
  induction fuel with
  | zero => intro i j h1 h2 h3; omega
  | succ fuel ih =>
    intro i j h1 h2 h3
    rw [submitLoop, if_pos (by omega : i ≤ cap)]
    by_cases hlt : j < i + jump + 1
    · exact ⟨(i, i + jump + 1), List.mem_cons_self _ _, h2, hlt⟩
    · obtain ⟨t, ht, h⟩ := ih (i + jump) j (by omega) (by omega) h3
      exact ⟨t, List.mem_cons_of_mem _ ht, h⟩

theorem fillRowNat_eq_foldl (eggs : List Egg) (cap p : Nat) : ∀ (order : List (Nat × Nat))
    (DP : Table), fillRowNat eggs cap order DP p =
      (order.flatMap (segmentCols cap)).foldl
        (cellStepNat (eggAt eggs (p - 1)).getSize (eggAt eggs (p - 1)).getWeight p) DP := by
  intro order
  induction order with
  | nil => intro DP; rfl
  | cons t rest ih =>
    intro DP
    have ih' := ih (segmentRowNat eggs cap t.1 t.2 DP p)
    unfold fillRowNat at ih' ⊢
    rw [List.foldl_cons, ih', List.flatMap_cons, List.foldl_append]
    congr 1
    unfold segmentRowNat segmentCols
    exact segmentLoopNat_eq _ _ _ _ _ _ _ _

/-- Whatever the order of the tasks within the row, the team pass over row `p`
sets the cells of columns `0..cap` from row `p - 1`. -/
theorem team_fillRowNat_apply (eggs : List Egg) (cap jump : Nat) (hj : 1 ≤ jump)
    (order : List (Nat × Nat)) (horder : order.Perm (tasks cap jump))
    (DP : Table) (p : Nat) (hp : 1 ≤ p) (i j : Nat) :
    fillRowNat eggs cap order DP p i j =
      if i = p ∧ j ≤ cap then
        cellValNat (eggAt eggs (p - 1)).getSize (eggAt eggs (p - 1)).getWeight (DP (p - 1)) j
      else DP i j := by
  rw [fillRowNat_eq_foldl, foldl_cellStepNat_apply _ _ _ hp]
  have hmem : j ∈ order.flatMap (segmentCols cap) ↔ j ≤ cap := by
    rw [List.mem_flatMap]
    constructor
    · rintro ⟨t, _, ht⟩
      exact ((mem_segmentCols cap t j).mp ht).2.1
    · intro hjc
      obtain ⟨t, ht, h1, h2⟩ := submitLoop_cover cap jump hj (cap + 1) 0 j (by omega)
        (by omega) hjc
      exact ⟨t, horder.mem_iff.mpr ht, (mem_segmentCols cap t j).mpr ⟨h1, hjc, h2⟩⟩
  simp only [hmem]

/-- The team computation fills the table with the knapsack recurrence. -/
theorem team_fillTableNat_apply (garbage : Table) (eggs : List Egg) (cap jump : Nat) (hj : 1 ≤ jump)
    (sched : Nat → List (Nat × Nat) → List (Nat × Nat))
    (hsched : ∀ p ts, (sched p ts).Perm ts)
    (i j : Nat) (hi : i ≤ eggs.length) (hjc : j ≤ cap) :
    fillTableNat eggs cap sched (tasks cap jump) (initRow garbage cap) i j = dpVal eggs i j := by
  unfold fillTableNat
  refine rows_foldNat eggs cap _ (fun DP p hp i j => ?_) _ (fun j hj => ?_) _ i j hi hjc
  · exact team_fillRowNat_apply eggs cap jump hj _ (hsched p _) DP p hp i j
  · rw [initRow_apply, if_pos ⟨rfl, hj⟩]

end TeamAdventure

/-! ## Both `packEggsNat` in closed form -/

/-- The traceback reads only cells of rows `0..sz` and columns `0..cap`. -/
theorem tracebackNat_congr (eggs : List Egg) (DP DP' : Table) (cap : Nat)
    (h : ∀ i j, i ≤ eggs.length → j ≤ cap → DP i j = DP' i j) :
    ∀ (i res w : Nat) (bag : BottomlessBag), i ≤ eggs.length → w ≤ cap →
      tracebackNat eggs DP i res w bag = tracebackNat eggs DP' i res w bag := by
  intro i
  induction i with
  | zero => intro res w bag _ _; rfl
  | succ i ih =>
    intro res w bag hi hw
    rw [tracebackNat, tracebackNat, h i w (by omega) hw]
    split
    · split
      · exact ih _ _ _ (by omega) (by omega)
      · exact ih _ _ _ (by omega) hw
    · rfl

theorem lonesome_packEggsNat_eq (garbage : Table) (eggs : List Egg) (bag : BottomlessBag) :
    LonesomeAdventure.packEggsNat garbage eggs bag =
      (dpVal eggs eggs.length bag.getCapacity,
        tracebackNat eggs (dpVal eggs) eggs.length (dpVal eggs eggs.length bag.getCapacity)
          bag.getCapacity bag) := by
  unfold LonesomeAdventure.packEggsNat
  simp only
  rw [lonesome_fillTableNat_apply garbage eggs _ _ _ (le_refl _) (le_refl _)]
  rw [tracebackNat_congr eggs _ (dpVal eggs) bag.getCapacity
    (fun i j hi hj => lonesome_fillTableNat_apply garbage eggs _ i j hi hj) _ _ _ _
    (le_refl _) (le_refl _)]

theorem team_packEggsNat_eq (adv : TeamAdventure) (hn : 1 ≤ adv.numberOfShamans)
    (sched : Nat → List (Nat × Nat) → List (Nat × Nat))
    (hsched : ∀ p ts, (sched p ts).Perm ts)
    (garbage : Table) (eggs : List Egg) (bag : BottomlessBag) :
    adv.packEggsNat sched garbage eggs bag =
      some (dpVal eggs eggs.length bag.getCapacity,
        tracebackNat eggs (dpVal eggs) eggs.length (dpVal eggs eggs.length bag.getCapacity)
          bag.getCapacity bag) := by
  unfold TeamAdventure.packEggsNat
  simp only
  rw [if_neg (by omega)]
  have hj : 1 ≤ TeamAdventure.jump adv.numberOfShamans bag.getCapacity := by
    have := TeamAdventure.jump_ge adv.numberOfShamans bag.getCapacity
    unfold cacheline at this
    omega
  rw [TeamAdventure.team_fillTableNat_apply garbage eggs _ _ hj sched hsched _ _ (le_refl _)
    (le_refl _)]
  rw [tracebackNat_congr eggs _ (dpVal eggs) bag.getCapacity
    (fun i j hi hjc => TeamAdventure.team_fillTableNat_apply garbage eggs _ _ hj sched hsched
      i j hi hjc) _ _ _ _ (le_refl _) (le_refl _)]

/-- The traceback over the recurrence table, from the last row. -/
theorem tracebackNat_dpVal (eggs : List Egg) (bag : BottomlessBag) :
    ∃ idx : List Nat,
      tracebackNat eggs (dpVal eggs) eggs.length (dpVal eggs eggs.length bag.getCapacity)
          bag.getCapacity bag
        = { bag with eggs := bag.eggs ++ idx.map (eggAt eggs) } ∧
      idx.Pairwise (· > ·) ∧ (∀ k ∈ idx, k < eggs.length) ∧
      weightSum (idx.map (eggAt eggs)) = dpVal eggs eggs.length bag.getCapacity ∧
      sizeSum (idx.map (eggAt eggs)) ≤ bag.getCapacity :=
  tracebackNat_spec eggs (dpVal eggs) bag.getCapacity (fun _ _ _ _ => rfl) eggs.length
    bag.getCapacity bag (le_refl _) (le_refl _)

theorem sizeSum_reverse (es : List Egg) : sizeSum es.reverse = sizeSum es := by
  unfold sizeSum
  rw [List.map_reverse, List.sum_reverse]

theorem weightSum_reverse (es : List Egg) : weightSum es.reverse = weightSum es := by
  unfold weightSum
  rw [List.map_reverse, List.sum_reverse]

/-! ## Lemmas on the table in the arithmetic of `size_t` -/

theorem cellStep_eq (s w p : Nat) (DP : Table) (a : Nat) :
    cellStep s w p DP a = DP.write p a (cellVal s w (DP (p - 1)) a) := by
  unfold cellStep cellVal
  split <;> rfl

/-- Folding the cell update of row `p` over any list of columns sets exactly
the cells of row `p` in these columns, each from row `p - 1` of the table
before the pass. -/
theorem foldl_cellStep_apply (s w p : Nat) (hp : 0 < p) (cols : List Nat) :
    ∀ (DP : Table) (i j : Nat),
      (cols.foldl (cellStep s w p) DP) i j =
        if i = p ∧ j ∈ cols then cellVal s w (DP (p - 1)) j else DP i j := by
  induction cols with
  | nil => intro DP i j; simp
  | cons a rest ih =>
    intro DP i j
    rw [List.foldl_cons, ih]
    have hrow : (cellStep s w p DP a) (p - 1) = DP (p - 1) := by
      funext c
      rw [cellStep_eq, Table.write_apply]
      have : ¬ (p - 1 = p ∧ c = a) := by omega
      simp [this]
    rw [hrow, cellStep_eq, Table.write_apply]
    by_cases h1 : i = p ∧ j ∈ rest
    · have : i = p ∧ j ∈ a :: rest := ⟨h1.1, List.mem_cons_of_mem _ h1.2⟩
      simp [h1, this]
    · by_cases h2 : i = p ∧ j = a
      · have : i = p ∧ j ∈ a :: rest := ⟨h2.1, by simp [h2.2]⟩
        rw [if_neg h1, if_pos h2, if_pos this, h2.2]
      · have : ¬ (i = p ∧ j ∈ a :: rest) := by
          rintro ⟨hi, hj⟩
          rcases List.mem_cons.mp hj with h | h
          · exact h2 ⟨hi, h⟩
          · exact h1 ⟨hi, h⟩
        rw [if_neg h1, if_neg h2, if_neg this]

theorem sizeAdd_eq (x y : Nat) (h : x + y < 2 ^ 64) : sizeAdd x y = x + y :=
  Nat.mod_eq_of_lt h

theorem sizeSub_eq (x y : Nat) (hy : y ≤ x) (hx : x < 2 ^ 64) : sizeSub x y = x - y := by
  unfold sizeSub
  have e : x + 2 ^ 64 - y = (x - y) + 2 ^ 64 := by omega
  rw [e, Nat.add_mod_right]
  exact Nat.mod_eq_of_lt (by omega)

theorem weightSum_take_le (eggs : List Egg) (p : Nat) :
    weightSum (eggs.take p) ≤ weightSum eggs := by
  have h := weightSum_append (eggs.take p) (eggs.drop p)
  rw [List.take_append_drop] at h
  omega

theorem weightSum_take_succ (eggs : List Egg) (p : Nat) :
    weightSum (eggs.take (p + 1)) = weightSum (eggs.take p) + (eggAt eggs p).getWeight := by
  rw [List.take_succ, weightSum_append]
  unfold eggAt
  cases h : eggs[p]? with
  | none =>
    have hd : eggs.getD p default = default := by
      rw [List.getD_eq_getElem?_getD, h]; rfl
    rw [hd]
    rfl
  | some e =>
    have hd : eggs.getD p default = e := by
      rw [List.getD_eq_getElem?_getD, h]; rfl
    rw [hd]
    simp [weightSum]

/-- No cell of the recurrence exceeds the total weight of the eggs it may
use. -/
theorem dpVal_le_weightSum (eggs : List Egg) : ∀ (p a : Nat),
    dpVal eggs p a ≤ weightSum (eggs.take p) := by
  intro p
  induction p with
  | zero => intro a; simp [dpVal]
  | succ p ih =>
    intro a
    rw [dpVal, weightSum_take_succ]
    have h1 := ih a
    have h2 := ih (a - (eggAt eggs p).getSize)
    split
    · omega
    · rw [max_ab_eq_max]
      exact max_le (by omega) (by omega)

/-- When the total weight of the eggs is below `2 ^ 64`, no addition of the
recurrence wraps. -/
theorem weight_add_dpVal_lt (eggs : List Egg) (hw : weightSum eggs < 2 ^ 64) (p a : Nat) :
    (eggAt eggs p).getWeight + dpVal eggs p a < 2 ^ 64 := by
  have h1 := dpVal_le_weightSum eggs p a
  have h2 := weightSum_take_succ eggs p
  have h3 := weightSum_take_le eggs (p + 1)
  omega

theorem rows_fold (eggs : List Egg) (cap : Nat) (hw : weightSum eggs < 2 ^ 64)
    (step : Table → Nat → Table)
    (hstep : ∀ (DP : Table) (p : Nat), 1 ≤ p → ∀ i j, step DP p i j =
      if i = p ∧ j ≤ cap then
        cellVal (eggAt eggs (p - 1)).getSize (eggAt eggs (p - 1)).getWeight (DP (p - 1)) j
      else DP i j)
    (DP0 : Table) (h0 : ∀ j, j ≤ cap → DP0 0 j = 0) (k : Nat) :
    ∀ i j, i ≤ k → j ≤ cap → ((List.range' 1 k).foldl step DP0) i j = dpVal eggs i j := by
  induction k with
  | zero =>
    intro i j hi hj
    have : i = 0 := by omega
    subst this
    simpa [dpVal] using h0 j hj
  | succ k ih =>
    intro i j hi hj
    rw [List.range'_1_concat, List.foldl_append, List.foldl_cons, List.foldl_nil,
      hstep _ _ (by omega)]
    by_cases hik : i = 1 + k
    · subst hik
      rw [if_pos ⟨rfl, hj⟩]
      have e : 1 + k - 1 = k := by omega
      rw [e, show 1 + k = k + 1 by omega]
      unfold cellVal
      rw [dpVal]
      by_cases hs : (eggAt eggs k).getSize > j
      · rw [if_pos hs, if_pos hs]
        exact ih k j (le_refl _) hj
      · rw [if_neg hs, if_neg hs, ih k j (le_refl _) hj,
          ih k (j - (eggAt eggs k).getSize) (le_refl _) (by omega),
          sizeAdd_eq _ _ (weight_add_dpVal_lt eggs hw k _)]
    · have : ¬ (i = 1 + k ∧ j ≤ cap) := fun h => hik h.1
      rw [if_neg this]
      exact ih i j (by omega) hj

theorem lonesome_fillRow_apply (eggs : List Egg) (cap : Nat) (DP : Table)
    (p : Nat) (hp : 1 ≤ p) (i j : Nat) :
    LonesomeAdventure.fillRow eggs cap DP p i j =
      if i = p ∧ j ≤ cap then
        cellVal (eggAt eggs (p - 1)).getSize (eggAt eggs (p - 1)).getWeight (DP (p - 1)) j
      else DP i j := by
  unfold LonesomeAdventure.fillRow
  rw [foldl_cellStep_apply _ _ _ hp]
  simp only [List.mem_range, Nat.lt_succ_iff]

/-- When the weights sum to less than `2 ^ 64`, the sequential loops fill the
table with the knapsack recurrence. -/
theorem lonesome_fillTable_apply (garbage : Table) (eggs : List Egg) (cap : Nat)
    (hw : weightSum eggs < 2 ^ 64) (i j : Nat) (hi : i ≤ eggs.length) (hj : j ≤ cap) :
    LonesomeAdventure.fillTable eggs cap (initRow garbage cap) i j = dpVal eggs i j := by
  unfold LonesomeAdventure.fillTable
  refine rows_fold eggs cap hw _ (fun DP p hp i j => ?_) _ (fun j hj => ?_) _ i j hi hj
  · exact lonesome_fillRow_apply eggs cap DP p hp i j
  · rw [initRow_apply, if_pos ⟨rfl, hj⟩]

namespace TeamAdventure

theorem segmentLoop_eq (s w p cap r : Nat) : ∀ (fuel i : Nat) (DP : Table),
    segmentLoop s w p cap r fuel i DP = (loopCols cap r fuel i).foldl (cellStep s w p) DP := by
  intro fuel
  induction fuel with
  | zero => intro i DP; rfl
  | succ fuel ih =>
    intro i DP
    rw [segmentLoop, loopCols]
    by_cases h : i ≤ cap ∧ i < r
    · rw [if_pos h, if_pos h, List.foldl_cons, ih]
    · rw [if_neg h, if_neg h, List.foldl_nil]

theorem fillRow_eq_foldl (eggs : List Egg) (cap p : Nat) : ∀ (order : List (Nat × Nat))
    (DP : Table), fillRow eggs cap order DP p =
      (order.flatMap (segmentCols cap)).foldl
        (cellStep (eggAt eggs (p - 1)).getSize (eggAt eggs (p - 1)).getWeight p) DP := by
  intro order
  induction order with
  | nil => intro DP; rfl
  | cons t rest ih =>
    intro DP
    have ih' := ih (segmentRow eggs cap t.1 t.2 DP p)
    unfold fillRow at ih' ⊢
    rw [List.foldl_cons, ih', List.flatMap_cons, List.foldl_append]
    congr 1
    unfold segmentRow segmentCols
    exact segmentLoop_eq _ _ _ _ _ _ _ _

/-- Whatever the order of the tasks within the row, the team pass over row `p`
sets the cells of columns `0..cap` from row `p - 1`. -/
theorem team_fillRow_apply (eggs : List Egg) (cap jump : Nat) (hj : 1 ≤ jump)
    (order : List (Nat × Nat)) (horder : order.Perm (tasks cap jump))
    (DP : Table) (p : Nat) (hp : 1 ≤ p) (i j : Nat) :
    fillRow eggs cap order DP p i j =
      if i = p ∧ j ≤ cap then
        cellVal (eggAt eggs (p - 1)).getSize (eggAt eggs (p - 1)).getWeight (DP (p - 1)) j
      else DP i j := by
  rw [fillRow_eq_foldl, foldl_cellStep_apply _ _ _ hp]
  have hmem : j ∈ order.flatMap (segmentCols cap) ↔ j ≤ cap := by
    rw [List.mem_flatMap]
    constructor
    · rintro ⟨t, _, ht⟩
      exact ((mem_segmentCols cap t j).mp ht).2.1
    · intro hjc
      obtain ⟨t, ht, h1, h2⟩ := submitLoop_cover cap jump hj (cap + 1) 0 j (by omega)
        (by omega) hjc
      exact ⟨t, horder.mem_iff.mpr ht, (mem_segmentCols cap t j).mpr ⟨h1, hjc, h2⟩⟩
  simp only [hmem]

/-- When the weights sum to less than `2 ^ 64`, the team computation fills the
table with the knapsack recurrence. -/
theorem team_fillTable_apply (garbage : Table) (eggs : List Egg) (cap jump : Nat) (hj : 1 ≤ jump)
    (sched : Nat → List (Nat × Nat) → List (Nat × Nat))
    (hsched : ∀ p ts, (sched p ts).Perm ts)
    (hw : weightSum eggs < 2 ^ 64) (i j : Nat) (hi : i ≤ eggs.length) (hjc : j ≤ cap) :
    fillTable eggs cap sched (tasks cap jump) (initRow garbage cap) i j = dpVal eggs i j := by
  unfold fillTable
  refine rows_fold eggs cap hw _ (fun DP p hp i j => ?_) _ (fun j hj => ?_) _ i j hi hjc
  · exact team_fillRow_apply eggs cap jump hj _ (hsched p _) DP p hp i j
  · rw [initRow_apply, if_pos ⟨rfl, hj⟩]

end TeamAdventure


/-- On a table that holds the recurrence, and when neither the capacity nor
the total weight reaches `2 ^ 64`, the traceback in the arithmetic of `size_t`
stays inside the rows of the table, and no subtraction of it wraps: it adds
the eggs the traceback over natural numbers adds. -/
theorem traceback_eq (eggs : List Egg) (DP : Table) (cap : Nat) (hcap : cap < 2 ^ 64)
    (hw : weightSum eggs < 2 ^ 64)
    (hDP : ∀ i j, i ≤ eggs.length → j ≤ cap → DP i j = dpVal eggs i j) :
    ∀ (i w : Nat) (bag : BottomlessBag), i ≤ eggs.length → w ≤ cap →
      traceback eggs DP cap i (dpVal eggs i w) w bag
        = some (tracebackNat eggs (dpVal eggs) i (dpVal eggs i w) w bag) := by
  intro i
  induction i with
  | zero => intro w bag _ _; rfl
  | succ i ih =>
    intro w bag hi hwc
    rw [traceback, tracebackNat]
    by_cases hres : dpVal eggs (i + 1) w > 0
    · rw [if_pos hres, if_pos hres, if_pos hwc, hDP i w (by omega) hwc]
      by_cases hne : dpVal eggs (i + 1) w ≠ dpVal eggs i w
      · rw [if_pos hne, if_pos hne]
        have hcell : (eggAt eggs i).getSize ≤ w ∧
            dpVal eggs (i + 1) w =
              (eggAt eggs i).getWeight + dpVal eggs i (w - (eggAt eggs i).getSize) := by
          have hd := hne
          rw [dpVal] at hd ⊢
          by_cases hs : (eggAt eggs i).getSize > w
          · rw [if_pos hs] at hd; exact absurd rfl hd
          · rw [if_neg hs] at hd ⊢
            rw [max_ab_eq_max] at hd ⊢
            refine ⟨by omega, ?_⟩
            rcases max_cases ((eggAt eggs i).getWeight +
              dpVal eggs i (w - (eggAt eggs i).getSize)) (dpVal eggs i w) with h | h
            · exact h.1
            · exact absurd h.1 hd
        have hsub : dpVal eggs (i + 1) w - (eggAt eggs i).getWeight
            = dpVal eggs i (w - (eggAt eggs i).getSize) := by omega
        have hlt : dpVal eggs (i + 1) w < 2 ^ 64 := by
          have h1 := dpVal_le_weightSum eggs (i + 1) w
          have h2 := weightSum_take_le eggs (i + 1)
          omega
        rw [sizeSub_eq _ _ (by omega) hlt, sizeSub_eq _ _ hcell.1 (by omega), hsub]
        exact ih _ _ (by omega) (by omega)
      · rw [if_neg hne, if_neg hne]
        have heq : dpVal eggs (i + 1) w = dpVal eggs i w := by
          by_contra h; exact hne h
        rw [heq]
        exact ih w bag (by omega) hwc
    · rw [if_neg hres, if_neg hres]

theorem lonesome_packEggs_eq (garbage : Table) (eggs : List Egg) (bag : BottomlessBag)
    (hcap : bag.getCapacity < 2 ^ 64) (hw : weightSum eggs < 2 ^ 64) :
    LonesomeAdventure.packEggs garbage eggs bag =
      some (dpVal eggs eggs.length bag.getCapacity,
        tracebackNat eggs (dpVal eggs) eggs.length (dpVal eggs eggs.length bag.getCapacity)
          bag.getCapacity bag) := by
  unfold LonesomeAdventure.packEggs
  simp only
  rw [lonesome_fillTable_apply garbage eggs _ hw _ _ (le_refl _) (le_refl _)]
  rw [traceback_eq eggs _ bag.getCapacity hcap hw
    (fun i j hi hj => lonesome_fillTable_apply garbage eggs _ hw i j hi hj) _ _ _
    (le_refl _) (le_refl _)]

theorem team_packEggs_eq (adv : TeamAdventure) (hn : 1 ≤ adv.numberOfShamans)
    (sched : Nat → List (Nat × Nat) → List (Nat × Nat))
    (hsched : ∀ p ts, (sched p ts).Perm ts)
    (garbage : Table) (eggs : List Egg) (bag : BottomlessBag)
    (hcap : bag.getCapacity < 2 ^ 64) (hw : weightSum eggs < 2 ^ 64) :
    adv.packEggs sched garbage eggs bag =
      some (dpVal eggs eggs.length bag.getCapacity,
        tracebackNat eggs (dpVal eggs) eggs.length (dpVal eggs eggs.length bag.getCapacity)
          bag.getCapacity bag) := by
  unfold TeamAdventure.packEggs
  simp only
  rw [if_neg (by omega)]
  have hj : 1 ≤ TeamAdventure.jump adv.numberOfShamans bag.getCapacity := by
    have := TeamAdventure.jump_ge adv.numberOfShamans bag.getCapacity
    unfold cacheline at this
    omega
  rw [TeamAdventure.team_fillTable_apply garbage eggs _ _ hj sched hsched hw _ _ (le_refl _)
    (le_refl _)]
  rw [traceback_eq eggs _ bag.getCapacity hcap hw
    (fun i j hi hjc => TeamAdventure.team_fillTable_apply garbage eggs _ _ hj sched hsched
      hw i j hi hjc) _ _ _ (le_refl _) (le_refl _)]

/-- Below the bounds the computation in the arithmetic of `size_t` is the
computation over the natural numbers. -/
theorem lonesome_packEggs_eq_packEggsNat (garbage : Table) (eggs : List Egg)
    (bag : BottomlessBag) (hcap : bag.getCapacity < 2 ^ 64) (hw : weightSum eggs < 2 ^ 64) :
    LonesomeAdventure.packEggs garbage eggs bag
      = some (LonesomeAdventure.packEggsNat garbage eggs bag) := by
  rw [lonesome_packEggs_eq garbage eggs bag hcap hw, lonesome_packEggsNat_eq]

theorem team_packEggs_eq_packEggsNat (adv : TeamAdventure) (hn : 1 ≤ adv.numberOfShamans)
    (sched : Nat → List (Nat × Nat) → List (Nat × Nat))
    (hsched : ∀ p ts, (sched p ts).Perm ts)
    (garbage : Table) (eggs : List Egg) (bag : BottomlessBag)
    (hcap : bag.getCapacity < 2 ^ 64) (hw : weightSum eggs < 2 ^ 64) :
    adv.packEggs sched garbage eggs bag = adv.packEggsNat sched garbage eggs bag := by
  rw [team_packEggs_eq adv hn sched hsched garbage eggs bag hcap hw,
    team_packEggsNat_eq adv hn sched hsched]

/-- Beyond the bounds the additions wrap: for the eggs `(1, 2 ^ 63)`,
`(1, 2 ^ 63 + 5)`, `(1, 2 ^ 64 - 1)` and capacity 2 the cell `DP[3][2]` holds
`2 ^ 63 + 4`, which is returned, and the traceback adds the last two eggs,
which weigh `2 ^ 64 + 2 ^ 63 + 4`. -/
theorem packEggs_wraps :
    LonesomeAdventure.packEggs (fun _ _ => 0)
        [⟨1, 2 ^ 63⟩, ⟨1, 2 ^ 63 + 5⟩, ⟨1, 2 ^ 64 - 1⟩] ⟨2, []⟩
      = some (2 ^ 63 + 4, ⟨2, [⟨1, 2 ^ 64 - 1⟩, ⟨1, 2 ^ 63 + 5⟩]⟩) := by
  decide

/-! ## The two adventures in the arithmetic of `size_t`

Without any bound on the weights: the team fills the table the sequential
loops fill and returns what they return, and the traceback adds eggs at
strictly decreasing indices. -/

theorem rows_fold_cells (eggs : List Egg) (cap : Nat) (step : Table → Nat → Table)
    (hstep : ∀ (DP : Table) (p : Nat), 1 ≤ p → ∀ i j, step DP p i j =
      if i = p ∧ j ≤ cap then
        cellVal (eggAt eggs (p - 1)).getSize (eggAt eggs (p - 1)).getWeight (DP (p - 1)) j
      else DP i j)
    (DP0 : Table) (h0 : ∀ j, j ≤ cap → DP0 0 j = 0) (k : Nat) :
    ∀ i j, i ≤ k → j ≤ cap → ((List.range' 1 k).foldl step DP0) i j = dpVal64 eggs i j := by
  induction k with
  | zero =>
    intro i j hi hj
    have : i = 0 := by omega
    subst this
    simpa [dpVal64] using h0 j hj
  | succ k ih =>
    intro i j hi hj
    rw [List.range'_1_concat, List.foldl_append, List.foldl_cons, List.foldl_nil,
      hstep _ _ (by omega)]
    by_cases hik : i = 1 + k
    · subst hik
      rw [if_pos ⟨rfl, hj⟩]
      have e : 1 + k - 1 = k := by omega
      rw [e, show 1 + k = k + 1 by omega]
      unfold cellVal
      rw [dpVal64]
      by_cases hs : (eggAt eggs k).getSize > j
      · rw [if_pos hs, if_pos hs]
        exact ih k j (le_refl _) hj
      · rw [if_neg hs, if_neg hs, ih k j (le_refl _) hj,
          ih k (j - (eggAt eggs k).getSize) (le_refl _) (by omega)]
    · have : ¬ (i = 1 + k ∧ j ≤ cap) := fun h => hik h.1
      rw [if_neg this]
      exact ih i j (by omega) hj

theorem lonesome_fillTable_cells (garbage : Table) (eggs : List Egg) (cap : Nat)
    (i j : Nat) (hi : i ≤ eggs.length) (hj : j ≤ cap) :
    LonesomeAdventure.fillTable eggs cap (initRow garbage cap) i j = dpVal64 eggs i j := by
  unfold LonesomeAdventure.fillTable
  refine rows_fold_cells eggs cap _ (fun DP p hp i j => ?_) _ (fun j hj => ?_) _ i j hi hj
  · exact lonesome_fillRow_apply eggs cap DP p hp i j
  · rw [initRow_apply, if_pos ⟨rfl, hj⟩]

theorem team_fillTable_cells (garbage : Table) (eggs : List Egg) (cap jump : Nat)
    (hj : 1 ≤ jump) (sched : Nat → List (Nat × Nat) → List (Nat × Nat))
    (hsched : ∀ p ts, (sched p ts).Perm ts)
    (i j : Nat) (hi : i ≤ eggs.length) (hjc : j ≤ cap) :
    TeamAdventure.fillTable eggs cap sched (TeamAdventure.tasks cap jump)
      (initRow garbage cap) i j = dpVal64 eggs i j := by
  unfold TeamAdventure.fillTable
  refine rows_fold_cells eggs cap _ (fun DP p hp i j => ?_) _ (fun j hj => ?_) _ i j hi hjc
  · exact TeamAdventure.team_fillRow_apply eggs cap jump hj _ (hsched p _) DP p hp i j
  · rw [initRow_apply, if_pos ⟨rfl, hj⟩]

theorem traceback_congr (eggs : List Egg) (DP DP' : Table) (cap : Nat)
    (h : ∀ i j, i ≤ eggs.length → j ≤ cap → DP i j = DP' i j) :
    ∀ (i res w : Nat) (bag : BottomlessBag), i ≤ eggs.length →
      traceback eggs DP cap i res w bag = traceback eggs DP' cap i res w bag := by
  intro i
  induction i with
  | zero => intro res w bag _; rfl
  | succ i ih =>
    intro res w bag hi
    rw [traceback, traceback]
    by_cases hres : res > 0
    · rw [if_pos hres, if_pos hres]
      by_cases hw : w ≤ cap
      · rw [if_pos hw, if_pos hw, h i w (by omega) hw]
        split
        · exact ih _ _ _ (by omega)
        · exact ih _ _ _ (by omega)
      · rw [if_neg hw, if_neg hw]
    · rw [if_neg hres, if_neg hres]

/-- In the arithmetic of `size_t`, with at least one shaman and whatever the
order of the tasks within a row and the initial contents of the two tables,
`TeamAdventure::packEggs` returns what `LonesomeAdventure::packEggs`
returns. -/
theorem team_eq_lonesome_size_t (adv : TeamAdventure) (hn : 1 ≤ adv.numberOfShamans)
    (sched : Nat → List (Nat × Nat) → List (Nat × Nat))
    (hsched : ∀ p ts, (sched p ts).Perm ts)
    (garbage garbage' : Table) (eggs : List Egg) (bag : BottomlessBag) :
    adv.packEggs sched garbage eggs bag = LonesomeAdventure.packEggs garbage' eggs bag := by
  unfold TeamAdventure.packEggs LonesomeAdventure.packEggs
  simp only
  rw [if_neg (by omega)]
  have hj : 1 ≤ TeamAdventure.jump adv.numberOfShamans bag.getCapacity := by
    have := TeamAdventure.jump_ge adv.numberOfShamans bag.getCapacity
    unfold cacheline at this
    omega
  rw [team_fillTable_cells garbage eggs _ _ hj sched hsched _ _ (le_refl _) (le_refl _),
    lonesome_fillTable_cells garbage' eggs _ _ _ (le_refl _) (le_refl _)]
  rw [traceback_congr eggs _ (dpVal64 eggs) bag.getCapacity
    (fun i j hi hjc => team_fillTable_cells garbage eggs _ _ hj sched hsched i j hi hjc)
    _ _ _ _ (le_refl _)]
  rw [traceback_congr eggs (LonesomeAdventure.fillTable eggs bag.getCapacity
      (initRow garbage' bag.getCapacity)) (dpVal64 eggs) bag.getCapacity
    (fun i j hi hjc => lonesome_fillTable_cells garbage' eggs _ i j hi hjc)
    _ _ _ _ (le_refl _)]

/-- In the arithmetic of `size_t` the traceback, when it returns, has added
eggs at strictly decreasing indices below `i`, whatever the table holds. -/
theorem traceback_order (eggs : List Egg) (DP : Table) (cap : Nat) :
    ∀ (i res w : Nat) (bag out : BottomlessBag),
      traceback eggs DP cap i res w bag = some out →
      ∃ idx : List Nat, out = { bag with eggs := bag.eggs ++ idx.map (eggAt eggs) } ∧
        idx.Pairwise (· > ·) ∧ (∀ k ∈ idx, k < i) := by
  intro i
  induction i with
  | zero =>
    intro res w bag out h
    simp only [traceback, Option.some.injEq] at h
    subst h
    exact ⟨[], by simp, List.Pairwise.nil, by simp⟩
  | succ i ih =>
    intro res w bag out h
    rw [traceback] at h
    by_cases hres : res > 0
    · rw [if_pos hres] at h
      by_cases hw : w ≤ cap
      · rw [if_pos hw] at h
        by_cases hne : res ≠ DP i w
        · rw [if_pos hne] at h
          obtain ⟨idx, h1, h2, h3⟩ := ih _ _ _ _ h
          refine ⟨i :: idx, ?_, List.pairwise_cons.mpr ⟨fun k hk => h3 k hk, h2⟩, ?_⟩
          · rw [h1]; simp [BottomlessBag.addEgg]
          · intro k hk
            rcases List.mem_cons.mp hk with hk' | hk'
            · omega
            · have := h3 k hk'; omega
        · rw [if_neg hne] at h
          obtain ⟨idx, h1, h2, h3⟩ := ih _ _ _ _ h
          exact ⟨idx, h1, h2, fun k hk => by have := h3 k hk; omega⟩
      · rw [if_neg hw] at h
        exact absurd h (by simp)
    · rw [if_neg hres] at h
      simp only [Option.some.injEq] at h
      subst h
      exact ⟨[], by simp, List.Pairwise.nil, by simp⟩

/-- In the arithmetic of `size_t` the result of `LonesomeAdventure::packEggs`
is a function of the eggs and the bag alone. -/
theorem lonesome_packEggs_garbage (garbage garbage' : Table) (eggs : List Egg)
    (bag : BottomlessBag) :
    LonesomeAdventure.packEggs garbage eggs bag
      = LonesomeAdventure.packEggs garbage' eggs bag := by
  unfold LonesomeAdventure.packEggs
  simp only
  rw [lonesome_fillTable_cells garbage eggs _ _ _ (le_refl _) (le_refl _),
    lonesome_fillTable_cells garbage' eggs _ _ _ (le_refl _) (le_refl _)]
  rw [traceback_congr eggs (LonesomeAdventure.fillTable eggs bag.getCapacity
      (initRow garbage bag.getCapacity)) (dpVal64 eggs) bag.getCapacity
    (fun i j hi hjc => lonesome_fillTable_cells garbage eggs _ i j hi hjc)
    _ _ _ _ (le_refl _)]
  rw [traceback_congr eggs (LonesomeAdventure.fillTable eggs bag.getCapacity
      (initRow garbage' bag.getCapacity)) (dpVal64 eggs) bag.getCapacity
    (fun i j hi hjc => lonesome_fillTable_cells garbage' eggs _ i j hi hjc)
    _ _ _ _ (le_refl _)]

/-- In the arithmetic of `size_t` the eggs `LonesomeAdventure::packEggs` adds,
when it returns, are added at strictly decreasing indices of the egg list. -/
theorem lonesome_packEggs_order (garbage : Table) (eggs : List Egg) (bag : BottomlessBag)
    (out : Nat × BottomlessBag)
    (h : LonesomeAdventure.packEggs garbage eggs bag = some out) :
    (∃ idx : List Nat, idx.Pairwise (· > ·) ∧ (∀ k ∈ idx, k < eggs.length) ∧
      (addedEggs bag out.2).map some = idx.map (fun k => eggs[k]?)) ∧
    (addedEggs bag out.2).Sublist eggs.reverse := by
  unfold LonesomeAdventure.packEggs at h
  simp only at h
  split at h
  · exact absurd h (by simp)
  · rename_i b hb
    simp only [Option.some.injEq] at h
    obtain ⟨idx, h1, h2, h3⟩ := traceback_order eggs _ _ _ _ _ _ _ hb
    have hadd : addedEggs bag out.2 = idx.map (eggAt eggs) := by
      rw [← h]
      simp only
      rw [h1]
      simp [addedEggs]
    refine ⟨⟨idx, h2, h3, ?_⟩, ?_⟩
    · rw [hadd, List.map_map]
      apply List.map_congr_left
      intro k hk
      simp only [Function.comp]
      rw [eggAt_eq_getElem eggs k (h3 k hk), List.getElem?_eq_getElem (h3 k hk)]
    · rw [hadd]
      have hs := map_eggAt_sublist_reverse eggs eggs.length idx (le_refl _) h2 h3
      rwa [List.take_length] at hs

/-! ## Lemmas on the selection of the best crystal -/

section Crystals

variable {Crystal : Type} [LinearOrder Crystal]

theorem shinier_eq_max (a b : Crystal) : shinier a b = max a b := by
  unfold shinier
  split
  · rw [max_eq_right (le_of_lt ‹a < b›)]
  · rw [max_eq_left (not_lt.mp ‹¬ a < b›)]

theorem foldl_shinier_ge_init (xs : List Crystal) : ∀ acc : Crystal,
    acc ≤ xs.foldl shinier acc := by
  induction xs with
  | nil => intro acc; exact le_refl _
  | cons x xs ih =>
    intro acc
    rw [List.foldl_cons]
    refine le_trans ?_ (ih _)
    rw [shinier_eq_max]
    exact le_max_left _ _

theorem foldl_shinier_ge_mem (xs : List Crystal) : ∀ (acc c : Crystal), c ∈ xs →
    c ≤ xs.foldl shinier acc := by
  induction xs with
  | nil => intro acc c hc; simp at hc
  | cons x xs ih =>
    intro acc c hc
    rw [List.foldl_cons]
    rcases List.mem_cons.mp hc with h | h
    · subst h
      refine le_trans ?_ (foldl_shinier_ge_init xs _)
      rw [shinier_eq_max]
      exact le_max_right _ _
    · exact ih _ c h

theorem foldl_shinier_mem (xs : List Crystal) : ∀ acc : Crystal,
    xs.foldl shinier acc = acc ∨ xs.foldl shinier acc ∈ xs := by
  induction xs with
  | nil => intro acc; exact Or.inl rfl
  | cons x xs ih =>
    intro acc
    rw [List.foldl_cons]
    rcases ih (shinier acc x) with h | h
    · rw [h]
      unfold shinier
      split
      · exact Or.inr (List.mem_cons_self _ _)
      · exact Or.inl rfl
    · exact Or.inr (List.mem_cons_of_mem _ h)

theorem foldl_shinier_max [OrderBot Crystal] (xs : List Crystal) : ∀ acc : Crystal,
    xs.foldl shinier acc = shinier acc (xs.foldl shinier ⊥) := by
  induction xs with
  | nil => intro acc; simp [shinier_eq_max]
  | cons x xs ih =>
    intro acc
    rw [List.foldl_cons, List.foldl_cons, ih (shinier acc x), ih (shinier ⊥ x)]
    simp only [shinier_eq_max, bot_le, max_eq_right, max_assoc]

theorem maxCrystalLoop_eq (crystals : List Crystal) (r : Nat) : ∀ (fuel i : Nat) (acc : Crystal),
    TeamAdventure.maxCrystalLoop crystals r fuel i acc
      = (((crystals.drop i).take (r - i)).take fuel).foldl shinier acc := by
  intro fuel
  induction fuel with
  | zero => intro i acc; simp [TeamAdventure.maxCrystalLoop]
  | succ fuel ih =>
    intro i acc
    rw [TeamAdventure.maxCrystalLoop]
    by_cases h : i < crystals.length ∧ i < r
    · rw [dif_pos h, ih]
      have hd : crystals.drop i = crystals.get ⟨i, h.1⟩ :: crystals.drop (i + 1) := by
        rw [List.drop_eq_getElem_cons h.1]; rfl
      have hr : r - i = (r - (i + 1)) + 1 := by omega
      rw [hd, hr, List.take_succ_cons, List.take_succ_cons, List.foldl_cons]
    · rw [dif_neg h]
      have : (crystals.drop i).take (r - i) = [] := by
        by_cases h1 : i < crystals.length
        · have : r - i = 0 := by omega
          rw [this, List.take_zero]
        · rw [List.drop_eq_nil_of_le (by omega), List.take_nil]
      rw [this, List.take_nil, List.foldl_nil]

theorem maxCrystal_eq [OrderBot Crystal] (crystals : List Crystal) (l r : Nat) :
    TeamAdventure.maxCrystal crystals l r
      = ((crystals.drop l).take (r - l)).foldl shinier ⊥ := by
  unfold TeamAdventure.maxCrystal
  rw [maxCrystalLoop_eq]
  congr 1
  apply List.take_of_length_le
  rw [List.length_take, List.length_drop]
  omega

/-- Reducing the maxima of the chunks from `i` on is scanning the vector from
`i` on. -/
theorem foldl_chunks [OrderBot Crystal] (crystals : List Crystal) (jump : Nat) :
    ∀ (fuel i : Nat) (acc : Crystal), crystals.length ≤ i + fuel →
      ((TeamAdventure.chunkLoop crystals.length jump fuel i).map
          (fun t => TeamAdventure.maxCrystal crystals t.1 t.2)).foldl shinier acc
        = (crystals.drop i).foldl shinier acc := by
  intro fuel
  induction fuel with
  | zero =>
    intro i acc h
    rw [List.drop_eq_nil_of_le (by omega)]
    rfl
  | succ fuel ih =>
    intro i acc h
    rw [TeamAdventure.chunkLoop]
    by_cases hi : i < crystals.length
    · rw [if_pos hi, List.map_cons, List.foldl_cons, ih _ _ (by omega), maxCrystal_eq]
      have e : i + jump + 1 - i = jump + 1 := by omega
      rw [e, ← foldl_shinier_max]
      conv_rhs => rw [← List.take_append_drop (jump + 1) (crystals.drop i)]
      rw [List.foldl_append, List.drop_drop]
      rfl
    · rw [if_neg hi, List.drop_eq_nil_of_le (by omega)]
      rfl

theorem chunkLoop_lower (size jump : Nat) : ∀ (fuel i : Nat),
    ∀ t ∈ TeamAdventure.chunkLoop size jump fuel i, i ≤ t.1 ∧ t.2 = t.1 + jump + 1 := by
  intro fuel
  induction fuel with
  | zero => intro i t ht; simp [TeamAdventure.chunkLoop] at ht
  | succ fuel ih =>
    intro i t ht
    rw [TeamAdventure.chunkLoop] at ht
    split at ht
    · rcases List.mem_cons.mp ht with h | h
      · subst h; exact ⟨le_refl _, rfl⟩
      · have := ih _ t h
        exact ⟨by omega, this.2⟩
    · simp at ht

theorem chunkLoop_pairwise (size jump : Nat) : ∀ (fuel i : Nat),
    (TeamAdventure.chunkLoop size jump fuel i).Pairwise (fun s t => s.2 ≤ t.1) := by
  intro fuel
  induction fuel with
  | zero => intro i; simp [TeamAdventure.chunkLoop]
  | succ fuel ih =>
    intro i
    rw [TeamAdventure.chunkLoop]
    split
    · refine List.pairwise_cons.mpr ⟨?_, ih _⟩
      intro t ht
      exact (chunkLoop_lower size jump fuel _ t ht).1
    · exact List.Pairwise.nil

theorem chunkLoop_cover (size jump : Nat) : ∀ (fuel i k : Nat),
    size ≤ i + fuel → i ≤ k → k < size →
    ∃ t ∈ TeamAdventure.chunkLoop size jump fuel i, t.1 ≤ k ∧ k < t.2 := by
  intro fuel
  induction fuel with
  | zero => intro i k h1 h2 h3; omega
  | succ fuel ih =>
    intro i k h1 h2 h3
    rw [TeamAdventure.chunkLoop, if_pos (by omega : i < size)]
    by_cases hlt : k < i + jump + 1
    · exact ⟨(i, i + jump + 1), List.mem_cons_self _ _, h2, hlt⟩
    · obtain ⟨t, ht, h⟩ := ih (i + jump + 1) k (by omega) (by omega) h3
      exact ⟨t, List.mem_cons_of_mem _ ht, h⟩

end Crystals

/-! ## Lemmas on the partition step -/

section Sand

variable {GrainOfSand : Type}

theorem set_getElem_same : ∀ (grains : List GrainOfSand) (i : Nat) (h : i < grains.length),
    grains.set i (grains.get ⟨i, h⟩) = grains
  | [], _, h => by simp at h
  | _ :: _, 0, _ => rfl
  | x :: xs, i + 1, h => by
    rw [List.set_cons_succ]
    congr 1
    exact set_getElem_same xs i (by simpa using h)

theorem swap_self (grains : List GrainOfSand) (i : Nat) (h : i < grains.length) :
    swap grains i i = some grains := by
  unfold swap
  rw [List.getElem?_eq_getElem h]
  simp only [Option.some.injEq]
  rw [List.set_set]
  exact set_getElem_same grains i h

theorem swap_comm (grains : List GrainOfSand) (i j : Nat) :
    swap grains i j = swap grains j i := by
  unfold swap
  by_cases hij : i = j
  · subst hij; rfl
  · cases hi : grains[i]? <;> cases hj : grains[j]? <;> simp
    exact List.set_comm _ _ _ hij

/-- Swapping two different positions, in terms of the pieces of the vector. -/
theorem swap_pieces (X Y Z : List GrainOfSand) (a b : GrainOfSand) :
    swap (X ++ a :: (Y ++ b :: Z)) X.length (X.length + 1 + Y.length)
      = some (X ++ b :: (Y ++ a :: Z)) := by
  unfold swap
  have h1 : (X ++ a :: (Y ++ b :: Z))[X.length]? = some a := by
    rw [List.getElem?_append_right (le_refl _)]
    simp
  have h2 : (X ++ a :: (Y ++ b :: Z))[X.length + 1 + Y.length]? = some b := by
    rw [List.getElem?_append_right (by omega)]
    have : X.length + 1 + Y.length - X.length = Y.length + 1 := by omega
    rw [this, List.getElem?_cons_succ, List.getElem?_append_right (le_refl _)]
    simp
  rw [h1, h2]
  simp only [Option.some.injEq]
  rw [List.set_append_right _ _ (le_refl _), Nat.sub_self, List.set_cons_zero,
    List.set_append_right _ _ (by omega)]
  have : X.length + 1 + Y.length - X.length = Y.length + 1 := by omega
  rw [this, List.set_cons_succ, List.set_append_right _ _ (le_refl _), Nat.sub_self,
    List.set_cons_zero]

theorem getElem?_piece (X Z : List GrainOfSand) (a : GrainOfSand) :
    (X ++ a :: Z)[X.length]? = some a := by
  rw [List.getElem?_append_right (le_refl _)]
  simp

/-- The partition loop in terms of the pieces of the vector: `A` holds the
grains found smaller than the pivot, `B` those found not smaller, `U` those
not yet inspected. -/
theorem partitionLoop_pieces [LinearOrder GrainOfSand] (div : GrainOfSand)
    (pre post : List GrainOfSand) : ∀ (U A B : List GrainOfSand),
    (∀ a ∈ A, a < div) → (∀ b ∈ B, ¬ b < div) →
    ∃ A' B' : List GrainOfSand,
      partitionLoop div (pre.length + A.length + B.length + U.length) U.length
          (pre.length + A.length + B.length) (pre ++ (A ++ (B ++ (U ++ div :: post))))
          (pre.length + A.length)
        = some (pre ++ (A' ++ (B' ++ div :: post)), pre.length + A'.length) ∧
      (A' ++ B').Perm (A ++ (B ++ U)) ∧ (∀ a ∈ A', a < div) ∧ (∀ b ∈ B', ¬ b < div) := by
  intro U
  induction U with
  | nil =>
    intro A B hA hB
    refine ⟨A, B, ?_, ?_, hA, hB⟩
    · simp [partitionLoop]
    · simp
  | cons x U ih =>
    intro A B hA hB
    rw [List.length_cons, partitionLoop, if_pos (by omega)]
    have hg : pre ++ (A ++ (B ++ (x :: U ++ div :: post)))
        = (pre ++ (A ++ B)) ++ x :: (U ++ div :: post) := by simp
    have hlen : pre.length + A.length + B.length = (pre ++ (A ++ B)).length := by
      simp only [List.length_append]; omega
    have hget : (pre ++ (A ++ (B ++ (x :: U ++ div :: post))))[pre.length + A.length
        + B.length]? = some x := by
      rw [hg, hlen]; exact getElem?_piece _ _ _
    rw [hget]
    simp only
    by_cases hx : x < div
    · rw [if_pos hx]
      cases B with
      | nil =>
        have hA' : ∀ a ∈ A ++ [x], a < div := by
          intro a ha
          rcases List.mem_append.mp ha with h | h
          · exact hA a h
          · rw [List.mem_singleton.mp h]; exact hx
        obtain ⟨A', B', h1, h2, h3, h4⟩ := ih (A ++ [x]) [] hA' (by simp)
        refine ⟨A', B', ?_, ?_, h3, h4⟩
        · simp only [List.length_nil, Nat.add_zero, List.nil_append]
          rw [swap_self _ _ (by simp only [List.length_append, List.length_cons]; omega)]
          simp only
          simp only [List.length_append, List.length_singleton, List.length_nil,
            List.nil_append, List.append_assoc, List.singleton_append, Nat.add_zero] at h1
          rw [← h1]
          congr 1
          omega
        · refine h2.trans ?_
          simp
      | cons b B =>
        have hA' : ∀ a ∈ A ++ [x], a < div := by
          intro a ha
          rcases List.mem_append.mp ha with h | h
          · exact hA a h
          · rw [List.mem_singleton.mp h]; exact hx
        have hB' : ∀ c ∈ B ++ [b], ¬ c < div := by
          intro c hc
          rcases List.mem_append.mp hc with h | h
          · exact hB c (List.mem_cons_of_mem _ h)
          · rw [List.mem_singleton.mp h]; exact hB b (List.mem_cons_self _ _)
        obtain ⟨A', B', h1, h2, h3, h4⟩ := ih (A ++ [x]) (B ++ [b]) hA' hB'
        refine ⟨A', B', ?_, ?_, h3, h4⟩
        · have hsw : swap (pre ++ (A ++ (b :: B ++ (x :: U ++ div :: post))))
              (pre.length + A.length + (b :: B).length) (pre.length + A.length)
              = some (pre ++ (A ++ [x] ++ (B ++ [b] ++ (U ++ div :: post)))) := by
            rw [swap_comm]
            have e1 : pre ++ (A ++ (b :: B ++ (x :: U ++ div :: post)))
                = (pre ++ A) ++ b :: (B ++ x :: (U ++ div :: post)) := by simp
            have e2 : pre.length + A.length = (pre ++ A).length := by simp
            have e3 : pre.length + A.length + (b :: B).length
                = (pre ++ A).length + 1 + B.length := by
              simp only [List.length_append, List.length_cons]; omega
            rw [e1, e3, e2, swap_pieces]
            simp
          rw [hsw]
          simp only
          rw [← h1]
          congr 1
          · simp only [List.length_append, List.length_cons, List.length_nil]; omega
          · simp only [List.length_append, List.length_cons, List.length_nil]; omega
          · simp only [List.length_append, List.length_cons, List.length_nil]; omega
        · refine h2.trans ?_
          simp only [List.append_assoc, List.singleton_append, List.cons_append,
            List.nil_append]
          refine List.Perm.append_left A ?_
          exact (List.perm_middle.cons x).trans
            ((List.Perm.swap b x _).trans ((List.perm_middle.symm).cons b))
    · rw [if_neg hx]
      have hB' : ∀ c ∈ B ++ [x], ¬ c < div := by
        intro c hc
        rcases List.mem_append.mp hc with h | h
        · exact hB c h
        · rw [List.mem_singleton.mp h]; exact hx
      obtain ⟨A', B', h1, h2, h3, h4⟩ := ih A (B ++ [x]) hA hB'
      refine ⟨A', B', ?_, ?_, h3, h4⟩
      · rw [← h1]
        congr 1
        · simp only [List.length_append, List.length_cons, List.length_nil]; omega
        · simp only [List.length_append, List.length_cons, List.length_nil]; omega
        · simp
      · refine h2.trans ?_
        simp

theorem toInt_small (x : Nat) (h : x < 2 ^ 31) : toInt x = (x : Int) := by
  unfold toInt
  have h1 : x % 2 ^ 32 = x := Nat.mod_eq_of_lt (by omega)
  rw [h1, if_pos h]

theorem toSizeT_natCast (x : Nat) (h : x < 2 ^ 64) : toSizeT (x : Int) = x := by
  unfold toSizeT
  have h1 : (x : Int) % 2 ^ 64 = (x : Int) :=
    Int.emod_eq_of_lt (by omega) (by exact_mod_cast h)
  rw [h1]
  exact Int.toNat_natCast x

/-- For indices below `2 ^ 31` the conversions to `int` and back change
nothing: `getDivisionPoint(l, r)` returns the index `l + rnd % (r - l + 1)`
of `[l, r]`. -/
theorem getDivisionPoint_small (rnd l r : Nat) (hlr : l ≤ r) (hr : r < 2 ^ 31) :
    getDivisionPoint rnd l r = some (if l < r then l + rnd % (r - l + 1) else l) := by
  unfold getDivisionPoint
  by_cases h : l < r
  · rw [if_pos h, if_pos h]
    simp only
    rw [toInt_small l (by omega), toInt_small r hr]
    have hle : (l : Int) ≤ (r : Int) := by exact_mod_cast hlr
    rw [if_pos hle]
    have hmod := Nat.mod_lt rnd (by omega : 0 < r - l + 1)
    have e : (l : Int) + (rnd : Int) % ((r : Int) - (l : Int) + 1)
        = ((l + rnd % (r - l + 1) : Nat) : Int) := by
      have e1 : (r : Int) - (l : Int) + 1 = ((r - l + 1 : Nat) : Int) := by omega
      rw [e1]
      push_cast
      rfl
    rw [e, toSizeT_natCast _ (by omega)]
  · rw [if_neg h, if_neg h]

theorem getDivisionPoint_bounds (rnd l r : Nat) (h : l ≤ r) (hr : r < 2 ^ 31) :
    ∃ d, getDivisionPoint rnd l r = some d ∧ l ≤ d ∧ d ≤ r := by
  refine ⟨_, getDivisionPoint_small rnd l r h hr, ?_⟩
  split
  · have := Nat.mod_lt rnd (by omega : 0 < r - l + 1)
    omega
  · omega

/-- Beyond the range of `int` the division point leaves `[l, r]`: for
`l = 2 ^ 31` and `r = 2 ^ 31 + 1` the arguments are narrowed to `-2 ^ 31` and
`-2 ^ 31 + 1`, and the drawn value `-2 ^ 31` is returned as
`2 ^ 64 - 2 ^ 31`. -/
theorem getDivisionPoint_beyond_int :
    getDivisionPoint 0 (2 ^ 31) (2 ^ 31 + 1) = some (2 ^ 64 - 2 ^ 31) := by
  decide

/-- The first swap of the partition step moves some grain of the range to its
last position. -/
theorem first_swap_pieces (pre mid post : List GrainOfSand) (l r d : Nat)
    (hl : l = pre.length) (hr : r + 1 = pre.length + mid.length) (hld : l ≤ d) (hdr : d ≤ r) :
    ∃ (U : List GrainOfSand) (div : GrainOfSand),
      swap (pre ++ (mid ++ post)) r d = some (pre ++ (U ++ div :: post)) ∧
      (U ++ [div]).Perm mid := by
  have hne : mid ≠ [] := by
    intro h; rw [h] at hr; simp at hr; omega
  obtain ⟨M, y, hM⟩ : ∃ M y, mid = M ++ [y] :=
    ⟨mid.dropLast, mid.getLast hne, (List.dropLast_append_getLast hne).symm⟩
  subst hM
  have hrM : r = pre.length + M.length := by
    simp only [List.length_append, List.length_singleton] at hr; omega
  by_cases hd : d = r
  · subst hd
    refine ⟨M, y, ?_, List.Perm.refl _⟩
    rw [swap_self _ _ (by simp only [List.length_append, List.length_singleton]; omega)]
    simp
  · have hdlt : d - l < M.length := by omega
    obtain ⟨M1, x, M2, hM12, hM1⟩ : ∃ M1 x M2, M = M1 ++ x :: M2 ∧ M1.length = d - l := by
      refine ⟨M.take (d - l), M.get ⟨d - l, hdlt⟩, M.drop (d - l + 1), ?_, ?_⟩
      · conv_lhs => rw [← List.take_append_drop (d - l) M]
        rw [List.drop_eq_getElem_cons hdlt]
        rfl
      · rw [List.length_take]; omega
    subst hM12
    refine ⟨M1 ++ y :: M2, x, ?_, ?_⟩
    · rw [swap_comm]
      have e1 : pre ++ ((M1 ++ x :: M2) ++ [y] ++ post)
          = (pre ++ M1) ++ x :: (M2 ++ y :: post) := by simp
      have e2 : d = (pre ++ M1).length := by
        simp only [List.length_append]; omega
      have e3 : r = (pre ++ M1).length + 1 + M2.length := by
        rw [hrM]
        simp only [List.length_append, List.length_cons]
        omega
      rw [e1, e3, e2, swap_pieces]
      simp
    · simp only [List.append_assoc, List.cons_append, List.nil_append]
      refine List.Perm.append_left M1 ?_
      have h1 : (M2 ++ [x]).Perm (x :: M2) := List.perm_append_singleton x M2
      have h2 : (M2 ++ [y]).Perm (y :: M2) := List.perm_append_singleton y M2
      exact (h1.cons y).trans ((List.Perm.swap x y _).trans (h2.symm.cons x))

/-- The partition step in terms of the pieces of the vector: the range `mid`
becomes `A ++ p :: B` with the grains of `A` smaller than the pivot `p` and
those of `B` not smaller, and `act` is the position of `p`. -/
theorem partition_pieces [LinearOrder GrainOfSand] (rnd : Nat)
    (pre mid post : List GrainOfSand) (l r : Nat)
    (hl : l = pre.length) (hr : r + 1 = pre.length + mid.length) (hlr : l ≤ r)
    (hb : r < 2 ^ 31) :
    ∃ (A B : List GrainOfSand) (p : GrainOfSand),
      partition rnd (pre ++ (mid ++ post)) l r
        = some (pre ++ (A ++ p :: (B ++ post)), pre.length + A.length) ∧
      (A ++ p :: B).Perm mid ∧ (∀ a ∈ A, a < p) ∧ (∀ b ∈ B, p ≤ b) := by
  obtain ⟨d, hgd, hd1, hd2⟩ := getDivisionPoint_bounds rnd l r hlr hb
  obtain ⟨U, div, hsw, hperm⟩ := first_swap_pieces pre mid post l r d hl hr hd1 hd2
  have hUlen : U.length + 1 = mid.length := by
    have := hperm.length_eq
    simp only [List.length_append, List.length_singleton] at this
    exact this
  have hrU : r = pre.length + U.length := by omega
  obtain ⟨A', B', hloop, hperm2, hA, hB⟩ := partitionLoop_pieces div pre post U [] []
    (by simp) (by simp)
  simp only [List.length_nil, Nat.add_zero, List.nil_append] at hloop hperm2
  unfold partition
  rw [hgd]
  simp only
  rw [hsw]
  simp only
  have hget : (pre ++ (U ++ div :: post))[r]? = some div := by
    have e1 : pre ++ (U ++ div :: post) = (pre ++ U) ++ div :: post := by simp
    have e2 : r = (pre ++ U).length := by simp only [List.length_append]; omega
    rw [e1, e2]; exact getElem?_piece _ _ _
  rw [hget]
  simp only
  have hfuel : r - l = U.length := by omega
  rw [hfuel, hl, hrU, hloop]
  simp only
  have hlen2 : A'.length + B'.length = U.length := by
    have := hperm2.length_eq
    simp only [List.length_append] at this
    exact this
  cases B' with
  | nil =>
    refine ⟨A', [], div, ?_, ?_, hA, by simp⟩
    · have e : pre.length + U.length = pre.length + A'.length := by
        simp only [List.length_nil] at hlen2; omega
      rw [e, swap_self _ _ (by simp only [List.length_append, List.length_cons]; omega)]
      simp
    · refine List.Perm.trans ?_ hperm
      simp only [List.append_nil] at hperm2
      exact hperm2.append_right [div]
  | cons b B'' =>
    refine ⟨A', B'' ++ [b], div, ?_, ?_, hA, ?_⟩
    · have e1 : pre ++ (A' ++ (b :: B'' ++ div :: post))
          = (pre ++ A') ++ b :: (B'' ++ div :: post) := by simp
      have e2 : pre.length + A'.length = (pre ++ A').length := by simp
      have e3 : pre.length + U.length = (pre ++ A').length + 1 + B''.length := by
        simp only [List.length_append, List.length_cons] at hlen2 ⊢; omega
      rw [e1, e3, e2, swap_pieces]
      simp
    · refine List.Perm.trans ?_ hperm
      refine List.Perm.trans ?_ (hperm2.append_right [div])
      simp only [List.append_assoc, List.cons_append, List.nil_append]
      refine List.Perm.append_left A' ?_
      have h1 : (B'' ++ [b]).Perm (b :: B'') := List.perm_append_singleton b B''
      have h2 : (B'' ++ [div]).Perm (div :: B'') := List.perm_append_singleton div B''
      exact (h1.cons div).trans ((List.Perm.swap b div _).trans (h2.symm.cons b))
    · intro c hc
      have hc' : c ∈ b :: B'' := by
        rcases List.mem_append.mp hc with h | h
        · exact List.mem_cons_of_mem _ h
        · rw [List.mem_singleton.mp h]; exact List.mem_cons_self _ _
      exact not_lt.mp (hB c hc')

/-- One unfolding of `quickSort`. -/
theorem quickSort_eq [LinearOrder GrainOfSand] (rnd : Nat → Nat)
    (grains : List GrainOfSand) (l r k : Nat) :
    quickSort rnd grains l r k =
      if l < r then
        match partition (rnd k) grains l r with
        | none => none
        | some (grains, act) =>
          match (if act ≠ l then quickSort rnd grains l (act - 1) (k + 1)
                 else some (grains, k + 1)) with
          | none => none
          | some (grains, k) =>
            if act ≠ r then quickSort rnd grains (act + 1) r k else some (grains, k)
      else some (grains, k) := by
  rw [quickSort]
  by_cases hlr : l < r
  · rw [dif_pos hlr, if_pos hlr]
    split <;> rename_i h <;> simp only [h]
  · rw [dif_neg hlr, if_neg hlr]

theorem sorted_pieces [LinearOrder GrainOfSand] (A B : List GrainOfSand) (p : GrainOfSand)
    (hA : A.Sorted (· ≤ ·)) (hB : B.Sorted (· ≤ ·)) (hAp : ∀ a ∈ A, a < p)
    (hpB : ∀ b ∈ B, p ≤ b) : (A ++ p :: B).Sorted (· ≤ ·) := by
  unfold List.Sorted at *
  rw [List.pairwise_append]
  refine ⟨hA, List.pairwise_cons.mpr ⟨hpB, hB⟩, ?_⟩
  intro a ha b hb
  rcases List.mem_cons.mp hb with h | h
  · rw [h]; exact le_of_lt (hAp a ha)
  · exact le_trans (le_of_lt (hAp a ha)) (hpB b h)

/-- `quickSort(grains, l, r)` in terms of the pieces of the vector: it returns,
it leaves the grains outside the range where they are, and it replaces the
range by a sorted permutation of it. -/
theorem quickSort_pieces [LinearOrder GrainOfSand] (rnd : Nat → Nat) :
    ∀ (n : Nat) (mid : List GrainOfSand), mid.length ≤ n →
    ∀ (pre post : List GrainOfSand) (l r k : Nat),
      l = pre.length → r + 1 = pre.length + mid.length →
      pre.length + mid.length ≤ 2 ^ 31 →
      ∃ (mid' : List GrainOfSand) (k' : Nat),
        quickSort rnd (pre ++ (mid ++ post)) l r k = some (pre ++ (mid' ++ post), k') ∧
        mid'.Perm mid ∧ mid'.Sorted (· ≤ ·) := by
  intro n
  induction n with
  | zero =>
    intro mid hn pre post l r k hl hr hb
    have : mid = [] := List.length_eq_zero.mp (by omega)
    subst this
    simp only [List.length_nil] at hr
    refine ⟨[], k, ?_, List.Perm.refl _, List.sorted_nil⟩
    rw [quickSort_eq, if_neg (by omega)]
  | succ n ih =>
    intro mid hn pre post l r k hl hr hb
    by_cases hlr : l < r
    · obtain ⟨A, B, p, hpart, hperm, hAp, hpB⟩ :=
        partition_pieces (rnd k) pre mid post l r hl hr (le_of_lt hlr) (by omega)
      have hlen : A.length + (B.length + 1) = mid.length := by
        have := hperm.length_eq
        simp only [List.length_append, List.length_cons] at this
        exact this
      rw [quickSort_eq, if_pos hlr, hpart]
      simp only
      -- the lower part
      have hleft : ∃ (A' : List GrainOfSand) (k1 : Nat),
          (if pre.length + A.length ≠ l then
              quickSort rnd (pre ++ (A ++ p :: (B ++ post))) l (pre.length + A.length - 1) (k + 1)
            else some (pre ++ (A ++ p :: (B ++ post)), k + 1))
            = some (pre ++ (A' ++ p :: (B ++ post)), k1) ∧
          A'.Perm A ∧ A'.Sorted (· ≤ ·) := by
        by_cases hact : pre.length + A.length ≠ l
        · rw [if_pos hact]
          exact ih A (by omega) pre (p :: (B ++ post)) l (pre.length + A.length - 1) (k + 1)
            hl (by omega) (by omega)
        · rw [if_neg hact]
          have : A = [] := List.length_eq_zero.mp (by omega)
          subst this
          exact ⟨[], k + 1, rfl, List.Perm.refl _, List.sorted_nil⟩
      obtain ⟨A', k1, hL, hpermA, hsortA⟩ := hleft
      rw [hL]
      simp only
      have hlenA : A'.length = A.length := hpermA.length_eq
      -- the upper part
      have hright : ∃ (B' : List GrainOfSand) (k2 : Nat),
          (if pre.length + A.length ≠ r then
              quickSort rnd (pre ++ (A' ++ p :: (B ++ post))) (pre.length + A.length + 1) r k1
            else some (pre ++ (A' ++ p :: (B ++ post)), k1))
            = some (pre ++ (A' ++ p :: (B' ++ post)), k2) ∧
          B'.Perm B ∧ B'.Sorted (· ≤ ·) := by
        by_cases hact : pre.length + A.length ≠ r
        · rw [if_pos hact]
          have e : pre ++ (A' ++ p :: (B ++ post)) = (pre ++ (A' ++ [p])) ++ (B ++ post) := by
            simp
          obtain ⟨B', k2, h1, h2, h3⟩ := ih B (by omega) (pre ++ (A' ++ [p])) post
            (pre.length + A.length + 1) r k1
            (by simp only [List.length_append, List.length_singleton]; omega)
            (by simp only [List.length_append, List.length_singleton]; omega)
            (by simp only [List.length_append, List.length_singleton]; omega)
          refine ⟨B', k2, ?_, h2, h3⟩
          rw [e, h1]
          simp
        · rw [if_neg hact]
          have : B = [] := List.length_eq_zero.mp (by omega)
          subst this
          exact ⟨[], k1, rfl, List.Perm.refl _, List.sorted_nil⟩
      obtain ⟨B', k2, hR, hpermB, hsortB⟩ := hright
      rw [hR]
      refine ⟨A' ++ p :: B', k2, by simp, ?_, ?_⟩
      · exact (List.Perm.append hpermA (hpermB.cons p)).trans hperm
      · exact sorted_pieces A' B' p hsortA hsortB
          (fun a ha => hAp a (hpermA.mem_iff.mp ha))
          (fun b hb => hpB b (hpermB.mem_iff.mp hb))
    · refine ⟨mid, k, ?_, List.Perm.refl _, ?_⟩
      · rw [quickSort_eq, if_neg hlr]
      · have hle : mid.length ≤ 1 := by omega
        match mid, hle with
        | [], _ => exact List.sorted_nil
        | [x], _ => exact List.sorted_singleton x

end Sand

/-! ## The sort of a range inside a larger vector

Running the partition step or `quickSort` on a range of a vector is running it
on the range alone: the grains before and after the range are neither read nor
written. -/

section Frame

variable {GrainOfSand : Type}

theorem getElem?_embed (pre m post : List GrainOfSand) (i : Nat) (h : i < m.length) :
    (pre ++ (m ++ post))[pre.length + i]? = m[i]? := by
  rw [List.getElem?_append_right (by omega), Nat.add_sub_cancel_left,
    List.getElem?_append_left h]

theorem swap_embed (pre m post m' : List GrainOfSand) (i j : Nat)
    (h : swap m i j = some m') :
    swap (pre ++ (m ++ post)) (pre.length + i) (pre.length + j)
      = some (pre ++ (m' ++ post)) := by
  unfold swap at h ⊢
  cases hi : m[i]? with
  | none => rw [hi] at h; simp at h
  | some x =>
    cases hj : m[j]? with
    | none => rw [hi, hj] at h; simp at h
    | some y =>
      rw [hi, hj] at h
      simp only [Option.some.injEq] at h
      obtain ⟨hil, _⟩ := List.getElem?_eq_some.mp hi
      obtain ⟨hjl, _⟩ := List.getElem?_eq_some.mp hj
      rw [getElem?_embed pre m post i hil, getElem?_embed pre m post j hjl, hi, hj]
      simp only [Option.some.injEq]
      rw [List.set_append_right _ _ (by omega), Nat.add_sub_cancel_left,
        List.set_append_left _ _ hil,
        List.set_append_right _ _ (by omega), Nat.add_sub_cancel_left,
        List.set_append_left _ _ (by rw [List.length_set]; exact hjl), h]

theorem getDivisionPoint_shift (rnd p l r : Nat) (hb : p + r < 2 ^ 31) :
    getDivisionPoint rnd (p + l) (p + r) = (getDivisionPoint rnd l r).map (fun d => p + d) := by
  by_cases h : l ≤ r
  · rw [getDivisionPoint_small rnd (p + l) (p + r) (by omega) hb,
      getDivisionPoint_small rnd l r h (by omega)]
    simp only [Option.map_some']
    by_cases hlt : l < r
    · rw [if_pos hlt, if_pos (by omega)]
      have : p + r - (p + l) = r - l := by omega
      rw [this, Nat.add_assoc]
    · rw [if_neg hlt, if_neg (by omega)]
  · unfold getDivisionPoint
    rw [if_neg (by omega), if_neg (by omega)]
    rfl

theorem partitionLoop_embed [LinearOrder GrainOfSand] (div : GrainOfSand)
    (pre post : List GrainOfSand) (r : Nat) :
    ∀ (fuel i : Nat) (m : List GrainOfSand) (act : Nat) (out : List GrainOfSand × Nat),
      partitionLoop div r fuel i m act = some out →
      partitionLoop div (pre.length + r) fuel (pre.length + i) (pre ++ (m ++ post))
          (pre.length + act)
        = some (pre ++ (out.1 ++ post), pre.length + out.2) := by
  intro fuel
  induction fuel with
  | zero =>
    intro i m act out h
    simp only [partitionLoop, Option.some.injEq] at h
    subst h
    rfl
  | succ fuel ih =>
    intro i m act out h
    rw [partitionLoop] at h ⊢
    by_cases hir : i < r
    · rw [if_pos hir] at h
      rw [if_pos (by omega)]
      cases hget : m[i]? with
      | none => rw [hget] at h; simp at h
      | some x =>
        rw [hget] at h
        simp only at h
        obtain ⟨hil, _⟩ := List.getElem?_eq_some.mp hget
        rw [getElem?_embed pre m post i hil, hget]
        simp only
        by_cases hx : x < div
        · rw [if_pos hx] at h ⊢
          cases hsw : swap m i act with
          | none => rw [hsw] at h; simp at h
          | some m1 =>
            rw [hsw] at h
            simp only at h
            rw [swap_embed pre m post m1 i act hsw]
            simp only
            exact ih (i + 1) m1 (act + 1) out h
        · rw [if_neg hx] at h ⊢
          exact ih (i + 1) m act out h
    · rw [if_neg hir] at h
      rw [if_neg (by omega)]
      simp only [Option.some.injEq] at h
      subst h
      rfl

theorem partition_embed [LinearOrder GrainOfSand] (rnd : Nat)
    (pre post m : List GrainOfSand) (l r : Nat) (out : List GrainOfSand × Nat)
    (h : partition rnd m l r = some out) (hb : pre.length + r < 2 ^ 31) :
    partition rnd (pre ++ (m ++ post)) (pre.length + l) (pre.length + r)
      = some (pre ++ (out.1 ++ post), pre.length + out.2) := by
  unfold partition at h ⊢
  rw [getDivisionPoint_shift _ _ _ _ hb]
  cases hd : getDivisionPoint rnd l r with
  | none => rw [hd] at h; simp at h
  | some d =>
  rw [hd] at h
  simp only [Option.map_some'] at h ⊢
  cases hsw : swap m r d with
  | none => rw [hsw] at h; simp at h
  | some m1 =>
    rw [hsw] at h
    simp only at h
    rw [swap_embed pre m post m1 _ _ hsw]
    simp only
    cases hget : m1[r]? with
    | none => rw [hget] at h; simp at h
    | some div =>
      rw [hget] at h
      simp only at h
      obtain ⟨hrl, _⟩ := List.getElem?_eq_some.mp hget
      rw [getElem?_embed pre m1 post r hrl, hget]
      simp only
      cases hloop : partitionLoop div r (r - l) l m1 l with
      | none => rw [hloop] at h; simp at h
      | some res =>
        obtain ⟨m2, act⟩ := res
        rw [hloop] at h
        simp only at h
        have e : pre.length + r - (pre.length + l) = r - l := by omega
        rw [e, partitionLoop_embed div pre post r (r - l) l m1 l (m2, act) hloop]
        simp only
        cases hsw2 : swap m2 act r with
        | none => rw [hsw2] at h; simp at h
        | some m3 =>
          rw [hsw2] at h
          simp only [Option.some.injEq] at h
          subst h
          rw [swap_embed pre m2 post m3 act r hsw2]

theorem quickSort_embed [LinearOrder GrainOfSand] (rnd : Nat → Nat)
    (pre post : List GrainOfSand) :
    ∀ (n l r : Nat), r - l ≤ n → pre.length + r < 2 ^ 31 →
    ∀ (m : List GrainOfSand) (k : Nat) (out : List GrainOfSand × Nat),
      quickSort rnd m l r k = some out →
      quickSort rnd (pre ++ (m ++ post)) (pre.length + l) (pre.length + r) k
        = some (pre ++ (out.1 ++ post), out.2) := by
  intro n
  induction n with
  | zero =>
    intro l r hn hb m k out h
    rw [quickSort_eq, if_neg (by omega)] at h
    rw [quickSort_eq, if_neg (by omega)]
    simp only [Option.some.injEq] at h
    subst h
    rfl
  | succ n ih =>
    intro l r hn hb m k out h
    by_cases hlr : l < r
    · rw [quickSort_eq, if_pos hlr] at h
      rw [quickSort_eq, if_pos (by omega)]
      cases hp : partition (rnd k) m l r with
      | none => rw [hp] at h; simp at h
      | some res =>
        obtain ⟨m1, act⟩ := res
        have hact := partition_act _ _ _ _ _ hp hlr
        simp only at hact
        rw [hp] at h
        simp only at h
        rw [partition_embed (rnd k) pre post m l r (m1, act) hp hb]
        simp only
        cases hL : (if act ≠ l then quickSort rnd m1 l (act - 1) (k + 1)
            else some (m1, k + 1)) with
        | none => rw [hL] at h; simp at h
        | some resL =>
          obtain ⟨m2, k2⟩ := resL
          rw [hL] at h
          simp only at h
          have hL' : (if pre.length + act ≠ pre.length + l then
                quickSort rnd (pre ++ (m1 ++ post)) (pre.length + l) (pre.length + act - 1)
                  (k + 1)
              else some (pre ++ (m1 ++ post), k + 1))
              = some (pre ++ (m2 ++ post), k2) := by
            by_cases hal : act ≠ l
            · rw [if_pos hal] at hL
              rw [if_pos (by omega)]
              have e : pre.length + act - 1 = pre.length + (act - 1) := by omega
              rw [e]
              exact ih l (act - 1) (by omega) (by omega) m1 (k + 1) (m2, k2) hL
            · rw [if_neg hal] at hL
              rw [if_neg (by omega)]
              simp only [Option.some.injEq, Prod.mk.injEq] at hL
              rw [hL.1, hL.2]
          rw [hL']
          simp only
          by_cases har : act ≠ r
          · rw [if_pos har] at h
            rw [if_pos (by omega)]
            have e : pre.length + act + 1 = pre.length + (act + 1) := by omega
            rw [e]
            exact ih (act + 1) r (by omega) hb m2 k2 out h
          · rw [if_neg har] at h
            rw [if_neg (by omega)]
            simp only [Option.some.injEq] at h
            subst h
            rfl
    · rw [quickSort_eq, if_neg hlr] at h
      rw [quickSort_eq, if_neg (by omega)]
      simp only [Option.some.injEq] at h
      subst h
      rfl

theorem grainsAt_pieces (pre mid post : List GrainOfSand) (l r : Nat)
    (hl : pre.length = l) (hm : mid.length = r + 1 - l) :
    grainsAt (pre ++ (mid ++ post)) l r = mid := by
  unfold grainsAt
  rw [List.drop_left' hl, List.take_left' hm]

theorem pieces_of_range (grains : List GrainOfSand) (l r : Nat) (hlr : l ≤ r)
    (hr : r < grains.length) :
    grains = grains.take l ++ (grainsAt grains l r ++ grains.drop (r + 1)) ∧
    (grains.take l).length = l ∧ (grainsAt grains l r).length = r + 1 - l := by
  refine ⟨?_, ?_, ?_⟩
  · unfold grainsAt
    have e : grains.drop (r + 1) = (grains.drop l).drop (r + 1 - l) := by
      rw [List.drop_drop]
      congr 1
      omega
    rw [e, List.take_append_drop, List.take_append_drop]
  · rw [List.length_take]; omega
  · unfold grainsAt
    rw [List.length_take, List.length_drop]; omega

theorem frameOn_pieces (pre mid mid' post : List GrainOfSand) (l r : Nat)
    (hl : pre.length = l) (hm : mid.length = r + 1 - l) (hlr : l ≤ r)
    (hperm : mid'.Perm mid) :
    FrameOn (pre ++ (mid ++ post)) (pre ++ (mid' ++ post)) l r := by
  have hm' : mid'.length = r + 1 - l := by rw [hperm.length_eq]; exact hm
  refine ⟨?_, ?_, ?_⟩
  · simp only [List.length_append, hm, hm']
  · intro i hi
    rcases hi with h | h
    · rw [List.getElem?_append_left (by omega), List.getElem?_append_left (by omega)]
    · rw [List.getElem?_append_right (by omega), List.getElem?_append_right (by omega),
        List.getElem?_append_right (by omega), List.getElem?_append_right (by omega),
        hm, hm']
  · rw [grainsAt_pieces pre mid post l r hl hm, grainsAt_pieces pre mid' post l r hl hm']
    exact hperm

/-- `quickSort` on the range `l..r` of a vector: it returns, it is the sort of
the range alone put back between the untouched grains before and after the
range. -/
theorem quickSort_range [LinearOrder GrainOfSand] (rnd : Nat → Nat)
    (grains : List GrainOfSand) (l r k : Nat) (hlr : l ≤ r) (hr : r < grains.length)
    (hb : r < 2 ^ 31) :
    ∃ (mid' : List GrainOfSand) (k' : Nat),
      quickSort rnd (grainsAt grains l r) 0 (r - l) k = some (mid', k') ∧
      quickSort rnd grains l r k
        = some (grains.take l ++ (mid' ++ grains.drop (r + 1)), k') ∧
      mid'.Perm (grainsAt grains l r) := by
  obtain ⟨hg, hpre, hmid⟩ := pieces_of_range grains l r hlr hr
  obtain ⟨mid', k', h1, h2, _⟩ := quickSort_pieces rnd (grainsAt grains l r).length
    (grainsAt grains l r) (le_refl _) [] [] 0 (r - l) k rfl
    (by simp only [List.length_nil]; omega) (by simp only [List.length_nil]; omega)
  simp only [List.nil_append, List.append_nil] at h1
  refine ⟨mid', k', h1, ?_, h2⟩
  have h3 := quickSort_embed rnd (grains.take l) (grains.drop (r + 1)) (r - l) 0 (r - l)
    (by omega) (by rw [hpre]; omega) (grainsAt grains l r) k (mid', k') h1
  rw [← hg, hpre] at h3
  have e : l + (r - l) = r := by omega
  rw [Nat.add_zero, e] at h3
  exact h3

/-- The partition step on the range `l..r` of a vector: it returns, it is the
partition of the range alone put back between the untouched grains before and
after the range, and the position `act` of the pivot is in `l..r`. -/
theorem partition_range [LinearOrder GrainOfSand] (draw : Nat)
    (grains : List GrainOfSand) (l r : Nat) (hlr : l ≤ r) (hr : r < grains.length)
    (hb : r < 2 ^ 31) :
    ∃ (mid' : List GrainOfSand) (act : Nat),
      partition draw (grainsAt grains l r) 0 (r - l) = some (mid', act - l) ∧
      partition draw grains l r
        = some (grains.take l ++ (mid' ++ grains.drop (r + 1)), act) ∧
      mid'.Perm (grainsAt grains l r) ∧ l ≤ act ∧ act ≤ r := by
  obtain ⟨hg, hpre, hmid⟩ := pieces_of_range grains l r hlr hr
  obtain ⟨A, B, p, h1, h2, _, _⟩ := partition_pieces draw [] (grainsAt grains l r) [] 0 (r - l)
    rfl (by simp only [List.length_nil]; omega) (Nat.zero_le _) (by omega)
  simp only [List.nil_append, List.append_nil, List.length_nil, Nat.zero_add] at h1
  have hlen : A.length + (B.length + 1) = r + 1 - l := by
    have := h2.length_eq
    simp only [List.length_append, List.length_cons] at this
    omega
  refine ⟨A ++ p :: B, l + A.length, ?_, ?_, h2, by omega, by omega⟩
  · rw [h1, Nat.add_sub_cancel_left]
  · have h3 := partition_embed draw (grains.take l) (grains.drop (r + 1))
      (grainsAt grains l r) 0 (r - l) (A ++ p :: B, A.length) h1 (by rw [hpre]; omega)
    rw [← hg, hpre] at h3
    have e : l + (r - l) = r := by omega
    rw [Nat.add_zero, e] at h3
    exact h3

/-- The tasks a task of the parallel sort submits are for the ranges
`(l, act - 1)` and `(act + 1, r)` around the position `act` of its pivot, each
only when it has more than `cacheline` positions. -/
theorem parQuickSort_handed [LinearOrder GrainOfSand] (rnd : Nat → Nat)
    (grains : List GrainOfSand) (l r : Nat) (cnt : Int) (k : Nat)
    (out : List GrainOfSand × Int × Nat × List (Nat × Nat))
    (h : TeamAdventure.parQuickSort rnd grains l r cnt k = some out) (hlr : l < r) :
    ∃ (g : List GrainOfSand) (act : Nat), partition (rnd k) grains l r = some (g, act) ∧
      ∀ t ∈ out.2.2.2, (t = (l, act - 1) ∧ act - l > cacheline) ∨
        (t = (act + 1, r) ∧ r - act > cacheline) := by
  unfold TeamAdventure.parQuickSort at h
  split at h
  · exact absurd h (by simp)
  · rename_i g c k' enq heq
    have hout : out.2.2.2 = enq := by
      split at h <;> simp only [Option.some.injEq] at h <;> rw [← h]
    rw [hout]
    rw [if_pos hlr] at heq
    split at heq
    · exact absurd heq (by simp)
    · rename_i g1 act hpart
      refine ⟨g1, act, hpart, ?_⟩
      split at heq
      · exact absurd heq (by simp)
      · rename_i g2 c2 k2 enq2 hleft
        have hL : ∀ t ∈ enq2, t = (l, act - 1) ∧ act - l > cacheline := by
          intro t ht
          split at hleft
          · rename_i hbig
            simp only [Option.some.injEq, Prod.mk.injEq] at hleft
            rw [← hleft.2.2.2] at ht
            exact ⟨List.mem_singleton.mp ht, hbig⟩
          · split at hleft
            · cases hq : quickSort rnd g1 l (act - 1) (k + 1) with
              | none => rw [hq] at hleft; simp at hleft
              | some v =>
                rw [hq] at hleft
                simp only [Option.map_some', Option.some.injEq, Prod.mk.injEq] at hleft
                rw [← hleft.2.2.2] at ht
                simp at ht
            · simp only [Option.some.injEq, Prod.mk.injEq] at hleft
              rw [← hleft.2.2.2] at ht
              simp at ht
        intro t ht
        split at heq
        · rename_i hbig
          simp only [Option.some.injEq, Prod.mk.injEq] at heq
          rw [← heq.2.2.2] at ht
          rcases List.mem_append.mp ht with h1 | h1
          · exact Or.inl (hL t h1)
          · exact Or.inr ⟨List.mem_singleton.mp h1, hbig⟩
        · split at heq
          · cases hq : quickSort rnd g2 (act + 1) r k2 with
            | none => rw [hq] at heq; simp at heq
            | some v =>
              rw [hq] at heq
              simp only [Option.map_some', Option.some.injEq, Prod.mk.injEq] at heq
              rw [← heq.2.2.2] at ht
              exact Or.inl (hL t ht)
          · simp only [Option.some.injEq, Prod.mk.injEq] at heq
            rw [← heq.2.2.2] at ht
            exact Or.inl (hL t ht)

end Frame

/-! ## Lemmas on the parallel sort -/

section ParSort

variable {GrainOfSand : Type}

theorem flatSegs_nil : flatSegs ([] : List (Bool × List GrainOfSand)) = [] := rfl

theorem flatSegs_cons (s : Bool × List GrainOfSand) (segs : List (Bool × List GrainOfSand)) :
    flatSegs (s :: segs) = s.2 ++ flatSegs segs := by
  simp [flatSegs]

theorem flatSegs_append (X Y : List (Bool × List GrainOfSand)) :
    flatSegs (X ++ Y) = flatSegs X ++ flatSegs Y := by
  simp [flatSegs]

theorem mem_flatSegs (segs : List (Bool × List GrainOfSand)) (x : GrainOfSand) :
    x ∈ flatSegs segs ↔ ∃ s ∈ segs, x ∈ s.2 := by
  simp only [flatSegs, List.mem_flatten, List.mem_map]
  constructor
  · rintro ⟨_, ⟨s, hs, rfl⟩, hx⟩
    exact ⟨s, hs, hx⟩
  · rintro ⟨s, hs, hx⟩
    exact ⟨s.2, ⟨s, hs, rfl⟩, hx⟩

theorem pendingRanges_append : ∀ (X Y : List (Bool × List GrainOfSand)) (off : Nat),
    pendingRanges off (X ++ Y)
      = pendingRanges off X ++ pendingRanges (off + (flatSegs X).length) Y
  | [], Y, off => by simp [pendingRanges, flatSegs_nil]
  | s :: X, Y, off => by
    rw [List.cons_append, pendingRanges, pendingRanges, pendingRanges_append X Y,
      flatSegs_cons, List.length_append, List.append_assoc, Nat.add_assoc]

/-- A pending range is the range of a pending segment. -/
theorem mem_pendingRanges : ∀ (segs : List (Bool × List GrainOfSand)) (off : Nat)
    (t : Nat × Nat), t ∈ pendingRanges off segs →
    ∃ (S1 S2 : List (Bool × List GrainOfSand)) (mid : List GrainOfSand),
      segs = S1 ++ (true, mid) :: S2 ∧
      t = (off + (flatSegs S1).length, off + (flatSegs S1).length + mid.length - 1)
  | [], _, _, h => by simp [pendingRanges] at h
  | s :: rest, off, t, h => by
    rw [pendingRanges, List.mem_append] at h
    rcases h with h | h
    · obtain ⟨b, mid⟩ := s
      cases b with
      | false => simp at h
      | true =>
        simp only [if_true, List.mem_singleton] at h
        exact ⟨[], rest, mid, rfl, by simpa [flatSegs_nil] using h⟩
    · obtain ⟨S1, S2, mid, h1, h2⟩ := mem_pendingRanges rest _ t h
      refine ⟨s :: S1, S2, mid, by rw [h1]; rfl, ?_⟩
      rw [h2, flatSegs_cons, List.length_append]
      simp only [Prod.mk.injEq]
      omega

theorem pendingRanges_eq_nil : ∀ (segs : List (Bool × List GrainOfSand)) (off : Nat),
    pendingRanges off segs = [] → ∀ s ∈ segs, s.1 = false
  | [], _, _ => by simp
  | s :: rest, off, h => by
    rw [pendingRanges, List.append_eq_nil] at h
    intro s' hs'
    rcases List.mem_cons.mp hs' with h' | h'
    · subst h'
      by_contra hne
      have : s'.1 = true := by simpa using hne
      rw [this] at h
      simp at h
    · exact pendingRanges_eq_nil rest _ h.2 s' h'

/-- Well-formed segments all of which are finished concatenate to a sorted
list. -/
theorem sorted_flatSegs [LinearOrder GrainOfSand] (segs : List (Bool × List GrainOfSand))
    (hok : SegsOK segs) (hdone : ∀ s ∈ segs, s.1 = false) :
    (flatSegs segs).Sorted (· ≤ ·) := by
  unfold flatSegs List.Sorted
  rw [List.pairwise_flatten]
  constructor
  · intro l hl
    obtain ⟨s, hs, rfl⟩ := List.mem_map.mp hl
    exact hok.2.1 s hs (hdone s hs)
  · rw [List.pairwise_map]
    exact hok.1

/-- One task of the parallel sort in terms of the pieces of the vector: the
range `mid` of the task is replaced by well-formed segments, the pending ones
being the ranges of the tasks it submits, and the counter is increased once
for each submitted task and then finished. -/
theorem parQuickSort_segs [LinearOrder GrainOfSand] (rnd : Nat → Nat)
    (pre mid post : List GrainOfSand) (l r : Nat) (cnt : Int) (k : Nat)
    (hl : l = pre.length) (hr : r + 1 = pre.length + mid.length)
    (hb : pre.length + mid.length ≤ 2 ^ 31) :
    ∃ (segs : List (Bool × List GrainOfSand)) (k' : Nat),
      TeamAdventure.parQuickSort rnd (pre ++ (mid ++ post)) l r cnt k
        = some (pre ++ (flatSegs segs ++ post),
            finishCnt (cnt + ((pendingRanges l segs).length : Int)), k',
            pendingRanges l segs) ∧
      (flatSegs segs).Perm mid ∧ SegsOK segs := by
  unfold TeamAdventure.parQuickSort
  by_cases hlr : l < r
  · rw [if_pos hlr]
    obtain ⟨A, B, p, hpart, hperm, hAp, hpB⟩ :=
      partition_pieces (rnd k) pre mid post l r hl hr (le_of_lt hlr) (by omega)
    have hlen : A.length + (B.length + 1) = mid.length := by
      have := hperm.length_eq
      simp only [List.length_append, List.length_cons] at this
      exact this
    rw [hpart]
    simp only
    have hleft : ∃ (A' : List GrainOfSand) (k1 : Nat) (bA : Bool),
        (if pre.length + A.length - l > cacheline then
            some (pre ++ (A ++ p :: (B ++ post)), cnt + 1, k + 1,
              [(l, pre.length + A.length - 1)])
          else if pre.length + A.length ≠ l then
            (quickSort rnd (pre ++ (A ++ p :: (B ++ post))) l (pre.length + A.length - 1)
              (k + 1)).map (fun out => (out.1, cnt, out.2, []))
          else some (pre ++ (A ++ p :: (B ++ post)), cnt, k + 1, []))
          = some (pre ++ (A' ++ p :: (B ++ post)),
              cnt + ((pendingRanges l [(bA, A')]).length : Int), k1,
              pendingRanges l [(bA, A')]) ∧
        A'.Perm A ∧ (bA = false → A'.Sorted (· ≤ ·)) ∧ (bA = true → A' ≠ []) := by
      by_cases hbig : pre.length + A.length - l > cacheline
      · rw [if_pos hbig]
        refine ⟨A, k + 1, true, ?_, List.Perm.refl _, by simp, ?_⟩
        · simp only [pendingRanges, if_true, List.append_nil, List.length_singleton,
            Nat.cast_one]
          rw [hl]
        · intro _ h
          rw [h] at hbig
          simp only [List.length_nil, Nat.add_zero] at hbig
          omega
      · rw [if_neg hbig]
        by_cases hact : pre.length + A.length ≠ l
        · rw [if_pos hact]
          obtain ⟨A', k1, h1, h2, h3⟩ := quickSort_pieces rnd A.length A (le_refl _) pre
            (p :: (B ++ post)) l (pre.length + A.length - 1) (k + 1) hl (by omega) (by omega)
          refine ⟨A', k1, false, ?_, h2, fun _ => h3, by simp⟩
          rw [h1]
          simp [pendingRanges]
        · rw [if_neg hact]
          have : A = [] := List.length_eq_zero.mp (by omega)
          subst this
          exact ⟨[], k + 1, false, by simp [pendingRanges], List.Perm.refl _,
            fun _ => List.sorted_nil, by simp⟩
    obtain ⟨A', k1, bA, hL, hpermA, hsortA, hneA⟩ := hleft
    rw [hL]
    simp only
    have hlenA : A'.length = A.length := hpermA.length_eq
    have hright : ∃ (B' : List GrainOfSand) (k2 : Nat) (bB : Bool),
        (if r - (pre.length + A.length) > cacheline then
            some (pre ++ (A' ++ p :: (B ++ post)),
              cnt + ((pendingRanges l [(bA, A')]).length : Int) + 1, k1,
              pendingRanges l [(bA, A')] ++ [(pre.length + A.length + 1, r)])
          else if pre.length + A.length ≠ r then
            (quickSort rnd (pre ++ (A' ++ p :: (B ++ post))) (pre.length + A.length + 1) r
              k1).map (fun out => (out.1, cnt + ((pendingRanges l [(bA, A')]).length : Int),
                out.2, pendingRanges l [(bA, A')]))
          else some (pre ++ (A' ++ p :: (B ++ post)),
            cnt + ((pendingRanges l [(bA, A')]).length : Int), k1,
            pendingRanges l [(bA, A')]))
          = some (pre ++ (A' ++ p :: (B' ++ post)),
              cnt + ((pendingRanges l [(bA, A'), (false, [p]), (bB, B')]).length : Int), k2,
              pendingRanges l [(bA, A'), (false, [p]), (bB, B')]) ∧
        B'.Perm B ∧ (bB = false → B'.Sorted (· ≤ ·)) ∧ (bB = true → B' ≠ []) := by
      have hpr : ∀ (bB : Bool) (B' : List GrainOfSand),
          pendingRanges l [(bA, A'), (false, [p]), (bB, B')]
            = pendingRanges l [(bA, A')] ++
              (if bB then [(l + A'.length + 1, l + A'.length + 1 + B'.length - 1)] else []) := by
        intro bB B'
        simp [pendingRanges]
      by_cases hbig : r - (pre.length + A.length) > cacheline
      · rw [if_pos hbig]
        refine ⟨B, k1, true, ?_, List.Perm.refl _, by simp, ?_⟩
        · rw [hpr]
          simp only [if_true, List.length_append, List.length_singleton, Nat.cast_add,
            Nat.cast_one, Option.some.injEq, Prod.mk.injEq, true_and, List.append_cancel_left_eq,
            List.cons.injEq, and_true]
          refine ⟨by ring, ?_, ?_⟩ <;> omega
        · intro _ h; rw [h] at hlen; simp at hlen; omega
      · rw [if_neg hbig]
        by_cases hact : pre.length + A.length ≠ r
        · rw [if_pos hact]
          have e : pre ++ (A' ++ p :: (B ++ post)) = (pre ++ (A' ++ [p])) ++ (B ++ post) := by
            simp
          obtain ⟨B', k2, h1, h2, h3⟩ := quickSort_pieces rnd B.length B (le_refl _)
            (pre ++ (A' ++ [p])) post (pre.length + A.length + 1) r k1
            (by simp only [List.length_append, List.length_singleton]; omega)
            (by simp only [List.length_append, List.length_singleton]; omega)
            (by simp only [List.length_append, List.length_singleton]; omega)
          refine ⟨B', k2, false, ?_, h2, fun _ => h3, by simp⟩
          rw [e, h1, hpr]
          simp
        · rw [if_neg hact]
          have : B = [] := List.length_eq_zero.mp (by omega)
          subst this
          refine ⟨[], k1, false, ?_, List.Perm.refl _, fun _ => List.sorted_nil, by simp⟩
          rw [hpr]
          simp
    obtain ⟨B', k2, bB, hR, hpermB, hsortB, hneB⟩ := hright
    rw [hR]
    simp only
    refine ⟨[(bA, A'), (false, [p]), (bB, B')], k2, ?_, ?_, ?_⟩
    · simp only [finishCnt, flatSegs, List.map_cons, List.map_nil, List.flatten_cons,
        List.flatten_nil, List.append_nil, List.append_assoc, List.singleton_append]
      split <;> rfl
    · simp only [flatSegs, List.map_cons, List.map_nil, List.flatten_cons,
        List.flatten_nil, List.append_nil, List.singleton_append]
      exact (List.Perm.append hpermA (hpermB.cons p)).trans hperm
    · refine ⟨?_, ?_, ?_⟩
      · simp only [List.pairwise_cons, List.mem_cons, List.mem_singleton, List.not_mem_nil,
          forall_eq_or_imp, forall_eq, false_implies, implies_true, List.Pairwise.nil,
          and_true]
        refine ⟨⟨?_, ?_⟩, ?_⟩
        · intro a ha
          exact le_of_lt (hAp a (hpermA.mem_iff.mp ha))
        · intro a ha b hb
          exact le_trans (le_of_lt (hAp a (hpermA.mem_iff.mp ha)))
            (hpB b (hpermB.mem_iff.mp hb))
        · intro b hb
          exact hpB b (hpermB.mem_iff.mp hb)
      · intro s hs hdone
        simp only [List.mem_cons, List.mem_singleton, List.not_mem_nil, or_false] at hs
        rcases hs with h | h | h
        · subst h; exact hsortA hdone
        · subst h; exact List.sorted_singleton p
        · subst h; exact hsortB hdone
      · intro s hs hpend
        simp only [List.mem_cons, List.mem_singleton, List.not_mem_nil, or_false] at hs
        rcases hs with h | h | h
        · subst h; exact hneA hpend
        · subst h; simp at hpend
        · subst h; exact hneB hpend
  · rw [if_neg hlr]
    simp only
    refine ⟨[(false, mid)], k, ?_, ?_, ?_⟩
    · simp only [finishCnt, flatSegs, pendingRanges, List.map_cons, List.map_nil,
        List.flatten_cons, List.flatten_nil, List.append_nil, List.length_nil, Nat.cast_zero,
        add_zero]
      split <;> rename_i hc <;> simp [hc]
    · simp [flatSegs]
    · refine ⟨by simp, ?_, by simp⟩
      intro s hs _
      rw [List.mem_singleton.mp hs]
      have hle : mid.length ≤ 1 := by omega
      match mid, hle with
      | [], _ => exact List.sorted_nil
      | [x], _ => exact List.sorted_singleton x

/-- One unfolding of `runPool`. -/
theorem runPool_eq [LinearOrder GrainOfSand] (rnd pick : Nat → Nat)
    (st : PoolState GrainOfSand) :
    runPool rnd pick st =
      if st.queue = [] then some st
      else
        match st.queue[pick st.steps % st.queue.length]? with
        | none => none
        | some t =>
          match TeamAdventure.parQuickSort rnd st.grains t.1 t.2 st.cnt st.draws with
          | none => none
          | some out =>
            runPool rnd pick
              { grains := out.1
                queue := st.queue.eraseIdx (pick st.steps % st.queue.length) ++ out.2.2.2
                cnt := out.2.1
                draws := out.2.2.1
                steps := st.steps + 1 } := by
  rw [runPool]
  by_cases hq : st.queue = []
  · rw [if_pos hq, if_pos hq]
  · rw [if_neg hq, if_neg hq]
    split
    · rename_i h; simp only [h]
    · rename_i t h
      simp only [h]
      split <;> rename_i h2 <;> simp only [h2]

theorem perm_cons_eraseIdx : ∀ (queue : List (Nat × Nat)) (idx : Nat) (t : Nat × Nat),
    queue[idx]? = some t → queue.Perm (t :: queue.eraseIdx idx)
  | [], _, _, h => by simp at h
  | x :: q, 0, t, h => by
    simp only [List.getElem?_cons_zero, Option.some.injEq] at h
    subst h
    exact List.Perm.refl _
  | x :: q, idx + 1, t, h => by
    simp only [List.getElem?_cons_succ] at h
    rw [List.eraseIdx_cons_succ]
    exact ((perm_cons_eraseIdx q idx t h).cons x).trans (List.Perm.swap t x _)

/-- Replacing a pending segment by well-formed segments with the same grains
keeps the segments well formed. -/
theorem SegsOK_replace [LinearOrder GrainOfSand] (S1 S2 segs : List (Bool × List GrainOfSand))
    (mid : List GrainOfSand) (hok : SegsOK (S1 ++ (true, mid) :: S2)) (hsegs : SegsOK segs)
    (hperm : (flatSegs segs).Perm mid) : SegsOK (S1 ++ (segs ++ S2)) := by
  obtain ⟨hpw, hdone, hpend⟩ := hok
  obtain ⟨hpw', hdone', hpend'⟩ := hsegs
  rw [List.pairwise_append, List.pairwise_cons] at hpw
  obtain ⟨hpw1, ⟨hmid2, hpw2⟩, h12⟩ := hpw
  have hin : ∀ s ∈ segs, ∀ x ∈ s.2, x ∈ mid := by
    intro s hs x hx
    exact hperm.mem_iff.mp ((mem_flatSegs segs x).mpr ⟨s, hs, hx⟩)
  refine ⟨?_, ?_, ?_⟩
  · rw [List.pairwise_append, List.pairwise_append]
    refine ⟨hpw1, ⟨hpw', hpw2, ?_⟩, ?_⟩
    · intro a ha b hb x hx y hy
      exact hmid2 b hb x (hin a ha x hx) y hy
    · intro a ha b hb x hx y hy
      rcases List.mem_append.mp hb with h | h
      · exact h12 a ha (true, mid) (List.mem_cons_self _ _) x hx y (hin b h y hy)
      · exact h12 a ha b (List.mem_cons_of_mem _ h) x hx y hy
  · intro s hs hd
    rcases List.mem_append.mp hs with h | h
    · exact hdone s (List.mem_append_left _ h) hd
    · rcases List.mem_append.mp h with h | h
      · exact hdone' s h hd
      · exact hdone s (List.mem_append_right _ (List.mem_cons_of_mem _ h)) hd
  · intro s hs hd
    rcases List.mem_append.mp hs with h | h
    · exact hpend s (List.mem_append_left _ h) hd
    · rcases List.mem_append.mp h with h | h
      · exact hpend' s h hd
      · exact hpend s (List.mem_append_right _ (List.mem_cons_of_mem _ h)) hd

/-- From a state whose pending tasks are the pending segments of a well-formed
segmentation of the vector, the pool runs until no task is pending; the vector
is then a sorted permutation of the vector of the state and `cnt` is `-1`. -/
theorem runPool_segs [LinearOrder GrainOfSand] (rnd pick : Nat → Nat) :
    ∀ (n : Nat) (st : PoolState GrainOfSand) (segs : List (Bool × List GrainOfSand)),
      queueSize st.queue < n → st.grains = flatSegs segs → SegsOK segs →
      (flatSegs segs).length ≤ 2 ^ 31 →
      st.queue.Perm (pendingRanges 0 segs) →
      (st.queue ≠ [] → st.cnt = (st.queue.length : Int)) → (st.queue = [] → st.cnt = -1) →
      ∃ st' : PoolState GrainOfSand, runPool rnd pick st = some st' ∧
        st'.grains.Perm st.grains ∧ st'.grains.Sorted (· ≤ ·) ∧ st'.cnt = -1 ∧
        st'.queue = [] := by
  intro n
  induction n with
  | zero => intro st segs h; omega
  | succ n ih =>
    intro st segs hsize hflat hok hb hqueue hcnt hcnt0
    rw [runPool_eq]
    by_cases hq : st.queue = []
    · rw [if_pos hq]
      refine ⟨st, rfl, List.Perm.refl _, ?_, hcnt0 hq, hq⟩
      rw [hq] at hqueue
      have hnil : pendingRanges 0 segs = [] := List.Perm.eq_nil hqueue.symm
      rw [hflat]
      exact sorted_flatSegs segs hok (pendingRanges_eq_nil segs 0 hnil)
    · rw [if_neg hq]
      have hpos : 0 < st.queue.length := List.length_pos.mpr hq
      have hidx : pick st.steps % st.queue.length < st.queue.length := Nat.mod_lt _ hpos
      generalize pick st.steps % st.queue.length = idx at hidx ⊢
      have hget : st.queue[idx]? = some (st.queue.get ⟨idx, hidx⟩) :=
        List.getElem?_eq_getElem hidx
      generalize st.queue.get ⟨idx, hidx⟩ = t at hget
      rw [hget]
      simp only
      have hmem : t ∈ pendingRanges 0 segs :=
        hqueue.mem_iff.mp (List.getElem?_mem hget)
      obtain ⟨S1, S2, mid, hsegs, ht⟩ := mem_pendingRanges segs 0 t hmem
      subst hsegs
      have hmidne : mid ≠ [] := hok.2.2 (true, mid) (by simp) rfl
      have hmidlen : 0 < mid.length := List.length_pos.mpr hmidne
      simp only [Nat.zero_add] at ht
      have hg : st.grains = flatSegs S1 ++ (mid ++ flatSegs S2) := by
        rw [hflat, flatSegs_append, flatSegs_cons]
      have hb1 : (flatSegs S1).length + (mid.length + (flatSegs S2).length) ≤ 2 ^ 31 := by
        have h1 := hb
        simp only [flatSegs_append, flatSegs_cons, List.length_append] at h1
        exact h1
      obtain ⟨segs', k', hpar, hperm', hok'⟩ := parQuickSort_segs rnd (flatSegs S1) mid
        (flatSegs S2) t.1 t.2 st.cnt st.draws (by rw [ht]) (by rw [ht]; simp only; omega)
        (by omega)
      rw [hg, hpar]
      simp only
      have hlen' : (flatSegs segs').length = mid.length := hperm'.length_eq
      have hperase := perm_cons_eraseIdx st.queue idx t hget
      have hprold : pendingRanges 0 (S1 ++ (true, mid) :: S2)
          = pendingRanges 0 S1 ++ t :: pendingRanges (t.1 + mid.length) S2 := by
        rw [pendingRanges_append, pendingRanges, ht]
        simp
      have hprnew : pendingRanges 0 (S1 ++ (segs' ++ S2))
          = pendingRanges 0 S1 ++ (pendingRanges t.1 segs'
            ++ pendingRanges (t.1 + mid.length) S2) := by
        rw [pendingRanges_append, pendingRanges_append, hlen', ht]
        simp
      have hrest : (st.queue.eraseIdx idx).Perm
          (pendingRanges 0 S1 ++ pendingRanges (t.1 + mid.length) S2) := by
        have h1 : (t :: st.queue.eraseIdx idx).Perm
            (t :: (pendingRanges 0 S1 ++ pendingRanges (t.1 + mid.length) S2)) := by
          refine hperase.symm.trans (hqueue.trans ?_)
          rw [hprold]
          exact List.perm_middle
        exact h1.cons_inv
      have hqnew : (st.queue.eraseIdx idx ++ pendingRanges t.1 segs').Perm
          (pendingRanges 0 (S1 ++ (segs' ++ S2))) := by
        rw [hprnew]
        refine (hrest.append_right _).trans ?_
        rw [List.append_assoc]
        exact List.Perm.append_left _ List.perm_append_comm
      have hdec : queueSize (st.queue.eraseIdx idx ++ pendingRanges t.1 segs') < n := by
        have h1 := queueSize_eraseIdx st.queue idx t hget
        have h2 := TeamAdventure.parQuickSort_enqueued rnd _ _ _ _ _ _ hpar
        simp only [Prod.mk.eta] at h2
        rw [queueSize_append]
        omega
      have hlenq : ((st.queue.eraseIdx idx ++ pendingRanges t.1 segs').length : Int)
          = st.cnt + ((pendingRanges t.1 segs').length : Int) - 1 := by
        rw [hcnt hq, List.length_append, List.length_eraseIdx, if_pos hidx]
        push_cast
        omega
      obtain ⟨st', hrun, hp, hs, hc, hqe⟩ := ih
        { grains := flatSegs S1 ++ (flatSegs segs' ++ flatSegs S2)
          queue := st.queue.eraseIdx idx ++ pendingRanges t.1 segs'
          cnt := finishCnt (st.cnt + ((pendingRanges t.1 segs').length : Int))
          draws := k'
          steps := st.steps + 1 }
        (S1 ++ (segs' ++ S2)) hdec
        (by simp only [flatSegs_append])
        (SegsOK_replace S1 S2 segs' mid hok hok' hperm')
        (by simp only [flatSegs_append, List.length_append]; omega) hqnew
        (by
          intro hne
          simp only at hne ⊢
          have : (st.queue.eraseIdx idx ++ pendingRanges t.1 segs').length ≠ 0 := by
            intro h0; exact hne (List.length_eq_zero.mp h0)
          unfold finishCnt
          rw [if_neg (by omega)]
          omega)
        (by
          intro he
          simp only at he ⊢
          have : (st.queue.eraseIdx idx ++ pendingRanges t.1 segs').length = 0 := by
            rw [he]; rfl
          unfold finishCnt
          rw [if_pos (by omega)]
          omega)
      refine ⟨st', hrun, ?_, hs, hc, hqe⟩
      refine hp.trans ?_
      simp only
      exact List.Perm.append_left _ (List.Perm.append_right _ hperm')

theorem lastIndex_pos (size : Nat) (h0 : 0 < size) (h : size < 2 ^ 64) :
    lastIndex size = size - 1 := by
  unfold lastIndex
  have e : size + 2 ^ 64 - 1 = (size - 1) + 2 ^ 64 := by omega
  rw [e, Nat.add_mod_right, Nat.mod_eq_of_lt (by omega)]

theorem lastIndex_zero : lastIndex 0 = 2 ^ 64 - 1 := by
  unfold lastIndex
  norm_num

/-- The sequential sort of a non-empty vector returns a sorted permutation. -/
theorem lonesome_arrangeSand_spec [LinearOrder GrainOfSand] (rnd : Nat → Nat)
    (grains : List GrainOfSand) (hne : grains ≠ []) (hb : grains.length ≤ 2 ^ 31) :
    ∃ out : List GrainOfSand, LonesomeAdventure.arrangeSand rnd grains = some out ∧
      out.Perm grains ∧ out.Sorted (· ≤ ·) := by
  have hsz : grains.length < 2 ^ 64 := by omega
  have hpos : 0 < grains.length := List.length_pos.mpr hne
  obtain ⟨mid', k', h1, h2, h3⟩ := quickSort_pieces rnd grains.length grains (le_refl _)
    [] [] 0 (grains.length - 1) 0 rfl (by simp only [List.length_nil]; omega)
    (by simp only [List.length_nil]; omega)
  refine ⟨mid', ?_, h2, h3⟩
  unfold LonesomeAdventure.arrangeSand
  rw [lastIndex_pos _ hpos hsz]
  simp only [List.nil_append, List.append_nil] at h1
  rw [h1]
  rfl

/-- The parallel sort of a non-empty vector ends with a sorted permutation and
with `cnt == -1`, whatever the random draws and the order of the tasks. -/
theorem team_arrangeSand_spec [LinearOrder GrainOfSand] (rnd pick : Nat → Nat)
    (grains : List GrainOfSand) (hne : grains ≠ []) (hb : grains.length ≤ 2 ^ 31) :
    ∃ out : List GrainOfSand, TeamAdventure.arrangeSand rnd pick grains = some (out, -1) ∧
      out.Perm grains ∧ out.Sorted (· ≤ ·) := by
  have hsz : grains.length < 2 ^ 64 := by omega
  have hpos : 0 < grains.length := List.length_pos.mpr hne
  obtain ⟨st', hrun, hp, hs, hc, _⟩ := runPool_segs rnd pick
    (queueSize [(0, lastIndex grains.length)] + 1)
    { grains := grains, queue := [(0, lastIndex grains.length)], cnt := 1, draws := 0,
      steps := 0 }
    [(true, grains)] (by simp only; omega) (by simp [flatSegs])
    ⟨by simp, by simp, by simpa using hne⟩
    (by simp only [flatSegs, List.map_cons, List.map_nil, List.flatten_cons, List.flatten_nil,
          List.append_nil]; exact hb)
    (by simp only [pendingRanges, if_true, List.append_nil, Nat.zero_add]
        rw [lastIndex_pos _ hpos hsz])
    (by intro _; rfl) (by intro h; simp at h)
  refine ⟨st'.grains, ?_, hp, hs⟩
  unfold TeamAdventure.arrangeSand
  rw [hrun]
  simp only [Option.map_some', hc]

end ParSort

/-! ## Lemmas on the segments and the workers of the team knapsack -/

theorem mem_submitLoop (cap jump : Nat) : ∀ (fuel i : Nat) (t : Nat × Nat),
    t ∈ TeamAdventure.submitLoop cap jump fuel i →
    i ≤ t.1 ∧ t.1 ≤ cap ∧ t.2 = t.1 + jump + 1 := by
  intro fuel
  induction fuel with
  | zero => intro i t ht; simp [TeamAdventure.submitLoop] at ht
  | succ fuel ih =>
    intro i t ht
    rw [TeamAdventure.submitLoop] at ht
    split at ht
    · rcases List.mem_cons.mp ht with h | h
      · subst h; exact ⟨le_refl _, by assumption, rfl⟩
      · have := ih _ t h
        exact ⟨by omega, this.2⟩
    · simp at ht

theorem length_loopCols (cap r : Nat) : ∀ (fuel i : Nat),
    (TeamAdventure.loopCols cap r fuel i).length = min fuel (min (cap + 1) r - i) := by
  intro fuel
  induction fuel with
  | zero => intro i; simp [TeamAdventure.loopCols]
  | succ fuel ih =>
    intro i
    rw [TeamAdventure.loopCols]
    by_cases h : i ≤ cap ∧ i < r
    · rw [if_pos h, List.length_cons, ih]
      omega
    · rw [if_neg h, List.length_nil]
      omega

theorem segmentWidth_eq (cap : Nat) (t : Nat × Nat) :
    segmentWidth cap t = min (cap + 1) t.2 - t.1 := by
  unfold segmentWidth TeamAdventure.segmentCols
  rw [length_loopCols]
  omega

theorem div_succ_of_le (a jump : Nat) (hj : 1 ≤ jump) (h : jump ≤ a) :
    a / jump = (a - jump) / jump + 1 := by
  have e : a = (a - jump) + jump * 1 := by omega
  conv_lhs => rw [e]
  rw [Nat.add_mul_div_left _ _ (by omega : 0 < jump)]

theorem length_submitLoop (cap jump : Nat) (hj : 1 ≤ jump) : ∀ (fuel i : Nat),
    cap + 1 ≤ i + fuel →
    (TeamAdventure.submitLoop cap jump fuel i).length
      = if i ≤ cap then (cap - i) / jump + 1 else 0 := by
  intro fuel
  induction fuel with
  | zero =>
    intro i h
    rw [if_neg (by omega)]
    rfl
  | succ fuel ih =>
    intro i h
    rw [TeamAdventure.submitLoop]
    by_cases hi : i ≤ cap
    · rw [if_pos hi, if_pos hi, List.length_cons, ih (i + jump) (by omega)]
      by_cases h2 : i + jump ≤ cap
      · rw [if_pos h2, div_succ_of_le (cap - i) jump hj (by omega), Nat.sub_sub]
      · rw [if_neg h2, Nat.div_eq_of_lt (by omega)]
    · rw [if_neg hi, if_neg hi, List.length_nil]

/-- The value `workers` is the quotient `(cap + 1) / jump` rounded up. -/
theorem workers_eq (cap jump : Nat) (hj : 1 ≤ jump) :
    TeamAdventure.workers cap jump = cap / jump + 1 := by
  unfold TeamAdventure.workers
  have hdm := Nat.div_add_mod (cap + 1) jump
  have hlt := Nat.mod_lt (cap + 1) (by omega : 0 < jump)
  by_cases h0 : (cap + 1) % jump = 0
  · rw [if_pos h0]
    rw [h0] at hdm
    have hq : 0 < (cap + 1) / jump := by
      rcases Nat.eq_zero_or_pos ((cap + 1) / jump) with h | h
      · rw [h] at hdm; omega
      · exact h
    have : cap / jump = (cap + 1) / jump - 1 := by
      apply Nat.div_eq_of_lt_le
      · have : ((cap + 1) / jump - 1) * jump + jump = (cap + 1) / jump * jump := by
          rw [← Nat.succ_mul]
          congr 1
          omega
        rw [Nat.mul_comm] at hdm
        omega
      · have e : (cap + 1) / jump - 1 + 1 = (cap + 1) / jump := by omega
        rw [e, Nat.mul_comm]
        omega
    omega
  · rw [if_neg h0]
    have : cap / jump = (cap + 1) / jump := by
      apply Nat.div_eq_of_lt_le
      · rw [Nat.mul_comm]; omega
      · rw [Nat.succ_mul, Nat.mul_comm]; omega
    omega

theorem jump_gt (numberOfShamans cap : Nat) (hn : 1 ≤ numberOfShamans) :
    cap + 1 < numberOfShamans * TeamAdventure.jump numberOfShamans cap := by
  have hdm := Nat.div_add_mod (cap + 1) numberOfShamans
  have hlt := Nat.mod_lt (cap + 1) (by omega : 0 < numberOfShamans)
  have h1 : (cap + 1) / numberOfShamans + 1 ≤ TeamAdventure.jump numberOfShamans cap := by
    unfold TeamAdventure.jump
    simp only
    split <;> omega
  have h2 : numberOfShamans * ((cap + 1) / numberOfShamans + 1)
      ≤ numberOfShamans * TeamAdventure.jump numberOfShamans cap :=
    Nat.mul_le_mul_left _ h1
  rw [Nat.mul_add, Nat.mul_one] at h2
  omega

/-- The value `workers` is between 1 and the number of shamans. -/
theorem workers_le (numberOfShamans cap : Nat) (hn : 1 ≤ numberOfShamans) :
    1 ≤ TeamAdventure.workers cap (TeamAdventure.jump numberOfShamans cap) ∧
    TeamAdventure.workers cap (TeamAdventure.jump numberOfShamans cap) ≤ numberOfShamans := by
  have hj8 := TeamAdventure.jump_ge numberOfShamans cap
  unfold cacheline at hj8
  have hj : 1 ≤ TeamAdventure.jump numberOfShamans cap := by omega
  rw [workers_eq cap _ hj]
  refine ⟨Nat.le_add_left 1 _, ?_⟩
  have hgt := jump_gt numberOfShamans cap hn
  have hq : cap / TeamAdventure.jump numberOfShamans cap < numberOfShamans := by
    apply (Nat.div_lt_iff_lt_mul (by omega)).mpr
    omega
  omega

theorem submitLoop_start (cap jump : Nat) : ∀ (fuel i : Nat) (t : Nat × Nat),
    t ∈ TeamAdventure.submitLoop cap jump fuel i → ∃ k, t.1 = i + k * jump := by
  intro fuel
  induction fuel with
  | zero => intro i t ht; simp [TeamAdventure.submitLoop] at ht
  | succ fuel ih =>
    intro i t ht
    rw [TeamAdventure.submitLoop] at ht
    split at ht
    · rcases List.mem_cons.mp ht with h | h
      · subst h; exact ⟨0, by simp⟩
      · obtain ⟨k, hk⟩ := ih _ t h
        exact ⟨k + 1, by rw [hk, Nat.succ_mul]; omega⟩
    · simp at ht

/-- A task that is followed by another one starts at least `jump` columns
before the last column. -/
theorem tasks_next (cap jump : Nat) (t t' : Nat × Nat)
    (ht : t ∈ TeamAdventure.tasks cap jump) (ht' : t' ∈ TeamAdventure.tasks cap jump)
    (hlt : t.1 < t'.1) : t.1 + jump ≤ cap := by
  obtain ⟨k, hk⟩ := submitLoop_start cap jump _ _ t ht
  obtain ⟨k', hk'⟩ := submitLoop_start cap jump _ _ t' ht'
  have hcap := (mem_submitLoop cap jump _ _ t' ht').2.1
  simp only [Nat.zero_add] at hk hk'
  have hkk : k < k' := by
    by_contra h
    have : k' * jump ≤ k * jump := Nat.mul_le_mul_right _ (by omega)
    omega
  have : (k + 1) * jump ≤ k' * jump := Nat.mul_le_mul_right _ (by omega)
  rw [Nat.succ_mul] at this
  omega

/-! ## Lemmas on the barrier and on the counter of the parallel sort -/

theorem sizeDec_pos (x : Nat) (h0 : 0 < x) (h : x ≤ 2 ^ 64) : sizeDec x = x - 1 := by
  unfold sizeDec
  have e : x + 2 ^ 64 - 1 = (x - 1) + 2 ^ 64 := by omega
  rw [e, Nat.add_mod_right, Nat.mod_eq_of_lt (by omega)]

theorem succ_div_mod (n w : Nat) (hw : 0 < w) :
    (n % w + 1 = w → (n + 1) / w = n / w + 1 ∧ (n + 1) % w = 0) ∧
    (n % w + 1 ≠ w → (n + 1) / w = n / w ∧ (n + 1) % w = n % w + 1) := by
  have hdm := Nat.div_add_mod n w
  have hlt := Nat.mod_lt n hw
  constructor
  · intro h
    apply (Nat.div_mod_unique hw).mpr
    refine ⟨?_, hw⟩
    rw [Nat.mul_add, Nat.mul_one]
    omega
  · intro h
    apply (Nat.div_mod_unique hw).mpr
    refine ⟨?_, by omega⟩
    omega

/-- An arrival at a barrier whose counter is positive: the counter goes down
by one, or, from 1, back to `workers` with the next generation. -/
theorem arrive_eq (b : Barrier) (h0 : 0 < b.counter) (h : b.counter ≤ 2 ^ 64) :
    b.arrive = if b.counter = 1 then { b with gen := b.gen + 1, counter := b.workers }
      else { b with counter := b.counter - 1 } := by
  unfold Barrier.arrive
  have hd : sizeDec b.counter = b.counter - 1 := sizeDec_pos b.counter h0 h
  rw [hd]
  by_cases h1 : b.counter = 1
  · have h2 : b.counter - 1 = 0 := by omega
    rw [if_pos h1, if_pos h2]
  · have h2 : ¬ b.counter - 1 = 0 := by omega
    rw [if_neg h1, if_neg h2]

/-- The barrier after `n` arrivals, in closed form. -/
theorem arrivals_closed (workers : Nat) (hw : 1 ≤ workers) (hlt : workers < 2 ^ 64) :
    ∀ n : Nat,
      (Barrier.arrivals n (Barrier.init workers)).workers = workers ∧
      (Barrier.arrivals n (Barrier.init workers)).counter = workers - n % workers ∧
      (Barrier.arrivals n (Barrier.init workers)).gen = n / workers := by
  intro n
  induction n with
  | zero =>
    refine ⟨rfl, ?_, ?_⟩
    · show workers = workers - 0 % workers
      rw [Nat.zero_mod]; rfl
    · show 0 = 0 / workers
      rw [Nat.zero_div]
  | succ n ih =>
    obtain ⟨h1, h2, h3⟩ := ih
    have hmod := Nat.mod_lt n (by omega : 0 < workers)
    have hpos : 0 < (Barrier.arrivals n (Barrier.init workers)).counter := by omega
    have hle : (Barrier.arrivals n (Barrier.init workers)).counter ≤ 2 ^ 64 := by omega
    obtain ⟨hA, hB⟩ := succ_div_mod n workers (by omega)
    have hstep : Barrier.arrivals (n + 1) (Barrier.init workers)
        = (Barrier.arrivals n (Barrier.init workers)).arrive := rfl
    rw [hstep, arrive_eq _ hpos hle]
    by_cases hc : (Barrier.arrivals n (Barrier.init workers)).counter = 1
    · rw [if_pos hc]
      obtain ⟨e1, e2⟩ := hA (by omega)
      refine ⟨h1, ?_, ?_⟩
      · show (Barrier.arrivals n (Barrier.init workers)).workers
            = workers - (n + 1) % workers
        rw [h1, e2]; rfl
      · show (Barrier.arrivals n (Barrier.init workers)).gen + 1 = (n + 1) / workers
        rw [h3, e1]
    · rw [if_neg hc]
      obtain ⟨e1, e2⟩ := hB (by omega)
      refine ⟨h1, ?_, ?_⟩
      · show (Barrier.arrivals n (Barrier.init workers)).counter - 1
            = workers - (n + 1) % workers
        rw [h2, e2]; omega
      · show (Barrier.arrivals n (Barrier.init workers)).gen = (n + 1) / workers
        rw [h3, e1]

theorem FanOut.step_inv (s s' : FanOut) (e : FanEvent) (hs : s.Inv)
    (h : s.step e = some s') : s'.Inv ∧ 0 < s.live := by
  have hlive : 0 < s.live := by
    rcases Nat.eq_zero_or_pos s.live with h0 | h0
    · cases e <;> simp [FanOut.step, h0] at h
    · exact h0
  refine ⟨?_, hlive⟩
  have hcnt : s.cnt = (s.live : Int) := by
    rcases hs with h1 | h1
    · exact h1.2
    · omega
  cases e with
  | spawn =>
    simp only [FanOut.step, if_neg (by omega : ¬ s.live = 0), Option.some.injEq] at h
    subst h
    left
    simp only
    refine ⟨by omega, ?_⟩
    rw [hcnt]
    push_cast
    rfl
  | finish =>
    simp only [FanOut.step, if_neg (by omega : ¬ s.live = 0), Option.some.injEq] at h
    subst h
    simp only [FanOut.Inv, finishCnt]
    by_cases h1 : s.live = 1
    · right
      rw [hcnt, h1]
      simp
    · left
      refine ⟨by omega, ?_⟩
      rw [hcnt, if_neg (by omega)]
      omega

theorem FanOut.run_inv : ∀ (es : List FanEvent) (s s' : FanOut), s.Inv →
    FanOut.run es s = some s' → s'.Inv
  | [], s, s', hs, h => by
    simp only [FanOut.run, Option.some.injEq] at h
    rw [← h]; exact hs
  | e :: es, s, s', hs, h => by
    rw [FanOut.run] at h
    split at h
    · exact absurd h (by simp)
    · rename_i s1 hstep
      exact FanOut.run_inv es s1 s' (FanOut.step_inv s s1 e hs hstep).1 h

theorem FanOut.run_append : ∀ (pre suf : List FanEvent) (s s' : FanOut),
    FanOut.run (pre ++ suf) s = some s' →
    ∃ s1, FanOut.run pre s = some s1 ∧ FanOut.run suf s1 = some s'
  | [], suf, s, s', h => ⟨s, rfl, h⟩
  | e :: pre, suf, s, s', h => by
    rw [List.cons_append, FanOut.run] at h
    rw [FanOut.run]
    split at h
    · exact absurd h (by simp)
    · rename_i s1 hstep
      exact FanOut.run_append pre suf s1 s' h

theorem FanOut.init_inv : FanOut.init.Inv := Or.inl ⟨by decide, rfl⟩

/-! ## Theorems on the knapsack -/

/-- C1: `LonesomeAdventure::packEggs` returns the optimal 0/1 knapsack value,
with the arithmetic taken over the natural numbers (`packEggsNat`). Some
selection of the eggs (a sublist of the egg list) whose sizes sum to at most
the capacity weighs exactly the returned value, and no selection whose sizes
sum to at most the capacity weighs more. For the eggs (2,3), (3,4), (4,5),
(5,6) and capacity 5 the returned value is 7. The loops in the arithmetic of
`size_t` (`packEggs`) return the same value and leave the same bag whenever
the weights of the eggs sum to less than `2 ^ 64`; they return 7 in the
scenario. -/
theorem packEggs_optimal (garbage : Table) (eggs : List Egg) (bag : BottomlessBag) :
    (∃ sub : List Egg, sub.Sublist eggs ∧ sizeSum sub ≤ bag.getCapacity ∧
      weightSum sub = (LonesomeAdventure.packEggsNat garbage eggs bag).1) ∧
    (∀ sub : List Egg, sub.Sublist eggs → sizeSum sub ≤ bag.getCapacity →
      weightSum sub ≤ (LonesomeAdventure.packEggsNat garbage eggs bag).1) ∧
    (LonesomeAdventure.packEggsNat garbage [⟨2, 3⟩, ⟨3, 4⟩, ⟨4, 5⟩, ⟨5, 6⟩] ⟨5, []⟩).1 = 7 ∧
    (bag.getCapacity < 2 ^ 64 → weightSum eggs < 2 ^ 64 →
      LonesomeAdventure.packEggs garbage eggs bag
        = some (LonesomeAdventure.packEggsNat garbage eggs bag)) ∧
    (LonesomeAdventure.packEggs garbage [⟨2, 3⟩, ⟨3, 4⟩, ⟨4, 5⟩, ⟨5, 6⟩] ⟨5, []⟩).map Prod.fst
      = some 7 := by
  refine ⟨?_, ?_, ?_,
    fun hcap hw => lonesome_packEggs_eq_packEggsNat garbage eggs bag hcap hw, ?_⟩
  · rw [lonesome_packEggsNat_eq]
    obtain ⟨idx, _, hpw, hlt, hw, hs⟩ := tracebackNat_dpVal eggs bag
    refine ⟨(idx.map (eggAt eggs)).reverse, ?_, ?_, ?_⟩
    · have h := map_eggAt_sublist_reverse eggs eggs.length idx (le_refl _) hpw hlt
      rw [List.take_length] at h
      have h' := h.reverse
      rwa [List.reverse_reverse] at h'
    · rw [sizeSum_reverse]; exact hs
    · rw [weightSum_reverse]; exact hw
  · intro sub hsub hsz
    rw [lonesome_packEggsNat_eq]
    refine dpVal_upper eggs eggs.length bag.getCapacity sub ?_ hsz
    rw [List.take_length]; exact hsub
  · rw [lonesome_packEggsNat_eq]
    decide
  · rw [lonesome_packEggs_eq garbage _ _ (by decide) (by decide)]
    decide

/-- C3: with at least one shaman and whatever the order in which the tasks
perform each row, the table filled by the `segmentKnapsack` tasks equals, cell
for cell on rows `0..sz` and columns `0..cap`, the table filled by the
sequential loops, and `TeamAdventure::packEggs` returns the same value and
leaves the same bag (the same eggs added in the same order) as
`LonesomeAdventure::packEggs`. This holds in the arithmetic of `size_t`, where
both strategies wrap alike, and over the natural numbers. -/
theorem team_packEggs_eq_lonesome (adv : TeamAdventure) (hn : 1 ≤ adv.numberOfShamans)
    (sched : Nat → List (Nat × Nat) → List (Nat × Nat))
    (hsched : ∀ p ts, (sched p ts).Perm ts)
    (garbage garbage' : Table) (eggs : List Egg) (bag : BottomlessBag) :
    (∀ p a, p ≤ eggs.length → a ≤ bag.getCapacity →
      TeamAdventure.fillTable eggs bag.getCapacity sched
          (TeamAdventure.tasks bag.getCapacity
            (TeamAdventure.jump adv.numberOfShamans bag.getCapacity))
          (initRow garbage bag.getCapacity) p a
        = LonesomeAdventure.fillTable eggs bag.getCapacity
          (initRow garbage' bag.getCapacity) p a) ∧
    adv.packEggs sched garbage eggs bag
      = LonesomeAdventure.packEggs garbage' eggs bag ∧
    (∀ p a, p ≤ eggs.length → a ≤ bag.getCapacity →
      TeamAdventure.fillTableNat eggs bag.getCapacity sched
          (TeamAdventure.tasks bag.getCapacity
            (TeamAdventure.jump adv.numberOfShamans bag.getCapacity))
          (initRow garbage bag.getCapacity) p a
        = LonesomeAdventure.fillTableNat eggs bag.getCapacity
          (initRow garbage' bag.getCapacity) p a) ∧
    adv.packEggsNat sched garbage eggs bag
      = some (LonesomeAdventure.packEggsNat garbage' eggs bag) := by
  have hj : 1 ≤ TeamAdventure.jump adv.numberOfShamans bag.getCapacity := by
    have := TeamAdventure.jump_ge adv.numberOfShamans bag.getCapacity
    unfold cacheline at this
    omega
  refine ⟨fun p a hp ha => ?_,
    team_eq_lonesome_size_t adv hn sched hsched garbage garbage' eggs bag,
    fun p a hp ha => ?_, ?_⟩
  · rw [team_fillTable_cells garbage eggs _ _ hj sched hsched p a hp ha,
      lonesome_fillTable_cells garbage' eggs _ p a hp ha]
  · rw [TeamAdventure.team_fillTableNat_apply garbage eggs _ _ hj sched hsched p a hp ha,
      lonesome_fillTableNat_apply garbage' eggs _ p a hp ha]
  · rw [team_packEggsNat_eq adv hn sched hsched, lonesome_packEggsNat_eq]

/-- Witness of C3: three shamans, the tasks of every row in reverse submission
order, four eggs, capacity 30, different initial contents of the two tables. -/
theorem team_packEggs_eq_lonesome_witness :
    (∀ p a, p ≤ ([⟨7, 3⟩, ⟨9, 4⟩, ⟨12, 6⟩, ⟨2, 2⟩] : List Egg).length →
      a ≤ (BottomlessBag.mk 30 []).getCapacity →
      TeamAdventure.fillTable [⟨7, 3⟩, ⟨9, 4⟩, ⟨12, 6⟩, ⟨2, 2⟩]
          (BottomlessBag.mk 30 []).getCapacity (fun _ ts => ts.reverse)
          (TeamAdventure.tasks (BottomlessBag.mk 30 []).getCapacity
            (TeamAdventure.jump (TeamAdventure.mk 3 ⟨3⟩).numberOfShamans
              (BottomlessBag.mk 30 []).getCapacity))
          (initRow (fun _ _ => 5) (BottomlessBag.mk 30 []).getCapacity) p a
        = LonesomeAdventure.fillTable [⟨7, 3⟩, ⟨9, 4⟩, ⟨12, 6⟩, ⟨2, 2⟩]
          (BottomlessBag.mk 30 []).getCapacity
          (initRow (fun _ _ => 9) (BottomlessBag.mk 30 []).getCapacity) p a) ∧
    (TeamAdventure.mk 3 ⟨3⟩).packEggs (fun _ ts => ts.reverse) (fun _ _ => 5)
        [⟨7, 3⟩, ⟨9, 4⟩, ⟨12, 6⟩, ⟨2, 2⟩] ⟨30, []⟩
      = LonesomeAdventure.packEggs (fun _ _ => 9)
        [⟨7, 3⟩, ⟨9, 4⟩, ⟨12, 6⟩, ⟨2, 2⟩] ⟨30, []⟩ ∧
    (∀ p a, p ≤ ([⟨7, 3⟩, ⟨9, 4⟩, ⟨12, 6⟩, ⟨2, 2⟩] : List Egg).length →
      a ≤ (BottomlessBag.mk 30 []).getCapacity →
      TeamAdventure.fillTableNat [⟨7, 3⟩, ⟨9, 4⟩, ⟨12, 6⟩, ⟨2, 2⟩]
          (BottomlessBag.mk 30 []).getCapacity (fun _ ts => ts.reverse)
          (TeamAdventure.tasks (BottomlessBag.mk 30 []).getCapacity
            (TeamAdventure.jump (TeamAdventure.mk 3 ⟨3⟩).numberOfShamans
              (BottomlessBag.mk 30 []).getCapacity))
          (initRow (fun _ _ => 5) (BottomlessBag.mk 30 []).getCapacity) p a
        = LonesomeAdventure.fillTableNat [⟨7, 3⟩, ⟨9, 4⟩, ⟨12, 6⟩, ⟨2, 2⟩]
          (BottomlessBag.mk 30 []).getCapacity
          (initRow (fun _ _ => 9) (BottomlessBag.mk 30 []).getCapacity) p a) ∧
    (TeamAdventure.mk 3 ⟨3⟩).packEggsNat (fun _ ts => ts.reverse) (fun _ _ => 5)
        [⟨7, 3⟩, ⟨9, 4⟩, ⟨12, 6⟩, ⟨2, 2⟩] ⟨30, []⟩
      = some (LonesomeAdventure.packEggsNat (fun _ _ => 9)
        [⟨7, 3⟩, ⟨9, 4⟩, ⟨12, 6⟩, ⟨2, 2⟩] ⟨30, []⟩) :=
  team_packEggs_eq_lonesome (TeamAdventure.mk 3 ⟨3⟩) (by decide) (fun _ ts => ts.reverse)
    (fun _ ts => List.reverse_perm ts) (fun _ _ => 5) (fun _ _ => 9)
    [⟨7, 3⟩, ⟨9, 4⟩, ⟨12, 6⟩, ⟨2, 2⟩] ⟨30, []⟩

/-- C9: the eggs `LonesomeAdventure::packEggs` adds to the bag are added at
strictly decreasing indices of the egg list, so they form a sublist of the
reversed egg list; and the result of the call is a function of the eggs and
the bag alone (it does not depend on the initial contents of the table). This
holds of the loops in the arithmetic of `size_t`, whenever the call returns,
and of the loops over the natural numbers. -/
theorem packEggs_added_order (garbage garbage' : Table) (eggs : List Egg)
    (bag : BottomlessBag) :
    (∀ out : Nat × BottomlessBag, LonesomeAdventure.packEggs garbage eggs bag = some out →
      (∃ idx : List Nat, idx.Pairwise (· > ·) ∧ (∀ k ∈ idx, k < eggs.length) ∧
        (addedEggs bag out.2).map some = idx.map (fun k => eggs[k]?)) ∧
      (addedEggs bag out.2).Sublist eggs.reverse) ∧
    LonesomeAdventure.packEggs garbage eggs bag
      = LonesomeAdventure.packEggs garbage' eggs bag ∧
    (∃ idx : List Nat, idx.Pairwise (· > ·) ∧ (∀ k ∈ idx, k < eggs.length) ∧
      (addedEggs bag (LonesomeAdventure.packEggsNat garbage eggs bag).2).map some
        = idx.map (fun k => eggs[k]?)) ∧
    (addedEggs bag (LonesomeAdventure.packEggsNat garbage eggs bag).2).Sublist eggs.reverse ∧
    LonesomeAdventure.packEggsNat garbage eggs bag
      = LonesomeAdventure.packEggsNat garbage' eggs bag := by
  obtain ⟨idx, htb, hpw, hlt, _, _⟩ := tracebackNat_dpVal eggs bag
  have hadd : addedEggs bag (LonesomeAdventure.packEggsNat garbage eggs bag).2
      = idx.map (eggAt eggs) := by
    rw [lonesome_packEggsNat_eq]
    simp only [htb]
    simp [addedEggs]
  refine ⟨fun out hout => lonesome_packEggs_order garbage eggs bag out hout,
    lonesome_packEggs_garbage garbage garbage' eggs bag, ⟨idx, hpw, hlt, ?_⟩, ?_, ?_⟩
  · rw [hadd, List.map_map]
    apply List.map_congr_left
    intro k hk
    simp only [Function.comp]
    rw [eggAt_eq_getElem eggs k (hlt k hk), List.getElem?_eq_getElem (hlt k hk)]
  · rw [hadd]
    have h := map_eggAt_sublist_reverse eggs eggs.length idx (le_refl _) hpw hlt
    rwa [List.take_length] at h
  · rw [lonesome_packEggsNat_eq, lonesome_packEggsNat_eq]

/-! ## Theorems on the selection of the best crystal -/

/-- C6: for a non-empty vector of crystals `LonesomeAdventure::selectBestCrystal`
returns a value that is greater than or equal to every element of the vector
and that is an element of the vector. -/
theorem selectBestCrystal_is_max {Crystal : Type} [LinearOrder Crystal] [OrderBot Crystal]
    (crystals : List Crystal) (hne : crystals ≠ []) :
    (∀ c ∈ crystals, c ≤ LonesomeAdventure.selectBestCrystal crystals) ∧
    LonesomeAdventure.selectBestCrystal crystals ∈ crystals := by
  unfold LonesomeAdventure.selectBestCrystal
  refine ⟨fun c hc => foldl_shinier_ge_mem crystals ⊥ c hc, ?_⟩
  rcases foldl_shinier_mem crystals (⊥ : Crystal) with h | h
  · obtain ⟨c, hc⟩ := List.exists_mem_of_ne_nil crystals hne
    have hle := foldl_shinier_ge_mem crystals ⊥ c hc
    rw [h] at hle ⊢
    have : c = ⊥ := le_antisymm hle bot_le
    rw [← this]
    exact hc
  · exact h

/-- Witness of C6: the crystals 3, 9, 4 (natural numbers, default value 0). -/
theorem selectBestCrystal_is_max_witness :
    (∀ c ∈ ([3, 9, 4] : List Nat), c ≤ LonesomeAdventure.selectBestCrystal [3, 9, 4]) ∧
    LonesomeAdventure.selectBestCrystal ([3, 9, 4] : List Nat) ∈ ([3, 9, 4] : List Nat) :=
  selectBestCrystal_is_max ([3, 9, 4] : List Nat) (by decide)

/-- C7: with at least one shaman `TeamAdventure::selectBestCrystal` returns the
value `LonesomeAdventure::selectBestCrystal` returns; the submitted chunks
`[i, i + jump + 1)` are pairwise disjoint (each ends no later than the next
one starts) and every index below the size of the vector lies in one of
them; the returned value is the fold of the per-chunk maxima and it is the
global maximum: no crystal of the vector is greater, and for a non-empty
vector it is one of its crystals. -/
theorem team_selectBestCrystal_eq_lonesome {Crystal : Type} [LinearOrder Crystal]
    [OrderBot Crystal] (adv : TeamAdventure) (hn : 1 ≤ adv.numberOfShamans)
    (crystals : List Crystal) :
    adv.selectBestCrystal crystals = some (LonesomeAdventure.selectBestCrystal crystals) ∧
    (TeamAdventure.chunks adv.numberOfShamans crystals.length).Pairwise
      (fun s t => s.2 ≤ t.1) ∧
    (∀ t ∈ TeamAdventure.chunks adv.numberOfShamans crystals.length,
      t.2 = t.1 + TeamAdventure.crystalJump adv.numberOfShamans crystals.length + 1) ∧
    (∀ k, k < crystals.length →
      ∃ t ∈ TeamAdventure.chunks adv.numberOfShamans crystals.length, t.1 ≤ k ∧ k < t.2) ∧
    (∃ best : Crystal, adv.selectBestCrystal crystals = some best ∧
      best = ((TeamAdventure.chunks adv.numberOfShamans crystals.length).map
        (fun t => TeamAdventure.maxCrystal crystals t.1 t.2)).foldl shinier ⊥ ∧
      (∀ c ∈ crystals, c ≤ best) ∧
      (crystals ≠ [] → best ∈ crystals)) := by
  have hfold : ((TeamAdventure.chunks adv.numberOfShamans crystals.length).map
      (fun t => TeamAdventure.maxCrystal crystals t.1 t.2)).foldl shinier ⊥
      = crystals.foldl shinier ⊥ := by
    unfold TeamAdventure.chunks
    rw [foldl_chunks crystals _ _ 0 ⊥ (by omega), List.drop_zero]
  have hteam : adv.selectBestCrystal crystals
      = some (((TeamAdventure.chunks adv.numberOfShamans crystals.length).map
        (fun t => TeamAdventure.maxCrystal crystals t.1 t.2)).foldl shinier ⊥) := by
    unfold TeamAdventure.selectBestCrystal
    rw [if_neg (by omega)]
  refine ⟨?_, chunkLoop_pairwise _ _ _ _, fun t ht => (chunkLoop_lower _ _ _ _ t ht).2,
    fun k hk => chunkLoop_cover _ _ _ 0 k (by omega) (by omega) hk, ?_⟩
  · rw [hteam, hfold]
    rfl
  · refine ⟨_, hteam, rfl, ?_, ?_⟩
    · intro c hc
      rw [hfold]
      exact foldl_shinier_ge_mem crystals ⊥ c hc
    · intro hne
      rw [hfold]
      rcases foldl_shinier_mem crystals (⊥ : Crystal) with h | h
      · obtain ⟨c, hc⟩ := List.exists_mem_of_ne_nil crystals hne
        have hle := foldl_shinier_ge_mem crystals ⊥ c hc
        rw [h] at hle ⊢
        have : c = ⊥ := le_antisymm hle bot_le
        rw [← this]
        exact hc
      · exact h

/-- Witness of C7: two shamans and twenty crystals. -/
theorem team_selectBestCrystal_eq_lonesome_witness :
    (TeamAdventure.mk 2 ⟨2⟩).selectBestCrystal (List.range 20)
      = some (LonesomeAdventure.selectBestCrystal (List.range 20)) ∧
    (TeamAdventure.chunks (TeamAdventure.mk 2 ⟨2⟩).numberOfShamans
      (List.range 20).length).Pairwise (fun s t => s.2 ≤ t.1) ∧
    (∀ t ∈ TeamAdventure.chunks (TeamAdventure.mk 2 ⟨2⟩).numberOfShamans
        (List.range 20).length,
      t.2 = t.1 + TeamAdventure.crystalJump (TeamAdventure.mk 2 ⟨2⟩).numberOfShamans
        (List.range 20).length + 1) ∧
    (∀ k, k < (List.range 20).length →
      ∃ t ∈ TeamAdventure.chunks (TeamAdventure.mk 2 ⟨2⟩).numberOfShamans
        (List.range 20).length, t.1 ≤ k ∧ k < t.2) ∧
    (∃ best : Nat, (TeamAdventure.mk 2 ⟨2⟩).selectBestCrystal (List.range 20) = some best ∧
      best = ((TeamAdventure.chunks (TeamAdventure.mk 2 ⟨2⟩).numberOfShamans
        (List.range 20).length).map
        (fun t => TeamAdventure.maxCrystal (List.range 20) t.1 t.2)).foldl shinier ⊥ ∧
      (∀ c ∈ List.range 20, c ≤ best) ∧
      (List.range 20 ≠ [] → best ∈ List.range 20)) :=
  team_selectBestCrystal_eq_lonesome (TeamAdventure.mk 2 ⟨2⟩) (by decide) (List.range 20)

/-- C10, as stated, fails: the constructor `TeamAdventure(0)` has no check of
its own, so with a pool that can be constructed for every worker count it
yields a strategy object with `numberOfShamans = 0`; `packEggs` and
`selectBestCrystal` on that object reach their division by `numberOfShamans`
with a zero divisor. -/
theorem team_new_zero_counterexample :
    TeamAdventure.new (fun n => some ⟨n⟩) 0 = some (TeamAdventure.mk 0 ⟨0⟩) ∧
    (TeamAdventure.mk 0 ⟨0⟩).packEggs (fun _ ts => ts) (fun _ _ => 0) [⟨1, 1⟩] ⟨3, []⟩
      = none ∧
    (TeamAdventure.mk 0 ⟨0⟩).selectBestCrystal ([3, 9, 4] : List Nat) = none :=
  ⟨rfl, rfl, rfl⟩

/-- C10, amended: the constructor `TeamAdventure(n)` performs no validation of
the worker count. For every worker count `n`, zero included, and whatever the
constructor of the pool does, the construction fails exactly when the
construction of the pool with `n` workers fails, and a constructed object
stores `numberOfShamans = n` and the pool constructed with `n`. Nothing
guards the divisions: on every object with `numberOfShamans = 0` both
`packEggs` and `selectBestCrystal` divide by zero. -/
theorem team_new_total (newPool : Nat → Option ThreadPool) (n : Nat) :
    (TeamAdventure.new newPool n = none ↔ newPool n = none) ∧
    (∀ adv : TeamAdventure, TeamAdventure.new newPool n = some adv →
      adv.numberOfShamans = n ∧ newPool n = some adv.councilOfShamans) ∧
    (∀ adv : TeamAdventure, adv.numberOfShamans = 0 →
      (∀ (sched : Nat → List (Nat × Nat) → List (Nat × Nat)) (garbage : Table)
        (eggs : List Egg) (bag : BottomlessBag),
        adv.packEggs sched garbage eggs bag = none) ∧
      (∀ crystals : List Nat, adv.selectBestCrystal crystals = none)) := by
  refine ⟨?_, ?_, ?_⟩
  · unfold TeamAdventure.new
    cases h : newPool n with
    | none => simp
    | some pool => simp
  · intro adv hadv
    unfold TeamAdventure.new at hadv
    cases h : newPool n with
    | none => rw [h] at hadv; exact absurd hadv (by simp)
    | some pool =>
      rw [h] at hadv
      simp only [Option.some.injEq] at hadv
      subst hadv
      exact ⟨rfl, rfl⟩
  · intro adv h0
    refine ⟨?_, ?_⟩
    · intro sched garbage eggs bag
      unfold TeamAdventure.packEggs
      simp only
      rw [if_pos h0]
    · intro crystals
      unfold TeamAdventure.selectBestCrystal
      rw [if_pos h0]

/-- Witness of the amended C10: a pool that can be constructed for every worker
count but zero, and the worker counts zero and three. -/
theorem team_new_total_witness :
    TeamAdventure.new (fun n => if n = 0 then none else some ⟨n⟩) 0 = none ∧
    TeamAdventure.new (fun n => if n = 0 then none else some ⟨n⟩) 3
      = some (TeamAdventure.mk 3 ⟨3⟩) ∧
    (∀ adv : TeamAdventure,
      TeamAdventure.new (fun n => if n = 0 then none else some ⟨n⟩) 3 = some adv →
      adv.numberOfShamans = 3 ∧ some (⟨3⟩ : ThreadPool) = some adv.councilOfShamans) :=
  ⟨(team_new_total (fun n => if n = 0 then none else some ⟨n⟩) 0).1.2 rfl, rfl,
    (team_new_total (fun n => if n = 0 then none else some ⟨n⟩) 3).2.1⟩

/-! ## Theorems on the arrangement of the sand -/

/-- C4: for every non-empty vector of at most `2 ^ 31` grains (every index of
such a vector is a value of the type `int` in which `getDivisionPoint` draws,
so the division point of a range `[l, r]` is an index of `[l, r]`) and every
sequence of random draws, `LonesomeAdventure::arrangeSand` returns and leaves
a permutation of the input that is non-decreasing; every index of `[l, r]` is
a division point that `getDivisionPoint(l, r)` returns for some draw. -/
theorem arrangeSand_sorts {GrainOfSand : Type} [LinearOrder GrainOfSand] (rnd : Nat → Nat)
    (grains : List GrainOfSand) (hne : grains ≠ []) (hb : grains.length ≤ 2 ^ 31) :
    (∃ out : List GrainOfSand, LonesomeAdventure.arrangeSand rnd grains = some out ∧
      out.Perm grains ∧ out.Sorted (· ≤ ·)) ∧
    (∀ l r : Nat, l ≤ r → r < grains.length →
      (∀ draw, ∃ d, getDivisionPoint draw l r = some d ∧ l ≤ d ∧ d ≤ r) ∧
      (∀ v, l ≤ v → v ≤ r → ∃ draw, getDivisionPoint draw l r = some v)) := by
  refine ⟨lonesome_arrangeSand_spec rnd grains hne hb, ?_⟩
  intro l r hlr hr
  refine ⟨fun draw => getDivisionPoint_bounds draw l r hlr (by omega), ?_⟩
  intro v hlv hvr
  refine ⟨v - l, ?_⟩
  rw [getDivisionPoint_small (v - l) l r hlr (by omega)]
  split
  · rw [Nat.mod_eq_of_lt (by omega)]
    congr 1
    omega
  · congr 1
    omega

/-- Witness of C4: the grains 5, 3, 8, 1, 9, 2 with the draws 3, 10, 17, ... -/
theorem arrangeSand_sorts_witness :
    (∃ out : List Nat,
      LonesomeAdventure.arrangeSand (fun k => 7 * k + 3) [5, 3, 8, 1, 9, 2] = some out ∧
      out.Perm [5, 3, 8, 1, 9, 2] ∧ out.Sorted (· ≤ ·)) ∧
    (∀ l r : Nat, l ≤ r → r < [5, 3, 8, 1, 9, 2].length →
      (∀ draw, ∃ d, getDivisionPoint draw l r = some d ∧ l ≤ d ∧ d ≤ r) ∧
      (∀ v, l ≤ v → v ≤ r → ∃ draw, getDivisionPoint draw l r = some v)) :=
  arrangeSand_sorts (fun k => 7 * k + 3) [5, 3, 8, 1, 9, 2] (by decide) (by decide)

/-- C5: on the empty vector both `arrangeSand` compute `r = grains.size() - 1`
as `2^64 - 1`, enter the branch `l < r` and access `grains[r]` outside the
bounds of the vector (whatever the division point; `getDivisionPoint(0, r)`
itself is handed `(int) r = -1`, below `(int) l = 0`). -/
theorem arrangeSand_empty {GrainOfSand : Type} [LinearOrder GrainOfSand]
    (rnd pick : Nat → Nat) :
    lastIndex ([] : List GrainOfSand).length = 2 ^ 64 - 1 ∧
    (∀ d : Nat, swap ([] : List GrainOfSand) (2 ^ 64 - 1) d = none) ∧
    getDivisionPoint (rnd 0) 0 (2 ^ 64 - 1) = none ∧
    LonesomeAdventure.arrangeSand rnd ([] : List GrainOfSand) = none ∧
    TeamAdventure.arrangeSand rnd pick ([] : List GrainOfSand) = none := by
  have hgd : getDivisionPoint (rnd 0) 0 (2 ^ 64 - 1) = none := by
    unfold getDivisionPoint
    rw [if_pos (by norm_num)]
    have h0 : toInt 0 = 0 := by decide
    have h1 : toInt (2 ^ 64 - 1) = -1 := by decide
    simp only [h0, h1]
    rfl
  have hpart : partition (rnd 0) ([] : List GrainOfSand) 0 (2 ^ 64 - 1) = none := by
    unfold partition
    rw [hgd]
  refine ⟨lastIndex_zero, fun d => by simp [swap], hgd, ?_, ?_⟩
  · unfold LonesomeAdventure.arrangeSand
    rw [List.length_nil, lastIndex_zero, quickSort_eq, if_pos (by norm_num), hpart]
    rfl
  · unfold TeamAdventure.arrangeSand
    rw [List.length_nil, lastIndex_zero, runPool_eq]
    simp only [List.length_singleton, Nat.mod_one, List.getElem?_cons_zero]
    rw [if_neg (by simp)]
    have hpar : TeamAdventure.parQuickSort rnd ([] : List GrainOfSand) 0 (2 ^ 64 - 1) 1 0
        = none := by
      unfold TeamAdventure.parQuickSort
      rw [if_pos (by norm_num), hpart]
    simp only [hpar]
    rfl

/-- C8: for every non-empty vector of at most `2 ^ 31` grains (the indices of
which are values of the type `int` in which `getDivisionPoint` draws),
whatever the random draws of the two sorts and the order in which the pool runs the submitted tasks, the
parallel sort ends (with `cnt == -1`, the value the caller waits for) and
leaves the vector the sequential sort leaves: the sorted permutation of the
input. -/
theorem team_arrangeSand_eq_lonesome {GrainOfSand : Type} [LinearOrder GrainOfSand]
    (rnd pick rnd' : Nat → Nat) (grains : List GrainOfSand) (hne : grains ≠ [])
    (hb : grains.length ≤ 2 ^ 31) :
    ∃ out : List GrainOfSand,
      TeamAdventure.arrangeSand rnd pick grains = some (out, -1) ∧
      LonesomeAdventure.arrangeSand rnd' grains = some out ∧
      out.Perm grains ∧ out.Sorted (· ≤ ·) := by
  obtain ⟨out, h1, h2, h3⟩ := team_arrangeSand_spec rnd pick grains hne hb
  obtain ⟨out', h1', h2', h3'⟩ := lonesome_arrangeSand_spec rnd' grains hne hb
  have : out' = out := List.eq_of_perm_of_sorted (h2'.trans h2.symm) h3' h3
  subst this
  exact ⟨out', h1, h1', h2, h3⟩

/-- Witness of C8: the grains 5, 3, 8, 1, 9, 2 become 1, 2, 3, 5, 8, 9 under
both strategies. -/
theorem team_arrangeSand_eq_lonesome_witness :
    TeamAdventure.arrangeSand (fun k => 7 * k + 3) (fun k => k) [5, 3, 8, 1, 9, 2]
      = some ([1, 2, 3, 5, 8, 9], -1) ∧
    LonesomeAdventure.arrangeSand (fun k => 5 * k + 1) [5, 3, 8, 1, 9, 2]
      = some [1, 2, 3, 5, 8, 9] := by
  obtain ⟨out, h1, h2, hp, hs⟩ := team_arrangeSand_eq_lonesome (fun k => 7 * k + 3)
    (fun k => k) (fun k => 5 * k + 1) [5, 3, 8, 1, 9, 2] (by decide) (by decide)
  have : out = [1, 2, 3, 5, 8, 9] :=
    List.eq_of_perm_of_sorted (hp.trans (by decide)) hs (by decide)
  subst this
  exact ⟨h1, h2⟩

/-! ## Theorems on empty and sorted inputs -/

/-- C11: on the empty vector `selectBestCrystal` returns the default-constructed
crystal, under the sequential strategy and under the team strategy with at
least one shaman, which submits no chunk. -/
theorem selectBestCrystal_empty {Crystal : Type} [LinearOrder Crystal] [OrderBot Crystal]
    (adv : TeamAdventure) (hn : 1 ≤ adv.numberOfShamans) :
    LonesomeAdventure.selectBestCrystal ([] : List Crystal) = ⊥ ∧
    adv.selectBestCrystal ([] : List Crystal) = some ⊥ ∧
    TeamAdventure.chunks adv.numberOfShamans ([] : List Crystal).length = [] := by
  refine ⟨rfl, ?_, rfl⟩
  unfold TeamAdventure.selectBestCrystal
  rw [if_neg (by omega)]
  rfl

/-- Witness of C11: four shamans, crystals that are natural numbers (default
value 0). -/
theorem selectBestCrystal_empty_witness :
    LonesomeAdventure.selectBestCrystal ([] : List Nat) = ⊥ ∧
    (TeamAdventure.mk 4 ⟨4⟩).selectBestCrystal ([] : List Nat) = some ⊥ ∧
    TeamAdventure.chunks (TeamAdventure.mk 4 ⟨4⟩).numberOfShamans ([] : List Nat).length
      = [] :=
  selectBestCrystal_empty (TeamAdventure.mk 4 ⟨4⟩) (by decide)

/-- C12: `arrangeSand` leaves a non-empty vector that is already non-decreasing
unchanged, element for element, whatever the random draws (and, for the team
strategy, whatever the order of the tasks); and, for every non-empty vector,
sorting the sorted vector again gives the same vector. The vector has at most
`2 ^ 31` grains: its indices are values of the type `int` in which
`getDivisionPoint` draws. -/
theorem arrangeSand_idempotent {GrainOfSand : Type} [LinearOrder GrainOfSand]
    (rnd rnd' pick : Nat → Nat) (grains : List GrainOfSand) (hne : grains ≠ [])
    (hb : grains.length ≤ 2 ^ 31) :
    (grains.Sorted (· ≤ ·) →
      LonesomeAdventure.arrangeSand rnd grains = some grains ∧
      TeamAdventure.arrangeSand rnd pick grains = some (grains, -1)) ∧
    (∃ out : List GrainOfSand, LonesomeAdventure.arrangeSand rnd grains = some out ∧
      LonesomeAdventure.arrangeSand rnd' out = some out) := by
  have key : ∀ (g : List GrainOfSand), g ≠ [] → g.length ≤ 2 ^ 31 → g.Sorted (· ≤ ·) →
      ∀ r : Nat → Nat, LonesomeAdventure.arrangeSand r g = some g := by
    intro g hg hl hs r
    obtain ⟨out, h1, h2, h3⟩ := lonesome_arrangeSand_spec r g hg hl
    have : out = g := List.eq_of_perm_of_sorted h2 h3 hs
    rw [h1, this]
  constructor
  · intro hs
    refine ⟨key grains hne hb hs rnd, ?_⟩
    obtain ⟨out, h1, h2, h3⟩ := team_arrangeSand_spec rnd pick grains hne hb
    have : out = grains := List.eq_of_perm_of_sorted h2 h3 hs
    rw [h1, this]
  · obtain ⟨out, h1, h2, h3⟩ := lonesome_arrangeSand_spec rnd grains hne hb
    refine ⟨out, h1, key out ?_ ?_ h3 rnd'⟩
    · intro h
      rw [h] at h2
      exact hne (List.Perm.eq_nil h2.symm)
    · rw [h2.length_eq]; exact hb

/-- Witness of C12: the sorted grains 1, 2, 2, 5, 9. -/
theorem arrangeSand_idempotent_witness :
    (([1, 2, 2, 5, 9] : List Nat).Sorted (· ≤ ·) →
      LonesomeAdventure.arrangeSand (fun k => 3 * k + 1) [1, 2, 2, 5, 9]
        = some [1, 2, 2, 5, 9] ∧
      TeamAdventure.arrangeSand (fun k => 3 * k + 1) (fun k => k) [1, 2, 2, 5, 9]
        = some ([1, 2, 2, 5, 9], -1)) ∧
    (∃ out : List Nat,
      LonesomeAdventure.arrangeSand (fun k => 3 * k + 1) [1, 2, 2, 5, 9] = some out ∧
      LonesomeAdventure.arrangeSand (fun k => 2 * k) out = some out) :=
  arrangeSand_idempotent (fun k => 3 * k + 1) (fun k => 2 * k) (fun k => k) [1, 2, 2, 5, 9]
    (by decide) (by decide)

/-! ## Theorems on the segments, the workers and the barrier of the team knapsack -/

/-- C13: the column ranges of the submitted `segmentKnapsack` tasks are not
pairwise disjoint. For capacity 8 and two shamans the tasks are `(0, 9)` and
`(8, 17)` and both write column 8 of every row; in general, whenever the
capacity is at least `jump`, the first two tasks `(0, jump + 1)` and
`(jump, 2 * jump + 1)` both write column `jump`. -/
theorem knapsack_segments_overlap :
    TeamAdventure.tasks 8 (TeamAdventure.jump 2 8) = [(0, 9), (8, 17)] ∧
    8 ∈ TeamAdventure.segmentCols 8 (0, 9) ∧ 8 ∈ TeamAdventure.segmentCols 8 (8, 17) ∧
    (∀ numberOfShamans cap : Nat, 1 ≤ numberOfShamans →
      TeamAdventure.jump numberOfShamans cap ≤ cap →
      (0, TeamAdventure.jump numberOfShamans cap + 1)
        ∈ TeamAdventure.tasks cap (TeamAdventure.jump numberOfShamans cap) ∧
      (TeamAdventure.jump numberOfShamans cap,
          TeamAdventure.jump numberOfShamans cap + TeamAdventure.jump numberOfShamans cap + 1)
        ∈ TeamAdventure.tasks cap (TeamAdventure.jump numberOfShamans cap) ∧
      TeamAdventure.jump numberOfShamans cap ∈ TeamAdventure.segmentCols cap
        (0, TeamAdventure.jump numberOfShamans cap + 1) ∧
      TeamAdventure.jump numberOfShamans cap ∈ TeamAdventure.segmentCols cap
        (TeamAdventure.jump numberOfShamans cap,
          TeamAdventure.jump numberOfShamans cap
            + TeamAdventure.jump numberOfShamans cap + 1)) := by
  refine ⟨by decide, by decide, by decide, ?_⟩
  intro n cap _ hle
  generalize hj : TeamAdventure.jump n cap = j at hle ⊢
  have hj8 : 8 ≤ j := by
    have := TeamAdventure.jump_ge n cap
    unfold cacheline at this
    omega
  obtain ⟨m, hm⟩ : ∃ m, cap + 1 = m + 1 + 1 := ⟨cap - 1, by omega⟩
  have htasks : TeamAdventure.tasks cap j
      = (0, 0 + j + 1) :: (0 + j, 0 + j + j + 1)
        :: TeamAdventure.submitLoop cap j m (0 + j + j) := by
    unfold TeamAdventure.tasks
    rw [hm, TeamAdventure.submitLoop, if_pos (by omega), TeamAdventure.submitLoop,
      if_pos (by omega)]
  simp only [Nat.zero_add] at htasks
  refine ⟨?_, ?_, ?_, ?_⟩
  · rw [htasks]; exact List.mem_cons_self _ _
  · rw [htasks]; exact List.mem_cons_of_mem _ (List.mem_cons_self _ _)
  · rw [TeamAdventure.mem_segmentCols]; simp only; omega
  · rw [TeamAdventure.mem_segmentCols]; simp only; omega

/-- C14: with at least one shaman the barrier participant count `workers`
computed by `packEggs` is the quotient `(cap + 1) / jump` rounded up, and it is
at least 1 and at most `numberOfShamans`. -/
theorem workers_bounds (numberOfShamans cap : Nat) (hn : 1 ≤ numberOfShamans) :
    1 ≤ TeamAdventure.workers cap (TeamAdventure.jump numberOfShamans cap) ∧
    TeamAdventure.workers cap (TeamAdventure.jump numberOfShamans cap) ≤ numberOfShamans ∧
    TeamAdventure.jump numberOfShamans cap
        * (TeamAdventure.workers cap (TeamAdventure.jump numberOfShamans cap) - 1) < cap + 1 ∧
    cap + 1 ≤ TeamAdventure.jump numberOfShamans cap
        * TeamAdventure.workers cap (TeamAdventure.jump numberOfShamans cap) ∧
    cacheline ≤ TeamAdventure.jump numberOfShamans cap ∧
    (cap + 1) / numberOfShamans + 1 ≤ TeamAdventure.jump numberOfShamans cap := by
  obtain ⟨h1, h2⟩ := workers_le numberOfShamans cap hn
  have hj8 := TeamAdventure.jump_ge numberOfShamans cap
  refine ⟨h1, h2, ?_, ?_, hj8, ?_⟩
  · rw [workers_eq cap _ (by unfold cacheline at hj8; omega), Nat.add_sub_cancel]
    have := Nat.mul_div_le cap (TeamAdventure.jump numberOfShamans cap)
    omega
  · rw [workers_eq cap _ (by unfold cacheline at hj8; omega)]
    have := Nat.lt_mul_div_succ cap
      (by unfold cacheline at hj8; omega : 0 < TeamAdventure.jump numberOfShamans cap)
    omega
  · unfold TeamAdventure.jump
    simp only
    split <;> omega

/-- Witness of C14: three shamans and capacity 100. -/
theorem workers_bounds_witness :
    1 ≤ TeamAdventure.workers 100 (TeamAdventure.jump 3 100) ∧
    TeamAdventure.workers 100 (TeamAdventure.jump 3 100) ≤ 3 ∧
    TeamAdventure.jump 3 100 * (TeamAdventure.workers 100 (TeamAdventure.jump 3 100) - 1)
      < 100 + 1 ∧
    100 + 1 ≤ TeamAdventure.jump 3 100 * TeamAdventure.workers 100 (TeamAdventure.jump 3 100) ∧
    cacheline ≤ TeamAdventure.jump 3 100 ∧
    (100 + 1) / 3 + 1 ≤ TeamAdventure.jump 3 100 :=
  workers_bounds 3 100 (by decide)

/-- C15: with at least one shaman the number of `segmentKnapsack` tasks that
`packEggs` submits equals the value `workers` the barrier counter is
initialised with, and it is at most the number of shamans. -/
theorem tasks_length_eq_workers (numberOfShamans cap : Nat) (hn : 1 ≤ numberOfShamans) :
    (TeamAdventure.tasks cap (TeamAdventure.jump numberOfShamans cap)).length
      = TeamAdventure.workers cap (TeamAdventure.jump numberOfShamans cap) ∧
    (Barrier.init (TeamAdventure.workers cap (TeamAdventure.jump numberOfShamans cap))).counter
      = (TeamAdventure.tasks cap (TeamAdventure.jump numberOfShamans cap)).length ∧
    (TeamAdventure.tasks cap (TeamAdventure.jump numberOfShamans cap)).length
      ≤ numberOfShamans := by
  have hj8 := TeamAdventure.jump_ge numberOfShamans cap
  unfold cacheline at hj8
  have hj : 1 ≤ TeamAdventure.jump numberOfShamans cap := by omega
  have h : (TeamAdventure.tasks cap (TeamAdventure.jump numberOfShamans cap)).length
      = TeamAdventure.workers cap (TeamAdventure.jump numberOfShamans cap) := by
    unfold TeamAdventure.tasks
    rw [length_submitLoop cap _ hj (cap + 1) 0 (by omega), if_pos (Nat.zero_le _),
      workers_eq cap _ hj, Nat.sub_zero]
  exact ⟨h, by rw [h]; rfl, by rw [h]; exact (workers_le numberOfShamans cap hn).2⟩

/-- Witness of C15: three shamans and capacity 100. -/
theorem tasks_length_eq_workers_witness :
    (TeamAdventure.tasks 100 (TeamAdventure.jump 3 100)).length
      = TeamAdventure.workers 100 (TeamAdventure.jump 3 100) ∧
    (Barrier.init (TeamAdventure.workers 100 (TeamAdventure.jump 3 100))).counter
      = (TeamAdventure.tasks 100 (TeamAdventure.jump 3 100)).length ∧
    (TeamAdventure.tasks 100 (TeamAdventure.jump 3 100)).length ≤ 3 :=
  tasks_length_eq_workers 3 100 (by decide)

/-- C16: starting from `counter = workers ≥ 1` and `gen = 0`, after any number
`n` of arrivals the counter is in `[1, workers]` (so it is in `[0, workers]`
and the decrement of the next arrival does not wrap), `gen` is `n / workers`,
the next arrival does not decrease `gen`, and it increases `gen`, by one,
exactly when its decrement brings the counter to 0. -/
theorem barrier_invariant (workers : Nat) (hw : 1 ≤ workers) (hlt : workers < 2 ^ 64)
    (n : Nat) :
    (Barrier.arrivals n (Barrier.init workers)).workers = workers ∧
    1 ≤ (Barrier.arrivals n (Barrier.init workers)).counter ∧
    (Barrier.arrivals n (Barrier.init workers)).counter ≤ workers ∧
    (Barrier.arrivals n (Barrier.init workers)).counter = workers - n % workers ∧
    (Barrier.arrivals n (Barrier.init workers)).gen = n / workers ∧
    (Barrier.arrivals n (Barrier.init workers)).gen
      ≤ (Barrier.arrivals (n + 1) (Barrier.init workers)).gen ∧
    (Barrier.arrivals (n + 1) (Barrier.init workers)).gen
      ≤ (Barrier.arrivals n (Barrier.init workers)).gen + 1 ∧
    ((Barrier.arrivals (n + 1) (Barrier.init workers)).gen
        = (Barrier.arrivals n (Barrier.init workers)).gen + 1 ↔
      sizeDec (Barrier.arrivals n (Barrier.init workers)).counter = 0) := by
  obtain ⟨h1, h2, h3⟩ := arrivals_closed workers hw hlt n
  obtain ⟨_, _, h3'⟩ := arrivals_closed workers hw hlt (n + 1)
  have hmod := Nat.mod_lt n (by omega : 0 < workers)
  obtain ⟨hA, hB⟩ := succ_div_mod n workers (by omega)
  have hdec : sizeDec (Barrier.arrivals n (Barrier.init workers)).counter
      = workers - n % workers - 1 := by
    rw [h2, sizeDec_pos _ (by omega) (by omega)]
  rw [hdec, h3', h3]
  refine ⟨h1, by omega, by omega, h2, rfl, ?_, ?_, ?_⟩
  · by_cases h : n % workers + 1 = workers
    · rw [(hA h).1]; omega
    · rw [(hB h).1]
  · by_cases h : n % workers + 1 = workers
    · rw [(hA h).1]
    · rw [(hB h).1]; omega
  · by_cases h : n % workers + 1 = workers
    · rw [(hA h).1]
      constructor
      · intro _; omega
      · intro _; rfl
    · rw [(hB h).1]
      constructor
      · intro h'; omega
      · intro h'; omega

/-- Witness of C16: three workers and seven arrivals. -/
theorem barrier_invariant_witness :
    (Barrier.arrivals 7 (Barrier.init 3)).workers = 3 ∧
    1 ≤ (Barrier.arrivals 7 (Barrier.init 3)).counter ∧
    (Barrier.arrivals 7 (Barrier.init 3)).counter ≤ 3 ∧
    (Barrier.arrivals 7 (Barrier.init 3)).counter = 3 - 7 % 3 ∧
    (Barrier.arrivals 7 (Barrier.init 3)).gen = 7 / 3 ∧
    (Barrier.arrivals 7 (Barrier.init 3)).gen ≤ (Barrier.arrivals (7 + 1) (Barrier.init 3)).gen ∧
    (Barrier.arrivals (7 + 1) (Barrier.init 3)).gen
      ≤ (Barrier.arrivals 7 (Barrier.init 3)).gen + 1 ∧
    ((Barrier.arrivals (7 + 1) (Barrier.init 3)).gen
        = (Barrier.arrivals 7 (Barrier.init 3)).gen + 1 ↔
      sizeDec (Barrier.arrivals 7 (Barrier.init 3)).counter = 0) :=
  barrier_invariant 3 (by decide) (by decide) 7

/-- C17: in every sequence of steps from `cnt = 1` with one live task, `cnt`
equals the number of live tasks as long as a task is live, `cnt` is `-1`
exactly when no task is live, no step is possible once no task is live, and
before every step of the sequence a task is live and `cnt` is not `-1`: the
value `-1` is taken only by the step after which no task is live. -/
theorem fanOut_counter (pre suf : List FanEvent) (s : FanOut)
    (h : FanOut.run (pre ++ suf) FanOut.init = some s) :
    (0 < s.live → s.cnt = (s.live : Int)) ∧
    (s.cnt = -1 ↔ s.live = 0) ∧
    (s.live = 0 → ∀ e, s.step e = none) ∧
    (suf ≠ [] → ∃ s1, FanOut.run pre FanOut.init = some s1 ∧ 0 < s1.live ∧
      s1.cnt = (s1.live : Int) ∧ s1.cnt ≠ -1) := by
  have hinv := FanOut.run_inv _ _ _ FanOut.init_inv h
  refine ⟨?_, ?_, ?_, ?_⟩
  · intro hl
    rcases hinv with h1 | h1
    · exact h1.2
    · omega
  · rcases hinv with h1 | h1
    · constructor
      · intro hc; omega
      · intro hl; omega
    · exact ⟨fun _ => h1.1, fun _ => h1.2⟩
  · intro hl e
    cases e <;> simp [FanOut.step, hl]
  · intro hne
    obtain ⟨s1, hpre, hsuf⟩ := FanOut.run_append pre suf _ _ h
    have hinv1 := FanOut.run_inv _ _ _ FanOut.init_inv hpre
    have hlive : 0 < s1.live := by
      cases suf with
      | nil => exact absurd rfl hne
      | cons e es =>
        rw [FanOut.run] at hsuf
        split at hsuf
        · exact absurd hsuf (by simp)
        · rename_i s2 hstep
          exact (FanOut.step_inv s1 s2 e hinv1 hstep).2
    refine ⟨s1, hpre, hlive, ?_, ?_⟩
    · rcases hinv1 with h1 | h1
      · exact h1.2
      · omega
    · rcases hinv1 with h1 | h1
      · omega
      · omega

/-- Witness of C17: the root spawns two children and the three tasks finish. -/
theorem fanOut_counter_witness :
    (0 < (FanOut.mk (-1) 0).live → (FanOut.mk (-1) 0).cnt = ((FanOut.mk (-1) 0).live : Int)) ∧
    ((FanOut.mk (-1) 0).cnt = -1 ↔ (FanOut.mk (-1) 0).live = 0) ∧
    ((FanOut.mk (-1) 0).live = 0 → ∀ e, (FanOut.mk (-1) 0).step e = none) ∧
    ([FanEvent.finish, FanEvent.finish] ≠ [] →
      ∃ s1, FanOut.run [FanEvent.spawn, FanEvent.spawn, FanEvent.finish] FanOut.init = some s1 ∧
        0 < s1.live ∧ s1.cnt = (s1.live : Int) ∧ s1.cnt ≠ -1) :=
  fanOut_counter [FanEvent.spawn, FanEvent.spawn, FanEvent.finish]
    [FanEvent.finish, FanEvent.finish] (FanOut.mk (-1) 0) (by decide)

/-- C19, as stated, fails: for capacity 0 and one shaman the only task is
`(0, 9)` and the segment it writes has width 1, less than `cacheline`. -/
theorem segment_width_counterexample :
    TeamAdventure.tasks 0 (TeamAdventure.jump 1 0) = [(0, 9)] ∧
    segmentWidth 0 (0, 9) = 1 ∧
    ¬ (∀ t ∈ TeamAdventure.tasks 0 (TeamAdventure.jump 1 0), cacheline ≤ segmentWidth 0 t) := by
  decide

/-- C19, amended: with at least one shaman every column segment `packEggs`
hands to a worker has at least one column, and every segment that is followed
by another one (a task with a larger `l` is submitted) has width at least
`cacheline`. -/
theorem segment_width (numberOfShamans cap : Nat) (_hn : 1 ≤ numberOfShamans)
    (t : Nat × Nat)
    (ht : t ∈ TeamAdventure.tasks cap (TeamAdventure.jump numberOfShamans cap)) :
    1 ≤ segmentWidth cap t ∧
    (∀ t' ∈ TeamAdventure.tasks cap (TeamAdventure.jump numberOfShamans cap),
      t.1 < t'.1 → cacheline ≤ segmentWidth cap t) := by
  have hj8 := TeamAdventure.jump_ge numberOfShamans cap
  obtain ⟨_, hcap, hr⟩ := mem_submitLoop cap _ _ _ t ht
  rw [segmentWidth_eq]
  refine ⟨by omega, ?_⟩
  intro t' ht' hlt
  have := tasks_next cap _ t t' ht ht' hlt
  omega

/-- Witness of the amended C19: two shamans, capacity 20, the first task. -/
theorem segment_width_witness :
    1 ≤ segmentWidth 20 (0, 12) ∧
    (∀ t' ∈ TeamAdventure.tasks 20 (TeamAdventure.jump 2 20),
      (0, 12).1 < t'.1 → cacheline ≤ segmentWidth 20 (0, 12)) :=
  segment_width 2 20 (by decide) (0, 12) (by decide)

/-! ## Theorem on the positions a sort touches -/

/-- C18: for `l ≤ r < grains.size()` with `r` below `2 ^ 31` (so that `l` and
`r` are values of the type `int` in which `getDivisionPoint` draws, and the
division point is an index of `l..r`), `quickSort(grains, l, r)` and the
partition step shared with `parQuickSort` return a vector that has every grain
outside `l..r` where it was and a permutation of the grains of `l..r` inside;
what they leave inside is what they compute on the range alone, whatever lies
outside; the position `act` of the pivot is in `l..r`, so the ranges
`l..act-1` and `act+1..r` handed on lie in `l..r`, do not contain `act` and do
not meet; and the tasks `parQuickSort` submits are for these two ranges. -/
theorem quickSort_frame {GrainOfSand : Type} [LinearOrder GrainOfSand] (rnd : Nat → Nat)
    (grains : List GrainOfSand) (l r k : Nat) (hlr : l ≤ r) (hr : r < grains.length)
    (hb : r < 2 ^ 31) :
    (∃ d : Nat, getDivisionPoint (rnd k) l r = some d ∧ l ≤ d ∧ d ≤ r) ∧
    (∃ (out : List GrainOfSand) (k' : Nat),
      quickSort rnd grains l r k = some (out, k') ∧ FrameOn grains out l r ∧
      quickSort rnd (grainsAt grains l r) 0 (r - l) k = some (grainsAt out l r, k')) ∧
    (∃ (out : List GrainOfSand) (act : Nat),
      partition (rnd k) grains l r = some (out, act) ∧ FrameOn grains out l r ∧
      partition (rnd k) (grainsAt grains l r) 0 (r - l) = some (grainsAt out l r, act - l) ∧
      l ≤ act ∧ act ≤ r ∧
      (∀ i, l ≤ i → i + 1 ≤ act → i ≤ r ∧ i ≠ act) ∧
      (∀ i, act + 1 ≤ i → i ≤ r → l ≤ i ∧ i ≠ act) ∧
      (∀ i, ¬ (i + 1 ≤ act ∧ act + 1 ≤ i)) ∧
      (∀ (cnt : Int) (res : List GrainOfSand × Int × Nat × List (Nat × Nat)),
        TeamAdventure.parQuickSort rnd grains l r cnt k = some res →
        ∀ t ∈ res.2.2.2, (t = (l, act - 1) ∧ l ≤ act - 1 ∧ act - 1 < act) ∨
          (t = (act + 1, r) ∧ act < act + 1 ∧ act + 1 ≤ r))) := by
  obtain ⟨hg, hpre, hmid⟩ := pieces_of_range grains l r hlr hr
  refine ⟨getDivisionPoint_bounds (rnd k) l r hlr hb, ?_, ?_⟩
  · obtain ⟨mid', k', h1, h2, h3⟩ := quickSort_range rnd grains l r k hlr hr hb
    have hs : grainsAt (grains.take l ++ (mid' ++ grains.drop (r + 1))) l r = mid' :=
      grainsAt_pieces _ _ _ l r hpre (by rw [h3.length_eq]; exact hmid)
    refine ⟨_, k', h2, ?_, ?_⟩
    · have := frameOn_pieces (grains.take l) (grainsAt grains l r) mid' (grains.drop (r + 1))
        l r hpre hmid hlr h3
      rw [← hg] at this
      exact this
    · rw [hs]; exact h1
  · obtain ⟨mid', act, h1, h2, h3, h4, h5⟩ := partition_range (rnd k) grains l r hlr hr hb
    have hs : grainsAt (grains.take l ++ (mid' ++ grains.drop (r + 1))) l r = mid' :=
      grainsAt_pieces _ _ _ l r hpre (by rw [h3.length_eq]; exact hmid)
    refine ⟨_, act, h2, ?_, ?_, h4, h5, ?_, ?_, ?_, ?_⟩
    · have := frameOn_pieces (grains.take l) (grainsAt grains l r) mid' (grains.drop (r + 1))
        l r hpre hmid hlr h3
      rw [← hg] at this
      exact this
    · rw [hs]; exact h1
    · intro i _ hi; omega
    · intro i hi _; omega
    · intro i hi; omega
    · intro cnt res hres t ht
      by_cases hlt : l < r
      · obtain ⟨g, act', hp, hall⟩ := parQuickSort_handed rnd grains l r cnt k res hres hlt
        rw [h2] at hp
        simp only [Option.some.injEq, Prod.mk.injEq] at hp
        rw [← hp.2] at hall
        unfold cacheline at hall
        rcases hall t ht with h | h
        · exact Or.inl ⟨h.1, by omega, by omega⟩
        · exact Or.inr ⟨h.1, by omega, by omega⟩
      · have hq := TeamAdventure.parQuickSort_enqueued rnd grains l r cnt k res hres
        have hrs : rangeSize (l, r) = 1 := by simp only [rangeSize]; omega
        rw [hrs] at hq
        have hnil : res.2.2.2 = [] := by
          cases hres2 : res.2.2.2 with
          | nil => rfl
          | cons x xs =>
            rw [hres2] at hq
            simp only [queueSize, rangeSize, List.map_cons, List.sum_cons] at hq
            omega
        rw [hnil] at ht
        simp at ht

/-- Witness of C18: the range 1..4 of a vector of six grains. -/
theorem quickSort_frame_witness :
    (∃ d : Nat, getDivisionPoint ((fun k => 2 * k + 1) 0) 1 4 = some d ∧ 1 ≤ d ∧ d ≤ 4) ∧
    (∃ (out : List Nat) (k' : Nat),
      quickSort (fun k => 2 * k + 1) [5, 3, 8, 1, 9, 2] 1 4 0 = some (out, k') ∧
      FrameOn [5, 3, 8, 1, 9, 2] out 1 4 ∧
      quickSort (fun k => 2 * k + 1) (grainsAt [5, 3, 8, 1, 9, 2] 1 4) 0 (4 - 1) 0
        = some (grainsAt out 1 4, k')) ∧
    (∃ (out : List Nat) (act : Nat),
      partition ((fun k => 2 * k + 1) 0) [5, 3, 8, 1, 9, 2] 1 4 = some (out, act) ∧
      FrameOn [5, 3, 8, 1, 9, 2] out 1 4 ∧
      partition ((fun k => 2 * k + 1) 0) (grainsAt [5, 3, 8, 1, 9, 2] 1 4) 0 (4 - 1)
        = some (grainsAt out 1 4, act - 1) ∧
      1 ≤ act ∧ act ≤ 4 ∧
      (∀ i, 1 ≤ i → i + 1 ≤ act → i ≤ 4 ∧ i ≠ act) ∧
      (∀ i, act + 1 ≤ i → i ≤ 4 → 1 ≤ i ∧ i ≠ act) ∧
      (∀ i, ¬ (i + 1 ≤ act ∧ act + 1 ≤ i)) ∧
      (∀ (cnt : Int) (res : List Nat × Int × Nat × List (Nat × Nat)),
        TeamAdventure.parQuickSort (fun k => 2 * k + 1) [5, 3, 8, 1, 9, 2] 1 4 cnt 0
          = some res →
        ∀ t ∈ res.2.2.2, (t = (1, act - 1) ∧ 1 ≤ act - 1 ∧ act - 1 < act) ∨
          (t = (act + 1, 4) ∧ act < act + 1 ∧ act + 1 ≤ 4))) :=
  quickSort_frame (fun k => 2 * k + 1) [5, 3, 8, 1, 9, 2] 1 4 0 (by decide) (by decide)
    (by decide)
